import Mathlib

/-!
Verification of the archive rewrite engine of far.

A shallow embedding of `far.c` and `fileList.c`, and theorems about it.

Conventions of the embedding.
* A byte is a natural number; a C string is the list of its bytes before the
  terminating NUL (byte 0), so a C string never contains byte 0.
* `unsigned int` is 32 bits wide and is stored least significant byte first;
  `off_t` (the type of `st_size`) is wider than 32 bits.
* A stream opened for reading is the list of the bytes not yet read; a stream
  opened for writing is the list of the bytes written so far.
* `malloc` and `realloc` succeed, arrays have fewer than 2^31 elements (an index
  returned through `int` is not negative), and `rename` succeeds.
* The answers of the operating system about the files named on the command line
  do not change during a call, and none of these files is the archive or the
  temporary archive.
-/

namespace Far

/-- A byte, as returned by `getc` when it is not `EOF`. -/
abbrev Byte := Nat

/-- A C string: its bytes before the terminating NUL. -/
abbrev CStr := List Byte

/-- The character `'/'`. -/
def slash : Byte := 47

/-- The return codes of far.h. -/
inductive FAR_RTRN where
  | SUCCESS
  | OPEN_ERROR
  | CORRUPTED_ARCH
  | TEMP_FILE_ERROR
  deriving DecidableEq

/-- One line written to stderr, named after the function of far.c that prints it. -/
inductive Diag where
  | invalidArchiveNameError
  | corruptedArchiveError
  | fileOpenError (filename : CStr)
  | dirOpenError (dirname : CStr)
  | openTempArchiveError
  | cannotFindArgError (filename : CStr)
  deriving DecidableEq

/-- fileList.c `cannotOpenError`: it prints the same line as far.c `fileOpenError`. -/
def Diag.cannotOpenError (filename : CStr) : Diag :=
  Diag.fileOpenError filename

/-- One record of an archive: name, size field and body. -/
structure Entry where
  name : CStr
  size : Nat
  body : List Byte
  deriving DecidableEq

/-! ## Reading and writing `unsigned int` -/

/-- The effect of `fwrite(&x, sizeof(unsigned int), 1, f)`: the four bytes of `x` modulo 2^32. -/
def fwriteUint (x : Nat) : List Byte :=
  [x % 256, x / 256 % 256, x / 65536 % 256, x / 16777216 % 256]

/-- The effect of `fread(&x, sizeof(unsigned int), 1, f)`: the value and the rest of the stream,
or `none` when fewer than four bytes are left (fread returns 0). -/
def freadUint : List Byte → Option (Nat × List Byte)
  | b0 :: b1 :: b2 :: b3 :: rest =>
      some (b0 + 256 * b1 + 65536 * b2 + 16777216 * b3, rest)
  | _ => none

/-! ## Helper functions of far.c -/

/-- far.c `getFileName`: reads bytes up to the first NUL; `none` is the failure return (EOF met).
On success the charBuffer holds the name followed by NUL, so its `len` is the name length + 1. -/
def getFileName : List Byte → Option (CStr × List Byte)
  | [] => none
  | c :: rest =>
      if c = 0 then some ([], rest)
      else
        match getFileName rest with
        | none => none
        | some (name, rest') => some (c :: name, rest')

/-- The loop of far.c `isDuplicateFile`, started at index `i`. -/
def isDuplicateFileFrom (name : CStr) : List CStr → Nat → Int
  | [], _ => -1
  | n :: rest, i => if name = n then (i : Int) else isDuplicateFileFrom name rest (i + 1)

/-- far.c `isDuplicateFile`: index of the first of the first `numNames` elements of `nameArray`
equal to `name`, or -1. -/
def isDuplicateFile (name : CStr) (nameArray : List CStr) (numNames : Nat) : Int :=
  isDuplicateFileFrom name (nameArray.take numNames) 0

/-- The C library `strstr`: offset of the first occurrence of `needle` in `haystack`. -/
def strstr : CStr → CStr → Option Nat
  | [], needle => if needle.isPrefixOf [] then some 0 else none
  | c :: hay, needle =>
      if needle.isPrefixOf (c :: hay) then some 0
      else (strstr hay needle).map (· + 1)

/-- The loop of far.c `isDirectoryMatch`, started at index `i`. -/
def isDirectoryMatchFrom (filename : CStr) : List CStr → Nat → Int
  | [], _ => -1
  | d :: rest, i =>
      if strstr filename d = some 0 then (i : Int)
      else isDirectoryMatchFrom filename rest (i + 1)

/-- far.c `isDirectoryMatch`: index of the first of the first `numDirnames` elements of `dirnames`
that `strstr` finds at the very beginning of `filename`, or -1. -/
def isDirectoryMatch (filename : CStr) (dirnames : List CStr) (numDirnames : Nat) : Int :=
  isDirectoryMatchFrom filename (dirnames.take numDirnames) 0

/-- far.c `uintArrayAdd`: the array with `newValue` added at the end. -/
def uintArrayAdd (array : List Nat) (newValue : Nat) : List Nat :=
  array ++ [newValue]

/-- The loop `for(i = dirnameLen - 1; i >= 0 && dirname[i] == '/'; i--) outputSize--;` of
fileList.c `ensureSingleSlash`; the first argument is `i + 1`. -/
def ensureSingleSlashLoop (dirname : CStr) : Nat → Nat → Nat
  | 0, outputSize => outputSize
  | i + 1, outputSize =>
      if dirname.getD i 0 = slash then ensureSingleSlashLoop dirname i (outputSize - 1)
      else outputSize

/-- fileList.c `ensureSingleSlash`. -/
def ensureSingleSlash (dirname : CStr) : CStr :=
  let dirnameLen := dirname.length
  let outputSize := ensureSingleSlashLoop dirname dirnameLen (dirnameLen + 2)
  dirname.take (outputSize - 2) ++ [slash]

/-- far.c `compareUints`, the comparison handed to `qsort`. -/
def compareUints (a b : Nat) : Int :=
  if a < b then -1 else if a = b then 0 else 1

/-- The order `qsort` sorts by: `compareUints` does not put `a` after `b`. -/
def uintLe (a b : Nat) : Prop := compareUints a b ≤ 0

instance uintLeDecidable : DecidableRel uintLe :=
  fun a b => inferInstanceAs (Decidable (compareUints a b ≤ 0))

/-- The C library `qsort` with `compareUints`: the array sorted in ascending order. -/
def qsort (array : List Nat) : List Nat := array.insertionSort uintLe

/-- The loop `for(j = lo; j < hi; j++) cannotFindArgError(fileArgs[j]);` of far.c `printUnusedArgs`. -/
def cannotFindLoop (fileArgs : List CStr) (lo hi : Nat) : List Diag :=
  (List.range' lo (hi - lo)).map (fun j => Diag.cannotFindArgError (fileArgs.getD j []))

/-- The middle loop of far.c `printUnusedArgs`, over the consecutive pairs
`usedArgs[i-1]`, `usedArgs[i]` of the sorted array. -/
def betweenLoop (fileArgs : List CStr) : List Nat → List Diag
  | a :: b :: rest => cannotFindLoop fileArgs (a + 1) b ++ betweenLoop fileArgs (b :: rest)
  | _ => []

/-- far.c `printUnusedArgs`: the lines it writes to stderr. -/
def printUnusedArgs (fileArgs : List CStr) (numFileArgs : Nat) (usedArgs : List Nat) : List Diag :=
  if usedArgs ≠ [] then
    let sorted := qsort usedArgs
    cannotFindLoop fileArgs 0 (sorted.headD 0)
      ++ betweenLoop fileArgs sorted
      ++ cannotFindLoop fileArgs (sorted.getLastD 0 + 1) numFileArgs
  else
    cannotFindLoop fileArgs 0 numFileArgs

/-! ## The two files a rewriting command touches -/

/-- The file named `archiveName` and the file named `ARCHIVE.bak`: `none` when `fopen` on the
name fails (for the archive) or when there is no such file (for the temporary file). -/
structure Disk where
  archive : Option (List Byte)
  temp : Option (List Byte)
  deriving DecidableEq

/-- What a command leaves behind: its return code, the two files and the lines on stderr. -/
structure Outcome where
  code : FAR_RTRN
  disk : Disk
  stderr : List Diag
  deriving DecidableEq

/-- far.c `finalizeArchive`: the count is written over the first four bytes of the temporary
archive, which is then renamed to the archive name (`rename` is taken to succeed). -/
def finalizeArchive (tempArchive : List Byte) (numFiles : Nat) : Disk :=
  { archive := some (fwriteUint numFiles ++ tempArchive.drop 4), temp := none }

/-- The body loop of far.c `farAdd` and `farDelete`:
`for(j = 0; j < fileSize; j++)` reads one byte of `oldArchive`, leaves with the corrupted-archive
error at EOF (`none`), and puts the byte to `tempArchive` if `shouldCopy`. -/
def copyBodyLoop (shouldCopy : Bool) : Nat → List Byte → List Byte → Option (List Byte × List Byte)
  | 0, oldArchive, tempArchive => some (oldArchive, tempArchive)
  | _ + 1, [], _ => none
  | j + 1, c :: oldArchive, tempArchive =>
      copyBodyLoop shouldCopy j oldArchive (if shouldCopy then tempArchive ++ [c] else tempArchive)

/-- The index an entry is recorded under in `usedArgs` (far.c 607-616 and 757-766):
`exactMatchIndex` if it is not negative, else `directoryMatchIndex` if it is not negative. -/
def usedArgIndex (exactMatchIndex directoryMatchIndex : Int) : Option Nat :=
  if exactMatchIndex ≥ 0 then some exactMatchIndex.toNat
  else if directoryMatchIndex ≥ 0 then some directoryMatchIndex.toNat
  else none

/-- The variables of the copy loop of far.c `farDelete`. -/
structure DeleteState where
  oldArchive : List Byte
  tempArchive : List Byte
  newNumFiles : Nat
  usedArgs : List Nat
  deriving DecidableEq

/-- The loop `for(i = 0; i < oldNumFiles; i++)` of far.c `farDelete`; the first numeric argument is
the number of iterations left; `none` is a return through `corruptedArchiveError`. -/
def farDeleteLoop (fileArgs slashedFileArgs : List CStr) (numFileArgs : Nat) :
    Nat → DeleteState → Option DeleteState
  | 0, st => some st
  | n + 1, st =>
      match getFileName st.oldArchive with
      | none => none
      | some (filename, afterName) =>
        match freadUint afterName with
        | none => none
        | some (fileSize, afterSize) =>
          let exactMatchIndex := isDuplicateFile filename fileArgs numFileArgs
          let directoryMatchIndex := isDirectoryMatch filename slashedFileArgs numFileArgs
          let usedArgs :=
            match usedArgIndex exactMatchIndex directoryMatchIndex with
            | some i => uintArrayAdd st.usedArgs i
            | none => st.usedArgs
          let shouldCopy : Bool := exactMatchIndex < 0 && directoryMatchIndex < 0
          let tempArchive :=
            if shouldCopy then st.tempArchive ++ (filename ++ [0]) ++ fwriteUint fileSize
            else st.tempArchive
          let newNumFiles :=
            if shouldCopy then (st.newNumFiles + 1) % 4294967296 else st.newNumFiles
          match copyBodyLoop shouldCopy fileSize afterSize tempArchive with
          | none => none
          | some (oldArchive, tempArchive) =>
              farDeleteLoop fileArgs slashedFileArgs numFileArgs n
                { oldArchive := oldArchive, tempArchive := tempArchive,
                  newNumFiles := newNumFiles, usedArgs := usedArgs }

/-- far.c `farDelete`. `fileArgs` is the array of `numFileArgs` selectors (`numFileArgs` is an
`unsigned char`, so the list has at most 255 elements); `tempOk` tells whether
`fopen(TEMP_ARCHIVE_NAME, "wb+")` succeeds. -/
def farDelete (tempOk : Bool) (disk : Disk) (fileArgs : List CStr) : Outcome :=
  let numFileArgs := fileArgs.length
  if numFileArgs = 0 then
    { code := FAR_RTRN.SUCCESS, disk := disk, stderr := [] }
  else
    let slashedFileArgs := fileArgs.map ensureSingleSlash
    match disk.archive with
    | none =>
        { code := FAR_RTRN.OPEN_ERROR, disk := disk, stderr := [Diag.invalidArchiveNameError] }
    | some bytes =>
      match freadUint bytes with
      | none =>
          { code := FAR_RTRN.CORRUPTED_ARCH, disk := disk, stderr := [Diag.corruptedArchiveError] }
      | some (oldNumFiles, oldArchive) =>
        if tempOk = false then
          { code := FAR_RTRN.TEMP_FILE_ERROR, disk := disk,
            stderr := [Diag.openTempArchiveError] }
        else
          match farDeleteLoop fileArgs slashedFileArgs numFileArgs oldNumFiles
              { oldArchive := oldArchive, tempArchive := fwriteUint 0,
                newNumFiles := 0, usedArgs := [] } with
          | none =>
              { code := FAR_RTRN.CORRUPTED_ARCH, disk := { disk with temp := none },
                stderr := [Diag.corruptedArchiveError] }
          | some st =>
              { code := FAR_RTRN.SUCCESS,
                disk := finalizeArchive st.tempArchive st.newNumFiles,
                stderr := printUnusedArgs fileArgs numFileArgs st.usedArgs }

/-! ## The files a command reads: fileList.c and farAdd -/

/-- The file kinds `st_mode` tells apart with the `S_IS...` tests of fileList.c `checkFileType`. -/
inductive FileMode where
  | chr
  | blk
  | fifo
  | lnk
  | sock
  | reg
  | dir
  | unknown
  deriving DecidableEq

/-- The answers of the operating system to the calls far makes on the files named on the command
line. `lstat` gives the kind of the file (`none`: the call fails), `stat` gives `st_size`
(`none`: the call fails), `fopen` gives the bytes `fgetc` will deliver from `fopen(name, "rb")`
(`none`: NULL), `opendir` tells whether `opendir` returns a directory stream, `readdir` lists the
`d_name` of the entries of a directory in the order `readdir` returns them, and `depth` bounds the
number of nested directory levels met at a path (1 for a directory without subdirectories). -/
structure FileSys where
  lstat : CStr → Option FileMode
  stat : CStr → Option Nat
  fopen : CStr → Option (List Byte)
  opendir : CStr → Bool
  readdir : CStr → List CStr
  depth : CStr → Nat

/-- fileList.c `checkFileType`. -/
def checkFileType (fs : FileSys) (filename : CStr) : Nat :=
  match fs.lstat filename with
  | none => 0
  | some FileMode.chr => 3
  | some FileMode.blk => 3
  | some FileMode.fifo => 3
  | some FileMode.lnk => 3
  | some FileMode.sock => 3
  | some FileMode.reg => if (fs.fopen filename).isSome then 1 else 0
  | some FileMode.dir => if fs.opendir filename then 2 else 0
  | some FileMode.unknown => 3

/-- The struct `fileList` of fileList.h (`numNames` is the length of `names`; the allocated
capacity `sizeNames` is left out), together with the lines fileList.c has written to stderr. -/
structure fileList where
  names : List CStr
  stderr : List Diag
  deriving DecidableEq

/-- fileList.c `fileListAddName`. -/
def fileListAddName (files : fileList) (filename : CStr) : fileList :=
  { files with names := files.names ++ [filename] }

/-- fileList.c `appendDir`. -/
def appendDir (dirBase dirExtension : CStr) : CStr :=
  dirBase ++ dirExtension

/-- The name `"."`. -/
def dotName : CStr := [46]

/-- The name `".."`. -/
def dotDotName : CStr := [46, 46]

/-- fileList.c `fileListAddDir`; `checkAndAddName` is the function called on the children. -/
def fileListAddDir (fs : FileSys) (checkAndAddName : fileList → CStr → fileList)
    (files : fileList) (dirname : CStr) : fileList :=
  let slashedDirname := ensureSingleSlash dirname
  let files := fileListAddName files slashedDirname
  (fs.readdir dirname).foldl
    (fun files d_name =>
      if d_name ≠ dotName ∧ d_name ≠ dotDotName then
        checkAndAddName files (appendDir slashedDirname d_name)
      else files)
    files

/-- fileList.c `fileListCheckAndAddName`; the numeric argument bounds the depth of the recursion
into directories: a directory met when it is 0 is not entered. -/
def fileListCheckAndAddName (fs : FileSys) : Nat → fileList → CStr → fileList
  | 0, files, filename =>
    match checkFileType fs filename with
    | 0 => { files with stderr := files.stderr ++ [Diag.cannotOpenError filename] }
    | 1 => fileListAddName files filename
    | _ => files
  | fuel + 1, files, filename =>
    match checkFileType fs filename with
    | 0 => { files with stderr := files.stderr ++ [Diag.cannotOpenError filename] }
    | 1 => fileListAddName files filename
    | 2 => fileListAddDir fs (fileListCheckAndAddName fs fuel) files filename
    | _ => files

/-- fileList.c `fileListNew`. -/
def fileListNew (fs : FileSys) (initNames : List CStr) : fileList :=
  initNames.foldl (fun files name => fileListCheckAndAddName fs (fs.depth name) files name)
    { names := [], stderr := [] }

/-- The loop of far.c `writeFileToArchive`; the first component of the result is the return
value (-1 when `fgetc` meets EOF). -/
def writeFileLoop : Nat → List Byte → List Byte → Int × List Byte
  | 0, _, archive => (0, archive)
  | _ + 1, [], archive => (-1, archive)
  | i + 1, c :: fileToAdd, archive => writeFileLoop i fileToAdd (archive ++ [c])

/-- far.c `writeFileToArchive`: the return value and the archive stream afterwards. -/
def writeFileToArchive (fileToAdd : List Byte) (filename : CStr) (fileSize : Nat)
    (archive : List Byte) : Int × List Byte :=
  writeFileLoop fileSize fileToAdd (archive ++ (filename ++ [0]) ++ fwriteUint fileSize)

/-- The variables of far.c `farAdd` that its two loops change. -/
structure AddState where
  oldArchive : List Byte
  tempArchive : List Byte
  newNumFiles : Nat
  stderr : List Diag
  deriving DecidableEq

/-- The loop `for(i = 0; i < oldNumFiles; i++)` of far.c `farAdd`; the numeric argument is the
number of iterations left; `none` is a return through `corruptedArchiveError`. -/
def farAddCopyLoop (validArgs : List CStr) : Nat → AddState → Option AddState
  | 0, st => some st
  | n + 1, st =>
      match getFileName st.oldArchive with
      | none => none
      | some (filename, afterName) =>
        match freadUint afterName with
        | none => none
        | some (fileSize, afterSize) =>
          let shouldCopy : Bool := isDuplicateFile filename validArgs validArgs.length < 0
          let tempArchive :=
            if shouldCopy then st.tempArchive ++ (filename ++ [0]) ++ fwriteUint fileSize
            else st.tempArchive
          let newNumFiles :=
            if shouldCopy then (st.newNumFiles + 1) % 4294967296 else st.newNumFiles
          match copyBodyLoop shouldCopy fileSize afterSize tempArchive with
          | none => none
          | some (oldArchive, tempArchive) =>
              farAddCopyLoop validArgs n
                { st with oldArchive := oldArchive, tempArchive := tempArchive,
                          newNumFiles := newNumFiles }

/-- One iteration, for index `i`, of the loop of far.c `farAdd` that appends the new files;
`none` when `fopen` returns NULL and the null stream is handed to `fgetc` or `fclose`
(the behaviour of the program is then undefined). -/
def farAddAppendStep (fs : FileSys) (names : List CStr) (st : AddState) (i : Nat) :
    Option AddState :=
  let name := names.getD i []
  if isDuplicateFile name names i ≥ 0 then some st
  else
    match fs.stat name with
    | none => some { st with stderr := st.stderr ++ [Diag.fileOpenError name] }
    | some st_size =>
      if fs.opendir name then
        some { st with tempArchive := st.tempArchive ++ (name ++ [0]) ++ fwriteUint 0,
                       newNumFiles := (st.newNumFiles + 1) % 4294967296 }
      else
        match fs.fopen name with
        | none => none
        | some fileToAdd =>
          let fileSize := st_size % 4294967296
          some { st with
                 tempArchive := (writeFileToArchive fileToAdd name fileSize st.tempArchive).2,
                 newNumFiles := (st.newNumFiles + 1) % 4294967296 }

/-- The loop `for(i = 0; i < validArgs->numNames; i++)` of far.c `farAdd`: the first numeric
argument is the number of iterations left, the second is `i`. -/
def farAddAppendLoop (fs : FileSys) (names : List CStr) : Nat → Nat → AddState → Option AddState
  | 0, _, st => some st
  | n + 1, i, st =>
      match farAddAppendStep fs names st i with
      | none => none
      | some st' => farAddAppendLoop fs names n (i + 1) st'

/-- far.c `farAdd`. `tempOk` tells whether `fopen(TEMP_ARCHIVE_NAME, "wb+")` succeeds; the
result is `none` when the program hands a null stream to `fclose` or `fgetc`. -/
def farAdd (fs : FileSys) (tempOk : Bool) (disk : Disk) (fileArgs : List CStr) :
    Option Outcome :=
  let numFileArgs := fileArgs.length
  if numFileArgs = 0 then
    some { code := FAR_RTRN.SUCCESS, disk := disk, stderr := [] }
  else
    let validArgs := fileListNew fs fileArgs
    let opened : Option (Nat × List Byte) :=
      match disk.archive with
      | some bytes => freadUint bytes
      | none => some (0, [])
    match opened with
    | none =>
        some { code := FAR_RTRN.CORRUPTED_ARCH, disk := disk,
               stderr := validArgs.stderr ++ [Diag.corruptedArchiveError] }
    | some (oldNumFiles, oldArchive) =>
      if tempOk = false then
        match disk.archive with
        | none => none
        | some _ =>
            some { code := FAR_RTRN.TEMP_FILE_ERROR, disk := disk,
                   stderr := validArgs.stderr ++ [Diag.openTempArchiveError] }
      else
        match farAddCopyLoop validArgs.names oldNumFiles
            { oldArchive := oldArchive, tempArchive := fwriteUint 0, newNumFiles := 0,
              stderr := validArgs.stderr } with
        | none =>
            some { code := FAR_RTRN.CORRUPTED_ARCH, disk := { disk with temp := none },
                   stderr := validArgs.stderr ++ [Diag.corruptedArchiveError] }
        | some st =>
          match farAddAppendLoop fs validArgs.names validArgs.names.length 0 st with
          | none => none
          | some st' =>
              some { code := FAR_RTRN.SUCCESS,
                     disk := finalizeArchive st'.tempArchive st'.newNumFiles,
                     stderr := st'.stderr }

/-! ## Reading an archive back -/

/-- The body loop of far.c `farPrint` (and of the skip branch of `farExtract`), keeping the
bytes it reads: `for(j = 0; j < fileSize; j++)` reads one byte and fails at EOF. -/
def readBodyLoop : Nat → List Byte → Option (List Byte × List Byte)
  | 0, archive => some ([], archive)
  | _ + 1, [] => none
  | j + 1, c :: archive =>
      match readBodyLoop j archive with
      | none => none
      | some (body, rest) => some (c :: body, rest)

/-- The entry loop shared by far.c `farPrint`, `farExtract`, `farAdd` and `farDelete`, as a
decoder: per entry `getFileName`, the 4-byte size read, then `size` body bytes. -/
def readEntries : Nat → List Byte → Option (List Entry × List Byte)
  | 0, archive => some ([], archive)
  | n + 1, archive =>
      match getFileName archive with
      | none => none
      | some (filename, afterName) =>
        match freadUint afterName with
        | none => none
        | some (fileSize, afterSize) =>
          match readBodyLoop fileSize afterSize with
          | none => none
          | some (body, rest) =>
            match readEntries n rest with
            | none => none
            | some (es, rest') => some ({ name := filename, size := fileSize, body := body } :: es, rest')

/-- Decoding an archive: the 4-byte count read followed by that many entries; the result holds
the entries and the bytes left unread. -/
def readArchive (archive : List Byte) : Option (List Entry × List Byte) :=
  match freadUint archive with
  | none => none
  | some (numFiles, rest) => readEntries numFiles rest

/-- Writing the entries one after the other with far.c `writeFileToArchive`, each body being
the stream the entry is read from. -/
def writeEntries : List Entry → List Byte → List Byte
  | [], archive => archive
  | e :: es, archive => writeEntries es (writeFileToArchive e.body e.name e.size archive).2

/-- Writing an archive: the count (an `unsigned int`), then each entry with
`writeFileToArchive`. -/
def writeArchive (es : List Entry) : List Byte :=
  writeEntries es (fwriteUint es.length)

/-! ## farExtract -/

/-- What `opendir` reports to far.c `ensureDirExists`: a directory stream, NULL with `errno`
equal to `EACCES`, or NULL with another `errno`. -/
inductive OpendirResult where
  | opened
  | eacces
  | failed
  deriving DecidableEq

/-- The file system as extraction sees and changes it, over states of type `σ`: `opendir`
reports on a directory, `mkdir` tells whether `mkdir(dirname, 0777)` succeeds and gives the state
after it, `fopen` tells whether `fopen(filename, "wb+")` returns a stream and gives the state
after it, and `fputs` gives the state once the bytes put to that stream have reached the file. -/
structure ExtractFS (σ : Type) where
  opendir : σ → CStr → OpendirResult
  mkdir : σ → CStr → Bool × σ
  fopen : σ → CStr → Bool × σ
  fputs : σ → CStr → List Byte → σ

/-- The variables of far.c `farExtract` that its loop changes, the state of the file system and
the lines on stderr. -/
structure ExtractState (σ : Type) where
  archive : List Byte
  world : σ
  stderr : List Diag
  usedArgs : List Nat

/-- far.c `ensureDirExists`. -/
def ensureDirExists {σ : Type} (fsx : ExtractFS σ) (dirname : CStr) (st : ExtractState σ) :
    ExtractState σ :=
  match fsx.opendir st.world dirname with
  | OpendirResult.opened => st
  | OpendirResult.eacces => { st with stderr := st.stderr ++ [Diag.dirOpenError dirname] }
  | OpendirResult.failed =>
      if (fsx.mkdir st.world dirname).1 then
        { st with world := (fsx.mkdir st.world dirname).2 }
      else
        { st with world := (fsx.mkdir st.world dirname).2,
                  stderr := st.stderr ++ [Diag.dirOpenError dirname] }

/-- The C library `strcspn(s, "/")`: the number of bytes of `s` before its first `'/'`. -/
def strcspnSlash (s : CStr) : Nat :=
  (s.takeWhile (fun c => decide (c ≠ slash))).length

/-- The loop `while(currentLen < strlen(filename))` of far.c `extractFile`; the first numeric
argument bounds the number of iterations, the second is `currentLen`. The first component of the
result is the return value: -1 when `fgetc` meets EOF in the archive, else 0. -/
def extractFileLoop {σ : Type} (fsx : ExtractFS σ) (filename : CStr) (fileSize : Nat) :
    Nat → Nat → ExtractState σ → Int × ExtractState σ
  | 0, _, st => (0, st)
  | fuel + 1, currentLen, st =>
      if currentLen < filename.length then
        let currentLen := currentLen + strcspnSlash (filename.drop currentLen) + 1
        let currentStr := filename.take currentLen
        if filename.getD (currentLen - 1) 0 = slash then
          extractFileLoop fsx filename fileSize fuel currentLen
            (ensureDirExists fsx currentStr st)
        else
          if (fsx.fopen st.world filename).1 then
            match readBodyLoop fileSize st.archive with
            | none =>
                (-1, { st with archive := [],
                               world := fsx.fputs (fsx.fopen st.world filename).2 filename
                                 st.archive })
            | some (body, rest) =>
                extractFileLoop fsx filename fileSize fuel currentLen
                  { st with archive := rest,
                            world := fsx.fputs (fsx.fopen st.world filename).2 filename body }
          else
            extractFileLoop fsx filename fileSize fuel currentLen
              { st with world := (fsx.fopen st.world filename).2,
                        stderr := st.stderr ++ [Diag.fileOpenError filename] }
      else (0, st)

/-- far.c `extractFile`. Every iteration of its loop adds at least 1 to `currentLen`, so
`strlen(filename) + 1` iterations are never exceeded. -/
def extractFile {σ : Type} (fsx : ExtractFS σ) (filename : CStr) (fileSize : Nat)
    (st : ExtractState σ) : Int × ExtractState σ :=
  extractFileLoop fsx filename fileSize (filename.length + 2) 0 st

/-- The loop `for(i = 0; i < numFiles; i++)` of far.c `farExtract`; the numeric argument is the
number of iterations left; the first component of the result is `false` when the loop is left
through `corruptedArchiveError`. -/
def farExtractLoop {σ : Type} (fsx : ExtractFS σ) (fileArgs slashedFileArgs : List CStr)
    (numFileArgs : Nat) : Nat → ExtractState σ → Bool × ExtractState σ
  | 0, st => (true, st)
  | n + 1, st =>
      match getFileName st.archive with
      | none => (false, st)
      | some (filename, afterName) =>
        match freadUint afterName with
        | none => (false, st)
        | some (fileSize, afterSize) =>
          if numFileArgs = 0 then
            if (extractFile fsx filename fileSize { st with archive := afterSize }).1 < 0 then
              (false, (extractFile fsx filename fileSize { st with archive := afterSize }).2)
            else
              farExtractLoop fsx fileArgs slashedFileArgs numFileArgs n
                (extractFile fsx filename fileSize { st with archive := afterSize }).2
          else
            let exactMatchIndex := isDuplicateFile filename fileArgs numFileArgs
            let directoryMatchIndex := isDirectoryMatch filename slashedFileArgs numFileArgs
            let usedArgs :=
              match usedArgIndex exactMatchIndex directoryMatchIndex with
              | some i => uintArrayAdd st.usedArgs i
              | none => st.usedArgs
            let st1 : ExtractState σ := { st with archive := afterSize, usedArgs := usedArgs }
            if exactMatchIndex ≥ 0 ∨ directoryMatchIndex ≥ 0 then
              if (extractFile fsx filename fileSize st1).1 < 0 then
                (false, (extractFile fsx filename fileSize st1).2)
              else
                farExtractLoop fsx fileArgs slashedFileArgs numFileArgs n
                  (extractFile fsx filename fileSize st1).2
            else
              match readBodyLoop fileSize afterSize with
              | none => (false, st1)
              | some (_, rest) =>
                  farExtractLoop fsx fileArgs slashedFileArgs numFileArgs n
                    { st1 with archive := rest }

/-- What far.c `farExtract` leaves behind: its return code, the file system and the lines on
stderr. -/
structure ExtractOutcome (σ : Type) where
  code : FAR_RTRN
  world : σ
  stderr : List Diag

/-- far.c `farExtract`; `archive` is `none` when `fopen(archiveName, "rb")` fails. -/
def farExtract {σ : Type} (fsx : ExtractFS σ) (archive : Option (List Byte)) (world : σ)
    (fileArgs : List CStr) : ExtractOutcome σ :=
  let numFileArgs := fileArgs.length
  match archive with
  | none =>
      { code := FAR_RTRN.OPEN_ERROR, world := world, stderr := [Diag.invalidArchiveNameError] }
  | some bytes =>
    match freadUint bytes with
    | none =>
        { code := FAR_RTRN.CORRUPTED_ARCH, world := world,
          stderr := [Diag.corruptedArchiveError] }
    | some (numFiles, afterCount) =>
      let slashedFileArgs := fileArgs.map ensureSingleSlash
      match farExtractLoop fsx fileArgs slashedFileArgs numFileArgs numFiles
          { archive := afterCount, world := world, stderr := [], usedArgs := [] } with
      | (false, st) =>
          { code := FAR_RTRN.CORRUPTED_ARCH, world := st.world,
            stderr := st.stderr ++ [Diag.corruptedArchiveError] }
      | (true, st) =>
          { code := FAR_RTRN.SUCCESS, world := st.world,
            stderr := st.stderr ++ printUnusedArgs fileArgs numFileArgs st.usedArgs }

/-- The line is a `Cannot find file` diagnostic. -/
def Diag.isCannotFind : Diag → Bool
  | Diag.cannotFindArgError _ => true
  | _ => false

/-- A file system for extraction in which every directory exists and every file can be
created; its state is the list of the files written, latest first. -/
def permissiveFS : ExtractFS (List (CStr × List Byte)) :=
  { opendir := fun _ _ => OpendirResult.opened,
    mkdir := fun w _ => (true, w),
    fopen := fun w _ => (true, w),
    fputs := fun w name bytes => (name, bytes) :: w }

/-! ## The archive format of the specification -/

/-- The bytes of one entry: the name, NUL, the size field and the body. -/
def encodeEntry (e : Entry) : List Byte :=
  e.name ++ [0] ++ fwriteUint e.size ++ e.body

/-- The bytes of a sequence of entries, one after the other without padding. -/
def encodeEntries : List Entry → List Byte
  | [] => []
  | e :: es => encodeEntry e ++ encodeEntries es

/-- The bytes of an archive: the count, then the entries. -/
def encodeArchive (es : List Entry) : List Byte :=
  fwriteUint es.length ++ encodeEntries es

/-- An entry the format can hold: the name has no NUL byte, the size fits 32 bits, and the body
has exactly `size` bytes. -/
def Entry.Valid (e : Entry) : Prop :=
  (0 : Byte) ∉ e.name ∧ e.size < 4294967296 ∧ e.body.length = e.size

instance Entry.validDecidable (e : Entry) : Decidable e.Valid :=
  inferInstanceAs
    (Decidable ((0 : Byte) ∉ e.name ∧ e.size < 4294967296 ∧ e.body.length = e.size))

/-- A well-formed archive holding the entries `es`: a 4-byte count `n` followed by exactly `n`
entries and nothing else. -/
def WellFormed (bytes : List Byte) (es : List Entry) : Prop :=
  es.length < 4294967296 ∧ (∀ e ∈ es, e.Valid) ∧ bytes = encodeArchive es

instance WellFormed.decidable (bytes : List Byte) (es : List Entry) :
    Decidable (WellFormed bytes es) :=
  inferInstanceAs
    (Decidable (es.length < 4294967296 ∧ (∀ e ∈ es, e.Valid) ∧ bytes = encodeArchive es))

/-! ## Matching, as farDelete and farExtract do it -/

/-- The index farDelete and farExtract record for an entry named `filename` (far.c 598-616 and
748-766): `isDuplicateFile` on the selectors, `isDirectoryMatch` on their slashed forms, and the
choice between the two results; `none` when both are negative. -/
def matchIndex (fileArgs : List CStr) (filename : CStr) : Option Nat :=
  usedArgIndex (isDuplicateFile filename fileArgs fileArgs.length)
    (isDirectoryMatch filename (fileArgs.map ensureSingleSlash) fileArgs.length)

/-- Some selector matches the name: it is the name itself, or its slashed form is a prefix of
the name. -/
def Selected (fileArgs : List CStr) (name : CStr) : Prop :=
  ∃ s ∈ fileArgs, name = s ∨ ensureSingleSlash s <+: name

instance Selected.decidable (fileArgs : List CStr) (name : CStr) :
    Decidable (Selected fileArgs name) :=
  inferInstanceAs (Decidable (∃ s ∈ fileArgs, name = s ∨ ensureSingleSlash s <+: name))

/-! ## What farAdd is expected to append -/

/-- The old archive as farAdd and farDelete find it: either the file cannot be opened and counts
as holding no entry, or it is a well-formed archive holding `es`. -/
def Holds (archive : Option (List Byte)) (es : List Entry) : Prop :=
  match archive with
  | none => es = []
  | some bytes => WellFormed bytes es

instance Holds.decidable (archive : Option (List Byte)) (es : List Entry) :
    Decidable (Holds archive es) :=
  match archive with
  | none => inferInstanceAs (Decidable (es = []))
  | some bytes => inferInstanceAs (Decidable (WellFormed bytes es))

/-- A name fileList.c puts in the list: one it has found to be a readable regular file, or the
slashed form of the name of a directory. -/
def AddedName (fs : FileSys) (n : CStr) : Prop :=
  checkFileType fs n = 1 ∨ ∃ d, n = ensureSingleSlash d ∧ checkFileType fs d = 2

/-- The names of a list in order of first occurrence, each once. -/
def firstOccurrences : List CStr → List CStr
  | [] => []
  | n :: rest => n :: (firstOccurrences rest).filter (fun m => decide (m ≠ n))

/-- The entry the append loop of farAdd writes for a candidate that can be stat'ed: a directory
gives a zero-size entry, another file gives the first `st_size mod 2^32` bytes it delivers under
the size field `st_size mod 2^32`. A candidate that cannot be stat'ed gives no entry. -/
def candidateEntry (fs : FileSys) (name : CStr) : Option Entry :=
  match fs.stat name with
  | none => none
  | some st_size =>
    if fs.opendir name then some { name := name, size := 0, body := [] }
    else
      some { name := name, size := st_size % 4294967296,
             body := ((fs.fopen name).getD []).take (st_size % 4294967296) }

/-- The entries appended for the candidates `todo` when the candidates `seen` come before them
in the list. -/
def appendedFrom (fs : FileSys) : List CStr → List CStr → List Entry
  | _, [] => []
  | seen, name :: todo =>
      (if name ∈ seen then [] else (candidateEntry fs name).toList)
        ++ appendedFrom fs (seen ++ [name]) todo

/-- The old entries farAdd copies: those whose name is no candidate name. -/
def keptEntries (candidates : List CStr) (es : List Entry) : List Entry :=
  es.filter (fun e => decide (e.name ∉ candidates))

/-- Every candidate that can be stat'ed and is not a directory can be opened for reading, so
that far.c `farAdd` never hands a null stream to `fgetc` or `fclose`. -/
def Openable (fs : FileSys) (candidates : List CStr) : Prop :=
  ∀ c ∈ candidates, fs.opendir c = false → (fs.stat c).isSome = true →
    (fs.fopen c).isSome = true

instance Openable.decidable (fs : FileSys) (candidates : List CStr) :
    Decidable (Openable fs candidates) :=
  inferInstanceAs (Decidable (∀ c ∈ candidates, fs.opendir c = false →
    (fs.stat c).isSome = true → (fs.fopen c).isSome = true))

/-- A directory that `opendir` opens is also opened under its slashed name (`"d"` and `"d/"`
name the same directory). -/
def SlashCoherent (fs : FileSys) : Prop :=
  ∀ d, fs.opendir d = true → fs.opendir (ensureSingleSlash d) = true

/-- Every candidate that can be stat'ed and is not a directory can be opened and delivers at
least `st_size` bytes. -/
def YieldsStatSize (fs : FileSys) (candidates : List CStr) : Prop :=
  ∀ c ∈ candidates, fs.opendir c = false → ∀ st_size ∈ fs.stat c,
    ∃ content ∈ fs.fopen c, st_size ≤ content.length

instance YieldsStatSize.decidable (fs : FileSys) (candidates : List CStr) :
    Decidable (YieldsStatSize fs candidates) :=
  inferInstanceAs (Decidable (∀ c ∈ candidates, fs.opendir c = false → ∀ st_size ∈ fs.stat c,
    ∃ content ∈ fs.fopen c, st_size ≤ content.length))

/-- The bytes the file named `c` delivers when it is opened for reading. -/
def fileContent (fs : FileSys) (c : CStr) : List Byte :=
  (fs.fopen c).getD []

/-- The candidate is a directory: it can be stat'ed and `opendir` opens it. -/
def IsDirectory (fs : FileSys) (c : CStr) : Prop :=
  (fs.stat c).isSome = true ∧ fs.opendir c = true

/-- The candidate is a readable regular file: `opendir` refuses it, `fopen` opens it, and its
`st_size` is the number of bytes it holds. -/
def IsRegularFile (fs : FileSys) (c : CStr) : Prop :=
  fs.opendir c = false ∧ ∃ content ∈ fs.fopen c, fs.stat c = some content.length

instance IsDirectory.decidable (fs : FileSys) (c : CStr) : Decidable (IsDirectory fs c) :=
  inferInstanceAs (Decidable ((fs.stat c).isSome = true ∧ fs.opendir c = true))

instance IsRegularFile.decidable (fs : FileSys) (c : CStr) : Decidable (IsRegularFile fs c) :=
  inferInstanceAs
    (Decidable (fs.opendir c = false ∧ ∃ content ∈ fs.fopen c, fs.stat c = some content.length))

/-- The entry the specification expects for a candidate: a directory as a zero-size entry under
the candidate name, a regular file with its full contents. -/
def expectedEntry (fs : FileSys) (c : CStr) : Entry :=
  if fs.opendir c then { name := c, size := 0, body := [] }
  else { name := c, size := (fileContent fs c).length, body := fileContent fs c }

/-! ## What farExtract extracts, and which selectors are reported -/

/-- The name is that of a regular file for far.c `extractFile`: it is not empty and does not end
in `'/'`. -/
def NamesFile (name : CStr) : Prop :=
  name ≠ [] ∧ name.getLast? ≠ some slash

instance NamesFile.decidable (name : CStr) : Decidable (NamesFile name) :=
  inferInstanceAs (Decidable (name ≠ [] ∧ name.getLast? ≠ some slash))

/-- The entry is extracted by farExtract: no selector was given, or some selector matches. -/
def Extracted (fileArgs : List CStr) (name : CStr) : Prop :=
  fileArgs = [] ∨ matchIndex fileArgs name ≠ none

instance Extracted.decidable (fileArgs : List CStr) (name : CStr) :
    Decidable (Extracted fileArgs name) :=
  inferInstanceAs (Decidable (fileArgs = [] ∨ matchIndex fileArgs name ≠ none))

/-- The selector indices under which no entry of `es` is recorded, in increasing order. -/
def unrecordedSelectors (fileArgs : List CStr) (es : List Entry) : List Nat :=
  (List.range fileArgs.length).filter
    (fun i => decide (∀ e ∈ es, matchIndex fileArgs e.name ≠ some i))

/-! ## Inputs the theorems are evaluated at -/

/-- The entry with the empty name and no body. -/
def emptyEntry : Entry := { name := [], size := 0, body := [] }

/-- The entries `("x.txt", 5, "hello")` and `("y.txt", 3, "bye")` used as an example by the
specification. -/
def exampleEntries : List Entry :=
  [ { name := [120, 46, 116, 120, 116], size := 5, body := [104, 101, 108, 108, 111] },
    { name := [121, 46, 116, 120, 116], size := 3, body := [98, 121, 101] } ]

/-- A file system holding one regular file, named `"f"`, that delivers the bytes `content`
and whose `st_size` is `st_size`; no other name can be stat'ed or opened. -/
def oneFileSys (content : List Byte) (st_size : Nat) : FileSys :=
  { lstat := fun n => if n = [102] then some FileMode.reg else none,
    stat := fun n => if n = [102] then some st_size else none,
    fopen := fun n => if n = [102] then some content else none,
    opendir := fun _ => false,
    readdir := fun _ => [],
    depth := fun _ => 0 }

/-- A file system holding the directory `"d"` with the single regular file `"a"` of two bytes
in it. -/
def sampleFileSys : FileSys :=
  { lstat := fun n =>
      if n = [100] ∨ n = [100, 47] then some FileMode.dir
      else if n = [100, 47, 97] then some FileMode.reg else none,
    stat := fun n =>
      if n = [100] ∨ n = [100, 47] then some 4096
      else if n = [100, 47, 97] then some 2 else none,
    fopen := fun n => if n = [100, 47, 97] then some [7, 8] else none,
    opendir := fun n => decide (n = [100] ∨ n = [100, 47]),
    readdir := fun n => if n = [100] ∨ n = [100, 47] then [[46], [46, 46], [97]] else [],
    depth := fun _ => 1 }

/-- The `int` that `printf` reads for a `%d` conversion when its argument is the `unsigned int`
`x`: the `int` with the same 32 bits. -/
def asInt (x : Nat) : Int :=
  if x % 4294967296 < 2147483648 then ((x % 4294967296 : Nat) : Int)
  else ((x % 4294967296 : Nat) : Int) - 4294967296

/-- The decimal digits of `n`, most significant first, as characters. -/
def decimalDigits (n : Nat) : List Byte :=
  (Nat.toDigits 10 n).map Char.toNat

/-- The characters `printf` writes for `%d`: a minus sign for a negative value, then the
decimal digits of the magnitude. -/
def printfD (v : Int) : List Byte :=
  if v < 0 then 45 :: decimalDigits v.natAbs else decimalDigits v.natAbs

/-- The characters `printf` writes for `%8d`: those of `%d`, padded on the left with blanks to
8 characters when they are fewer. -/
def printfD8 (v : Int) : List Byte :=
  List.replicate (8 - (printfD v).length) 32 ++ printfD v

/-- The characters written by `printf("%8d %s\n", fileSize, filename->str)` in far.c `farPrint`,
where `fileSize` is an `unsigned int`. -/
def printfLine (fileSize : Nat) (filename : CStr) : List Byte :=
  printfD8 (asInt fileSize) ++ [32] ++ filename ++ [10]

/-- The loop `for(i = 0; i < numFiles; i++)` of far.c `farPrint`; the numeric argument is the
number of iterations left, `stdout` holds the output of the `printf` calls made so far, one
element per call. The first component of the result is `false` when the loop is left through
`corruptedArchiveError`. -/
def farPrintLoop : Nat → List Byte → List (List Byte) → Bool × List (List Byte)
  | 0, _, stdout => (true, stdout)
  | n + 1, archive, stdout =>
      match getFileName archive with
      | none => (false, stdout)
      | some (filename, afterName) =>
        match freadUint afterName with
        | none => (false, stdout)
        | some (fileSize, afterSize) =>
          match readBodyLoop fileSize afterSize with
          | none => (false, stdout ++ [printfLine fileSize filename])
          | some (_, rest) => farPrintLoop n rest (stdout ++ [printfLine fileSize filename])

/-- What far.c `farPrint` leaves behind: its return code, the output of its `printf` calls (one
element per call) and the lines on stderr. -/
structure PrintOutcome where
  code : FAR_RTRN
  stdout : List (List Byte)
  stderr : List Diag
  deriving DecidableEq

/-- far.c `farPrint`; `archive` is `none` when `fopen(archiveName, "rb")` fails. -/
def farPrint (archive : Option (List Byte)) : PrintOutcome :=
  match archive with
  | none =>
      { code := FAR_RTRN.OPEN_ERROR, stdout := [], stderr := [Diag.invalidArchiveNameError] }
  | some bytes =>
    match freadUint bytes with
    | none =>
        { code := FAR_RTRN.CORRUPTED_ARCH, stdout := [], stderr := [Diag.corruptedArchiveError] }
    | some (numFiles, afterCount) =>
      match farPrintLoop numFiles afterCount [] with
      | (false, stdout) =>
          { code := FAR_RTRN.CORRUPTED_ARCH, stdout := stdout,
            stderr := [Diag.corruptedArchiveError] }
      | (true, stdout) =>
          { code := FAR_RTRN.SUCCESS, stdout := stdout, stderr := [] }

/-! ## main.c -/

/-- The integer value of a return code of far.h: `SUCCESS = 0` and the enumerators after it
count upwards. -/
def FAR_RTRN.toInt : FAR_RTRN → Int
  | FAR_RTRN.SUCCESS => 0
  | FAR_RTRN.OPEN_ERROR => 1
  | FAR_RTRN.CORRUPTED_ARCH => 2
  | FAR_RTRN.TEMP_FILE_ERROR => 3

/-- The loop `for(int j = nameLen - 1; j >= 0 && names[i][j] == '/'; j--) slashlessSize--;` of
main.c `stripTrailingSlashes`; the first argument is `j + 1`. -/
def stripTrailingSlashesLoop (name : CStr) : Nat → Nat → Nat
  | 0, slashlessSize => slashlessSize
  | j + 1, slashlessSize =>
      if name.getD j 0 = slash then stripTrailingSlashesLoop name j (slashlessSize - 1)
      else slashlessSize

/-- The body of the outer loop of main.c `stripTrailingSlashes`: the string stored in
`slashlessNames[i]` for `names[i]`. -/
def stripTrailingSlashesName (name : CStr) : CStr :=
  let nameLen := name.length
  let slashlessSize := stripTrailingSlashesLoop name nameLen (nameLen + 1)
  if slashlessSize = 1 then [slash]
  else name.take (slashlessSize - 1)

/-- main.c `stripTrailingSlashes`. -/
def stripTrailingSlashes (names : List CStr) (numNames : Nat) : List CStr :=
  (names.take numNames).map stripTrailingSlashesName

/-- The key `"r"`. -/
def keyR : CStr := [114]

/-- The key `"x"`. -/
def keyX : CStr := [120]

/-- The key `"d"`. -/
def keyD : CStr := [100]

/-- The key `"t"`. -/
def keyT : CStr := [116]

/-- The array `filenames` and its length `numFiles` as main.c `main` hands them to the
commands: the arguments after `argv[2]`, as many as the `unsigned char` `numFiles` counts,
without their trailing slashes; empty when `argc` is not above 3. -/
def filenamesOf (argv : List CStr) : List CStr :=
  if argv.length > 3 then stripTrailingSlashes (argv.drop 3) ((argv.length - 3) % 256) else []

/-- main.c `main`: the value it returns, for the command line `argv` (`argc` is its length).
`fs`, `tempOk`, `disk`, `fsx` and `world` are what the called command finds, `disk.archive`
being the file named `argv[2]`. `numFiles` is an `unsigned char`. The result is `none` where
`farAdd` has no defined behaviour. -/
def main {σ : Type} (fs : FileSys) (tempOk : Bool) (disk : Disk) (fsx : ExtractFS σ)
    (world : σ) (argv : List CStr) : Option Int :=
  let argc := argv.length
  if argc < 3 then some 1
  else
    let numFiles := if argc > 3 then (argc - 3) % 256 else 0
    let filenames := if argc > 3 then stripTrailingSlashes (argv.drop 3) numFiles else []
    if argv.getD 1 [] = keyR then
      (farAdd fs tempOk disk filenames).map (fun out => out.code.toInt)
    else if argv.getD 1 [] = keyX then
      some (farExtract fsx disk.archive world filenames).code.toInt
    else if argv.getD 1 [] = keyD then
      some (farDelete tempOk disk filenames).code.toInt
    else if argv.getD 1 [] = keyT then
      some (farPrint disk.archive).code.toInt
    else some 4

/-! ## The archive under the name of the temporary file -/

/-- far.c `farDelete` when `archiveName` is `TEMP_ARCHIVE_NAME` (`"ARCHIVE.bak"`), so that
`oldArchive` and `tempArchive` are two streams on one file, whose content is `file` (`none`:
`fopen(archiveName, "rb+")` fails); the result is the return code and the file afterwards.
`fopen(TEMP_ARCHIVE_NAME, "wb+")` empties the file. What `oldArchive` delivers after that
depends on how far stdio had read ahead, unless the count was all the file held: the result is
`none` in the other case. On the corrupted-archive path `unlink(TEMP_ARCHIVE_NAME)` removes the
file; on the success path `rename(TEMP_ARCHIVE_NAME, archiveName)` leaves it as written. -/
def farDeleteOnTemp (tempOk : Bool) (file : Option (List Byte)) (fileArgs : List CStr) :
    Option (FAR_RTRN × Option (List Byte)) :=
  let numFileArgs := fileArgs.length
  if numFileArgs = 0 then some (FAR_RTRN.SUCCESS, file)
  else
    let slashedFileArgs := fileArgs.map ensureSingleSlash
    match file with
    | none => some (FAR_RTRN.OPEN_ERROR, file)
    | some bytes =>
      match freadUint bytes with
      | none => some (FAR_RTRN.CORRUPTED_ARCH, file)
      | some (oldNumFiles, oldArchive) =>
        if tempOk = false then some (FAR_RTRN.TEMP_FILE_ERROR, file)
        else if oldArchive ≠ [] then none
        else
          match farDeleteLoop fileArgs slashedFileArgs numFileArgs oldNumFiles
              { oldArchive := [], tempArchive := fwriteUint 0, newNumFiles := 0,
                usedArgs := [] } with
          | none => some (FAR_RTRN.CORRUPTED_ARCH, none)
          | some st =>
              some (FAR_RTRN.SUCCESS, (finalizeArchive st.tempArchive st.newNumFiles).archive)

/-! ## Framing, truncation and the expected listing -/

/-- The bytes begin with a 4-byte count `n` followed by `n` complete entries (NUL-terminated
name, 4-byte size, `size` body bytes); any bytes may follow. -/
def Framed (bytes : List Byte) : Prop :=
  ∃ es rest, es.length < 4294967296 ∧ (∀ e ∈ es, e.Valid) ∧ bytes = encodeArchive es ++ rest

/-- The well-formed archive holding the entries `pre ++ e :: post`, cut after the first `k`
bytes of the body of `e`. -/
def truncatedInBody (pre : List Entry) (e : Entry) (post : List Entry) (k : Nat) : List Byte :=
  fwriteUint (pre ++ e :: post).length ++ encodeEntries pre
    ++ (e.name ++ [0] ++ fwriteUint e.size ++ e.body.take k)

/-- The line of the listing the specification expects for an entry: the decimal value of the
size right-aligned in a field of width 8, one space, the name, and the end of the line. -/
def expectedLine (e : Entry) : List Byte :=
  List.replicate (8 - (decimalDigits e.size).length) 32 ++ decimalDigits e.size
    ++ [32] ++ e.name ++ [10]

/-- The string with its trailing `'/'` characters removed. -/
def withoutTrailingSlashes (s : CStr) : CStr :=
  s.rdropWhile (fun c => decide (c = slash))

/-- A file system for extraction in which every directory exists and no file can be opened
for writing; its state is the list of the files written, latest first. -/
def refusingFS : ExtractFS (List (CStr × List Byte)) :=
  { opendir := fun _ _ => OpendirResult.opened,
    mkdir := fun w _ => (true, w),
    fopen := fun w _ => (false, w),
    fputs := fun w name bytes => (name, bytes) :: w }

/-! ## Prefix test, stripped names and the expansion of a name -/

/-- The least index `i` such that `dirnames[i]` is a prefix of `filename`, or -1 when no
element is a prefix: what the specification asks of the directory match. -/
def firstPrefixIndex (filename : CStr) (dirnames : List CStr) : Int :=
  match dirnames.findIdx? (fun d => d.isPrefixOf filename) with
  | some i => (i : Int)
  | none => -1

/-- The name main.c is expected to hand on for a name typed on the command line: the name
without its trailing `'/'` characters, and `"/"` when nothing is left. -/
def strippedName (s : CStr) : CStr :=
  if withoutTrailingSlashes s = [] then [slash] else withoutTrailingSlashes s

/-- The candidate names the specification expects for one name: a readable regular file gives
its own name; a directory `d` that can be opened gives `ensureSingleSlash d` followed by the
expansions of its children, named `ensureSingleSlash d ++ child`, in the order of `readdir` and
without `"."` and `".."`; any other name gives nothing. The numeric argument bounds the number
of directory levels entered. -/
def expansion (fs : FileSys) : Nat → CStr → List CStr
  | 0, name => if checkFileType fs name = 1 then [name] else []
  | fuel + 1, name =>
      if checkFileType fs name = 1 then [name]
      else if checkFileType fs name = 2 then
        ensureSingleSlash name ::
          ((fs.readdir name).filter (fun c => decide (c ≠ dotName ∧ c ≠ dotDotName))).flatMap
            (fun c => expansion fs fuel (ensureSingleSlash name ++ c))
      else []

/-- The directory levels below `name` number at most `fuel`: walking down from `name`, no
directory is met once `fuel` levels have been entered. -/
def DepthBounded (fs : FileSys) : Nat → CStr → Prop
  | 0, name => checkFileType fs name ≠ 2
  | fuel + 1, name =>
      checkFileType fs name = 2 →
        ∀ c ∈ fs.readdir name, c ≠ dotName ∧ c ≠ dotDotName →
          DepthBounded fs fuel (ensureSingleSlash name ++ c)

instance DepthBounded.decidable (fs : FileSys) :
    (fuel : Nat) → (name : CStr) → Decidable (DepthBounded fs fuel name)
  | 0, name => inferInstanceAs (Decidable (checkFileType fs name ≠ 2))
  | fuel + 1, name =>
      have : ∀ c, Decidable (DepthBounded fs fuel (ensureSingleSlash name ++ c)) :=
        fun c => DepthBounded.decidable fs fuel (ensureSingleSlash name ++ c)
      inferInstanceAs (Decidable (checkFileType fs name = 2 →
        ∀ c ∈ fs.readdir name, c ≠ dotName ∧ c ≠ dotDotName →
          DepthBounded fs fuel (ensureSingleSlash name ++ c)))

/-- A file system holding one regular file, named `"f"`, of which `stat` reports one byte and
which `fopen` cannot open for reading. -/
def unreadableFileSys : FileSys :=
  { lstat := fun n => if n = [102] then some FileMode.reg else none,
    stat := fun n => if n = [102] then some 1 else none,
    fopen := fun _ => none,
    opendir := fun _ => false,
    readdir := fun _ => [],
    depth := fun _ => 0 }

/-- A file system holding two regular files: `"f"`, of which `stat` reports 6 bytes and which
delivers none, and `"g"`, of 6 bytes, which are `'f'`, NUL and the four bytes of the number 0. -/
def shortFileSys : FileSys :=
  { lstat := fun n => if n = [102] ∨ n = [103] then some FileMode.reg else none,
    stat := fun n => if n = [102] ∨ n = [103] then some 6 else none,
    fopen := fun n =>
      if n = [102] then some [] else if n = [103] then some [102, 0, 0, 0, 0, 0] else none,
    opendir := fun _ => false,
    readdir := fun _ => [],
    depth := fun _ => 0 }

/-- The entries a reader decodes from the archive farAdd commits when `"f"` and `"g"` of
`shortFileSys` are added to the archive holding `x.txt` and `y.txt`. -/
def shortFileEntries : List Entry :=
  exampleEntries ++
    [ { name := [102], size := 6, body := [103, 0, 6, 0, 0, 0] },
      { name := [102], size := 0, body := [] } ]

/-! ## The codec: what is written is what is read back -/

theorem freadUint_fwriteUint (n : Nat) (rest : List Byte) (h : n < 4294967296) :
    freadUint (fwriteUint n ++ rest) = some (n, rest) := by
  simp only [fwriteUint, freadUint, List.cons_append, List.nil_append, Option.some.injEq,
    Prod.mk.injEq, and_true]
  omega

theorem freadUint_fwriteUint_mod (n : Nat) (rest : List Byte) :
    freadUint (fwriteUint n ++ rest) = some (n % 4294967296, rest) := by
  simp only [fwriteUint, freadUint, List.cons_append, List.nil_append, Option.some.injEq,
    Prod.mk.injEq, and_true]
  omega

theorem fwriteUint_length (n : Nat) : (fwriteUint n).length = 4 := rfl

theorem getFileName_append (name : CStr) (rest : List Byte) (h : (0 : Byte) ∉ name) :
    getFileName (name ++ 0 :: rest) = some (name, rest) := by
  induction name with
  | nil => simp [getFileName]
  | cons c name ih =>
    have hc : c ≠ 0 := fun hc => h (by simp [hc])
    have hn : (0 : Byte) ∉ name := fun hn => h (by simp [hn])
    simp [getFileName, hc, ih hn]

theorem copyBodyLoop_append (shouldCopy : Bool) (body rest temp : List Byte) :
    copyBodyLoop shouldCopy body.length (body ++ rest) temp
      = some (rest, if shouldCopy then temp ++ body else temp) := by
  induction body generalizing temp with
  | nil => cases shouldCopy <;> simp [copyBodyLoop]
  | cons c body ih =>
    have step : copyBodyLoop shouldCopy (body.length + 1) (c :: (body ++ rest)) temp
        = copyBodyLoop shouldCopy body.length (body ++ rest)
            (if shouldCopy then temp ++ [c] else temp) := rfl
    rw [List.length_cons, List.cons_append, step, ih]
    cases shouldCopy <;> simp

theorem readBodyLoop_append (body rest : List Byte) :
    readBodyLoop body.length (body ++ rest) = some (body, rest) := by
  induction body with
  | nil => simp [readBodyLoop]
  | cons c body ih => simp [readBodyLoop, ih]

theorem writeFileLoop_take (n : Nat) (fileToAdd archive : List Byte) (h : n ≤ fileToAdd.length) :
    writeFileLoop n fileToAdd archive = (0, archive ++ fileToAdd.take n) := by
  induction n generalizing fileToAdd archive with
  | zero => simp [writeFileLoop]
  | succ n ih =>
    cases fileToAdd with
    | nil => simp at h
    | cons c f =>
      simp only [List.length_cons, Nat.add_le_add_iff_right] at h
      simp [writeFileLoop, ih f (archive ++ [c]) h]

theorem writeFileLoop_snd (n : Nat) (fileToAdd archive : List Byte) :
    (writeFileLoop n fileToAdd archive).2 = archive ++ fileToAdd.take n := by
  induction n generalizing fileToAdd archive with
  | zero => simp [writeFileLoop]
  | succ n ih =>
    cases fileToAdd with
    | nil => simp [writeFileLoop]
    | cons c f => simp [writeFileLoop, ih f (archive ++ [c])]

theorem writeFileToArchive_valid (e : Entry) (archive : List Byte) (h : e.body.length = e.size) :
    (writeFileToArchive e.body e.name e.size archive).2 = archive ++ encodeEntry e := by
  unfold writeFileToArchive
  rw [writeFileLoop_take e.size e.body _ (by omega)]
  simp [encodeEntry, ← h]

theorem writeEntries_eq (es : List Entry) (archive : List Byte)
    (h : ∀ e ∈ es, e.body.length = e.size) :
    writeEntries es archive = archive ++ encodeEntries es := by
  induction es generalizing archive with
  | nil => simp [writeEntries, encodeEntries]
  | cons e es ih =>
    have he : e.body.length = e.size := h e (by simp)
    have hes : ∀ x ∈ es, x.body.length = x.size := fun x hx => h x (by simp [hx])
    simp [writeEntries, encodeEntries, writeFileToArchive_valid e archive he, ih _ hes]

theorem writeArchive_eq (es : List Entry) (h : ∀ e ∈ es, e.body.length = e.size) :
    writeArchive es = encodeArchive es := by
  simp [writeArchive, encodeArchive, writeEntries_eq es _ h]

theorem readEntries_encode (es : List Entry) (rest : List Byte) (h : ∀ e ∈ es, e.Valid) :
    readEntries es.length (encodeEntries es ++ rest) = some (es, rest) := by
  induction es with
  | nil => simp [readEntries, encodeEntries]
  | cons e es ih =>
    obtain ⟨hname, hsize, hbody⟩ := h e (by simp)
    have hes : ∀ x ∈ es, x.Valid := fun x hx => h x (by simp [hx])
    have h1 : encodeEntries (e :: es) ++ rest
        = e.name ++ 0 :: (fwriteUint e.size ++ (e.body ++ (encodeEntries es ++ rest))) := by
      simp [encodeEntries, encodeEntry]
    rw [h1]
    simp only [List.length_cons, readEntries]
    rw [getFileName_append _ _ hname]
    simp only
    rw [freadUint_fwriteUint _ _ hsize]
    simp only
    rw [← hbody, readBodyLoop_append]
    simp only
    rw [ih hes]
    cases e
    simp_all

theorem readArchive_encode (es : List Entry) (h : ∀ e ∈ es, e.Valid)
    (hlen : es.length < 4294967296) :
    readArchive (encodeArchive es) = some (es, []) := by
  unfold readArchive encodeArchive
  rw [freadUint_fwriteUint _ _ hlen]
  simp only
  have := readEntries_encode es [] h
  simpa using this

/-! ## Matching lemmas -/

theorem isDuplicateFileFrom_nonneg (name : CStr) (l : List CStr) (i : Nat) (h : name ∈ l) :
    0 ≤ isDuplicateFileFrom name l i := by
  induction l generalizing i with
  | nil => simp at h
  | cons n rest ih =>
    unfold isDuplicateFileFrom
    by_cases hn : name = n
    · simp [hn]
    · have hr : name ∈ rest := by
        rcases List.mem_cons.mp h with h | h
        · exact absurd h hn
        · exact h
      simp only [hn, if_false]
      exact ih (i + 1) hr

theorem isDuplicateFileFrom_neg (name : CStr) (l : List CStr) (i : Nat) (h : name ∉ l) :
    isDuplicateFileFrom name l i = -1 := by
  induction l generalizing i with
  | nil => rfl
  | cons n rest ih =>
    unfold isDuplicateFileFrom
    have hn : name ≠ n := fun hn => h (by simp [hn])
    have hr : name ∉ rest := fun hr => h (by simp [hr])
    simp only [hn, if_false]
    exact ih (i + 1) hr

theorem isDuplicateFile_neg_iff (name : CStr) (l : List CStr) :
    isDuplicateFile name l l.length < 0 ↔ name ∉ l := by
  unfold isDuplicateFile
  rw [List.take_length]
  constructor
  · intro h hmem
    have := isDuplicateFileFrom_nonneg name l 0 hmem
    omega
  · intro h
    rw [isDuplicateFileFrom_neg name l 0 h]
    decide

theorem strstr_zero_iff (hay needle : CStr) : strstr hay needle = some 0 ↔ needle <+: hay := by
  cases hay with
  | nil =>
    unfold strstr
    by_cases h : needle.isPrefixOf [] = true
    · simp only [h, if_true, true_iff]
      exact List.isPrefixOf_iff_prefix.mp h
    · simp only [h, if_false, false_iff, reduceCtorEq]
      exact fun hp => h (List.isPrefixOf_iff_prefix.mpr hp)
  | cons c hay =>
    unfold strstr
    by_cases h : needle.isPrefixOf (c :: hay) = true
    · simp only [h, if_true, true_iff]
      exact List.isPrefixOf_iff_prefix.mp h
    · simp only [h, if_false]
      constructor
      · intro h0
        cases hs : strstr hay needle with
        | none => simp [hs] at h0
        | some k => simp [hs] at h0
      · intro hp
        exact absurd (List.isPrefixOf_iff_prefix.mpr hp) h

theorem isDirectoryMatchFrom_nonneg (filename : CStr) (l : List CStr) (i : Nat)
    (h : ∃ d ∈ l, d <+: filename) : 0 ≤ isDirectoryMatchFrom filename l i := by
  induction l generalizing i with
  | nil => simp at h
  | cons d rest ih =>
    unfold isDirectoryMatchFrom
    by_cases hd : strstr filename d = some 0
    · simp [hd]
    · simp only [hd, if_false]
      apply ih
      obtain ⟨x, hx, hpx⟩ := h
      rcases List.mem_cons.mp hx with hx | hx
      · subst hx
        exact absurd ((strstr_zero_iff _ _).mpr hpx) hd
      · exact ⟨x, hx, hpx⟩

theorem isDirectoryMatchFrom_neg (filename : CStr) (l : List CStr) (i : Nat)
    (h : ∀ d ∈ l, ¬ d <+: filename) : isDirectoryMatchFrom filename l i = -1 := by
  induction l generalizing i with
  | nil => rfl
  | cons d rest ih =>
    unfold isDirectoryMatchFrom
    have hd : strstr filename d ≠ some 0 :=
      fun hd => h d (by simp) ((strstr_zero_iff _ _).mp hd)
    simp only [hd, if_false]
    exact ih (i + 1) (fun x hx => h x (by simp [hx]))

theorem isDirectoryMatch_neg_iff (filename : CStr) (l : List CStr) :
    isDirectoryMatch filename l l.length < 0 ↔ ∀ d ∈ l, ¬ d <+: filename := by
  unfold isDirectoryMatch
  rw [List.take_length]
  constructor
  · intro h d hd hp
    have := isDirectoryMatchFrom_nonneg filename l 0 ⟨d, hd, hp⟩
    omega
  · intro h
    rw [isDirectoryMatchFrom_neg filename l 0 h]
    decide

theorem usedArgIndex_eq_none_iff (a b : Int) : usedArgIndex a b = none ↔ a < 0 ∧ b < 0 := by
  unfold usedArgIndex
  by_cases ha : a ≥ 0
  · simp only [ha, if_true, reduceCtorEq, false_iff]
    omega
  · by_cases hb : b ≥ 0
    · simp only [ha, hb, if_true, if_false, reduceCtorEq, false_iff]
      omega
    · simp only [ha, hb, if_false, true_iff]
      omega

theorem matchIndex_eq_none_iff (fileArgs : List CStr) (name : CStr) :
    matchIndex fileArgs name = none ↔ ¬ Selected fileArgs name := by
  unfold matchIndex Selected
  rw [usedArgIndex_eq_none_iff, isDuplicateFile_neg_iff]
  have hlen : fileArgs.length = (fileArgs.map ensureSingleSlash).length := by simp
  rw [hlen, isDirectoryMatch_neg_iff]
  constructor
  · rintro ⟨h1, h2⟩ ⟨s, hs, h | h⟩
    · exact h1 (h ▸ hs)
    · exact h2 _ (List.mem_map_of_mem _ hs) h
  · intro h
    refine ⟨fun hmem => h ⟨name, hmem, Or.inl rfl⟩, ?_⟩
    intro d hd hp
    obtain ⟨s, hs, rfl⟩ := List.mem_map.mp hd
    exact h ⟨s, hs, Or.inr hp⟩

/-! ## The copy loop of farDelete on a well-formed stream -/

theorem encodeEntries_cons_append (e : Entry) (es : List Entry) (rest : List Byte) :
    encodeEntries (e :: es) ++ rest
      = e.name ++ 0 :: (fwriteUint e.size ++ (e.body ++ (encodeEntries es ++ rest))) := by
  simp [encodeEntries, encodeEntry]

theorem encodeEntries_append (es fs : List Entry) :
    encodeEntries (es ++ fs) = encodeEntries es ++ encodeEntries fs := by
  induction es with
  | nil => simp [encodeEntries]
  | cons e es ih => simp [encodeEntries, ih]

theorem farDeleteLoop_encode (fileArgs : List CStr) (es : List Entry)
    (hvalid : ∀ e ∈ es, e.Valid) (rest temp : List Byte) (num : Nat) (used : List Nat)
    (hnum : num < 4294967296) :
    farDeleteLoop fileArgs (fileArgs.map ensureSingleSlash) fileArgs.length es.length
        { oldArchive := encodeEntries es ++ rest, tempArchive := temp,
          newNumFiles := num, usedArgs := used }
      = some
        { oldArchive := rest,
          tempArchive :=
            temp ++ encodeEntries (es.filter (fun e => (matchIndex fileArgs e.name).isNone)),
          newNumFiles :=
            (num + (es.filter (fun e => (matchIndex fileArgs e.name).isNone)).length)
              % 4294967296,
          usedArgs := used ++ es.filterMap (fun e => matchIndex fileArgs e.name) } := by
  induction es generalizing temp num used with
  | nil => simp [farDeleteLoop, encodeEntries, Nat.mod_eq_of_lt hnum]
  | cons e es ih =>
    obtain ⟨hname, hsize, hbody⟩ := hvalid e (by simp)
    have hes : ∀ x ∈ es, x.Valid := fun x hx => hvalid x (by simp [hx])
    rw [encodeEntries_cons_append]
    simp only [List.length_cons, farDeleteLoop]
    rw [getFileName_append _ _ hname]
    simp only
    rw [freadUint_fwriteUint _ _ hsize]
    simp only
    rw [← hbody, copyBodyLoop_append]
    simp only
    cases hm : matchIndex fileArgs e.name with
    | none =>
      have hm' := hm
      unfold matchIndex at hm'
      have hneg := (usedArgIndex_eq_none_iff _ _).mp hm'
      have hcopy : (decide (isDuplicateFile e.name fileArgs fileArgs.length < 0) &&
          decide (isDirectoryMatch e.name (fileArgs.map ensureSingleSlash) fileArgs.length < 0))
          = true := by simp [hneg.1, hneg.2]
      rw [hm', hcopy]
      simp only [if_true]
      rw [ih hes _ _ _ (Nat.mod_lt _ (by norm_num))]
      simp only [List.filter_cons, List.filterMap_cons, hm, Option.isNone_none, if_true,
        List.length_cons]
      congr 2
      · simp [encodeEntries, encodeEntry, hbody]
      · omega
    | some i =>
      have hm' := hm
      unfold matchIndex at hm'
      have hnotneg : ¬ (isDuplicateFile e.name fileArgs fileArgs.length < 0 ∧
          isDirectoryMatch e.name (fileArgs.map ensureSingleSlash) fileArgs.length < 0) := by
        intro hboth
        have := (usedArgIndex_eq_none_iff _ _).mpr hboth
        rw [hm'] at this
        exact absurd this (by simp)
      have hcopy : (decide (isDuplicateFile e.name fileArgs fileArgs.length < 0) &&
          decide (isDirectoryMatch e.name (fileArgs.map ensureSingleSlash) fileArgs.length < 0))
          = false := by
        simpa using hnotneg
      rw [hm', hcopy]
      simp only [Bool.false_eq_true, if_false]
      rw [ih hes _ _ _ hnum]
      simp [List.filter_cons, List.filterMap_cons, hm, uintArrayAdd]

/-! ## C1: what farDelete keeps -/

theorem filter_length_lt {α : Type} (p : α → Bool) (l : List α) (n : Nat) (h : l.length < n) :
    (l.filter p).length < n :=
  Nat.lt_of_le_of_lt (List.length_filter_le p l) h

theorem farDelete_wellFormed (bytes : List Byte) (es : List Entry) (temp : Option (List Byte))
    (fileArgs : List CStr) (hwf : WellFormed bytes es) (hargs : fileArgs ≠ []) :
    farDelete true { archive := some bytes, temp := temp } fileArgs
      = { code := FAR_RTRN.SUCCESS,
          disk :=
            { archive := some (encodeArchive
                (es.filter (fun e => (matchIndex fileArgs e.name).isNone))),
              temp := none },
          stderr := printUnusedArgs fileArgs fileArgs.length
            (es.filterMap (fun e => matchIndex fileArgs e.name)) } := by
  obtain ⟨hlen, hvalid, hbytes⟩ := hwf
  have hargs' : fileArgs.length ≠ 0 := fun h => hargs (List.length_eq_zero.mp h)
  unfold farDelete
  simp only [hargs', if_false]
  rw [hbytes]
  unfold encodeArchive
  rw [freadUint_fwriteUint _ _ hlen]
  simp only [Bool.true_eq_false, if_false]
  have hloop := farDeleteLoop_encode fileArgs es hvalid [] (fwriteUint 0) 0 [] (by norm_num)
  rw [List.append_nil] at hloop
  rw [hloop]
  have hk := filter_length_lt (fun e => (matchIndex fileArgs e.name).isNone) es _ hlen
  simp only [finalizeArchive, Nat.zero_add, Nat.mod_eq_of_lt hk, List.nil_append]
  rw [List.drop_left' (fwriteUint_length 0)]

theorem farDelete_temp_fails (bytes : List Byte) (numFiles : Nat) (rest : List Byte)
    (temp : Option (List Byte)) (fileArgs : List CStr) (hargs : fileArgs ≠ [])
    (hcount : freadUint bytes = some (numFiles, rest)) :
    farDelete false { archive := some bytes, temp := temp } fileArgs
      = { code := FAR_RTRN.TEMP_FILE_ERROR, disk := { archive := some bytes, temp := temp },
          stderr := [Diag.openTempArchiveError] } := by
  have hargs' : fileArgs.length ≠ 0 := fun h => hargs (List.length_eq_zero.mp h)
  unfold farDelete
  simp only [hargs', if_false, hcount, if_true]

theorem freadUint_wellFormed (bytes : List Byte) (es : List Entry)
    (hwf : WellFormed bytes es) : freadUint bytes = some (es.length, encodeEntries es) := by
  obtain ⟨hlen, _, hbytes⟩ := hwf
  rw [hbytes]
  exact freadUint_fwriteUint es.length (encodeEntries es) hlen

/-- C1 (as amended): for every well-formed archive holding the entries `es` and every non-empty
selector list, `farDelete` returns SUCCESS when the temporary file can be created, and it then
commits a well-formed archive holding exactly the entries of `es` that no selector matches
(neither as the entry name itself nor with its slashed form as a prefix of the name), in their
original order and with name, size and body unchanged. When the temporary file cannot be created
it returns TEMP_FILE_ERROR, prints the diagnostic of the temporary file and leaves the archive
and the temporary file as they were. -/
theorem C1_farDelete_keeps_unselected (bytes : List Byte) (es : List Entry)
    (temp : Option (List Byte)) (fileArgs : List CStr)
    (hwf : WellFormed bytes es) (hargs : fileArgs ≠ []) :
    ((farDelete true { archive := some bytes, temp := temp } fileArgs).code = FAR_RTRN.SUCCESS ∧
      ∃ committed,
        (farDelete true { archive := some bytes, temp := temp } fileArgs).disk.archive
          = some committed ∧
        WellFormed committed (es.filter (fun e => decide (¬ Selected fileArgs e.name)))) ∧
    farDelete false { archive := some bytes, temp := temp } fileArgs
      = { code := FAR_RTRN.TEMP_FILE_ERROR, disk := { archive := some bytes, temp := temp },
          stderr := [Diag.openTempArchiveError] } := by
  refine ⟨?_, farDelete_temp_fails bytes _ _ temp fileArgs hargs
    (freadUint_wellFormed bytes es hwf)⟩
  rw [farDelete_wellFormed bytes es temp fileArgs hwf hargs]
  have hfilter : es.filter (fun e => decide (¬ Selected fileArgs e.name))
      = es.filter (fun e => (matchIndex fileArgs e.name).isNone) := by
    apply List.filter_congr
    intro e _
    by_cases h : Selected fileArgs e.name
    · have : matchIndex fileArgs e.name ≠ none :=
        fun hn => (matchIndex_eq_none_iff _ _).mp hn h
      cases hm : matchIndex fileArgs e.name with
      | none => exact absurd hm this
      | some i => simp [h]
    · simp [h, (matchIndex_eq_none_iff _ _).mpr h]
  refine ⟨rfl, _, rfl, ?_⟩
  rw [hfilter]
  obtain ⟨hlen, hvalid, _⟩ := hwf
  exact ⟨filter_length_lt _ es _ hlen, fun e he => hvalid e (List.mem_of_mem_filter he), rfl⟩

/-- C1 at the specification's example: deleting `"x.txt"` from the archive holding `x.txt` and
`y.txt` leaves `y.txt` alone when the temporary file can be created, and leaves the archive as it
was when it cannot. -/
theorem C1_farDelete_keeps_unselected_witness :
    WellFormed (encodeArchive exampleEntries) exampleEntries ∧
    ([[120, 46, 116, 120, 116]] : List CStr) ≠ [] ∧
    ((farDelete true { archive := some (encodeArchive exampleEntries), temp := none }
        [[120, 46, 116, 120, 116]]).code = FAR_RTRN.SUCCESS ∧
      ∃ committed,
        (farDelete true { archive := some (encodeArchive exampleEntries), temp := none }
          [[120, 46, 116, 120, 116]]).disk.archive = some committed ∧
        WellFormed committed
          (exampleEntries.filter
            (fun e => decide (¬ Selected [[120, 46, 116, 120, 116]] e.name)))) ∧
    farDelete false { archive := some (encodeArchive exampleEntries), temp := none }
        [[120, 46, 116, 120, 116]]
      = { code := FAR_RTRN.TEMP_FILE_ERROR,
          disk := { archive := some (encodeArchive exampleEntries), temp := none },
          stderr := [Diag.openTempArchiveError] } :=
  ⟨by decide, by decide,
    C1_farDelete_keeps_unselected (encodeArchive exampleEntries) exampleEntries none
      [[120, 46, 116, 120, 116]] (by decide) (by decide)⟩

/-- C1 (counterexample): the archive is the well-formed archive holding `x.txt` and `y.txt` and
the selector list is `"x.txt"`; the temporary file cannot be created. `farDelete` returns
TEMP_FILE_ERROR, not SUCCESS, and the archive still holds `x.txt`. -/
theorem C1_temporary_file_not_creatable :
    WellFormed (encodeArchive exampleEntries) exampleEntries ∧
    ([[120, 46, 116, 120, 116]] : List CStr) ≠ [] ∧
    (farDelete false { archive := some (encodeArchive exampleEntries), temp := none }
        [[120, 46, 116, 120, 116]]).code = FAR_RTRN.TEMP_FILE_ERROR ∧
    (farDelete false { archive := some (encodeArchive exampleEntries), temp := none }
        [[120, 46, 116, 120, 116]]).disk.archive = some (encodeArchive exampleEntries) := by
  decide

/-! ## The two loops of farAdd -/

theorem farAddCopyLoop_encode (validArgs : List CStr) (es : List Entry)
    (hvalid : ∀ e ∈ es, e.Valid) (rest temp : List Byte) (num : Nat) (err : List Diag)
    (hnum : num < 4294967296) :
    farAddCopyLoop validArgs es.length
        { oldArchive := encodeEntries es ++ rest, tempArchive := temp,
          newNumFiles := num, stderr := err }
      = some
        { oldArchive := rest,
          tempArchive := temp ++ encodeEntries (keptEntries validArgs es),
          newNumFiles := (num + (keptEntries validArgs es).length) % 4294967296,
          stderr := err } := by
  induction es generalizing temp num with
  | nil => simp [farAddCopyLoop, encodeEntries, keptEntries, Nat.mod_eq_of_lt hnum]
  | cons e es ih =>
    obtain ⟨hname, hsize, hbody⟩ := hvalid e (by simp)
    have hes : ∀ x ∈ es, x.Valid := fun x hx => hvalid x (by simp [hx])
    rw [encodeEntries_cons_append]
    simp only [List.length_cons, farAddCopyLoop]
    rw [getFileName_append _ _ hname]
    simp only
    rw [freadUint_fwriteUint _ _ hsize]
    simp only
    rw [← hbody, copyBodyLoop_append]
    simp only
    by_cases hmem : e.name ∈ validArgs
    · have hdup : ¬ isDuplicateFile e.name validArgs validArgs.length < 0 :=
        fun h => (isDuplicateFile_neg_iff _ _).mp h hmem
      simp only [hdup, decide_False, Bool.false_eq_true, if_false]
      rw [ih hes _ _ hnum]
      simp [keptEntries, List.filter_cons, hmem]
    · have hdup : isDuplicateFile e.name validArgs validArgs.length < 0 :=
        (isDuplicateFile_neg_iff _ _).mpr hmem
      simp only [hdup, decide_True, if_true]
      rw [ih hes _ _ (Nat.mod_lt _ (by norm_num))]
      simp only [keptEntries, List.filter_cons, hmem, not_false_eq_true, decide_True, if_true,
        List.length_cons]
      congr 2
      · simp [encodeEntries, encodeEntry, hbody]
      · omega

theorem getD_append_cons (pre post : List CStr) (name d : CStr) :
    (pre ++ name :: post).getD pre.length d = name := by
  induction pre with
  | nil => rfl
  | cons x pre ih => simpa using ih

theorem isDuplicateFile_prefix_nonneg_iff (pre post : List CStr) (name : CStr) :
    isDuplicateFile name (pre ++ post) pre.length ≥ 0 ↔ name ∈ pre := by
  unfold isDuplicateFile
  rw [List.take_left']
  · constructor
    · intro h
      by_contra hmem
      rw [isDuplicateFileFrom_neg name pre 0 hmem] at h
      exact absurd h (by decide)
    · exact fun h => isDuplicateFileFrom_nonneg name pre 0 h
  · rfl

theorem farAddAppendStep_spec (fs : FileSys) (pre post : List CStr) (name : CStr)
    (st : AddState)
    (hopen : fs.opendir name = false → (fs.stat name).isSome = true →
      (fs.fopen name).isSome = true) :
    ∃ err, farAddAppendStep fs (pre ++ name :: post) st pre.length
      = some
        { oldArchive := st.oldArchive,
          tempArchive := st.tempArchive ++ encodeEntries
            (if name ∈ pre then [] else (candidateEntry fs name).toList),
          newNumFiles :=
            if (if name ∈ pre then [] else (candidateEntry fs name).toList) = []
            then st.newNumFiles else (st.newNumFiles + 1) % 4294967296,
          stderr := err } := by
  unfold farAddAppendStep
  rw [getD_append_cons]
  simp only
  by_cases hmem : name ∈ pre
  · have hdup := (isDuplicateFile_prefix_nonneg_iff pre (name :: post) name).mpr hmem
    refine ⟨st.stderr, ?_⟩
    simp [hdup, hmem, encodeEntries]
  · have hdup : ¬ isDuplicateFile name (pre ++ name :: post) pre.length ≥ 0 :=
      fun h => hmem ((isDuplicateFile_prefix_nonneg_iff pre (name :: post) name).mp h)
    simp only [hdup, if_false, hmem]
    cases hstat : fs.stat name with
    | none =>
      refine ⟨st.stderr ++ [Diag.fileOpenError name], ?_⟩
      simp [candidateEntry, hstat, encodeEntries]
    | some st_size =>
      by_cases hdir : fs.opendir name = true
      · refine ⟨st.stderr, ?_⟩
        simp [candidateEntry, hstat, hdir, encodeEntries, encodeEntry]
      · have hdir' : fs.opendir name = false := by simpa using hdir
        have hsome := hopen hdir' (by simp [hstat])
        obtain ⟨content, hcontent⟩ := Option.isSome_iff_exists.mp hsome
        refine ⟨st.stderr, ?_⟩
        simp only [hdir', Bool.false_eq_true, if_false, hcontent, candidateEntry, hstat,
          Option.getD_some, Option.toList_some, reduceCtorEq]
        unfold writeFileToArchive
        rw [writeFileLoop_snd]
        simp [encodeEntries, encodeEntry]

theorem farAddAppendLoop_spec (fs : FileSys) (pre post : List CStr) (st : AddState)
    (hopen : Openable fs post)
    (hnum : st.newNumFiles < 4294967296) :
    ∃ err, farAddAppendLoop fs (pre ++ post) post.length pre.length st
      = some
        { oldArchive := st.oldArchive,
          tempArchive := st.tempArchive ++ encodeEntries (appendedFrom fs pre post),
          newNumFiles := (st.newNumFiles + (appendedFrom fs pre post).length) % 4294967296,
          stderr := err } := by
  induction post generalizing pre st with
  | nil =>
    refine ⟨st.stderr, ?_⟩
    simp [farAddAppendLoop, appendedFrom, encodeEntries, Nat.mod_eq_of_lt hnum]
  | cons name post ih =>
    obtain ⟨err1, hstep⟩ := farAddAppendStep_spec fs pre post name st
      (hopen name (by simp))
    simp only [List.length_cons, farAddAppendLoop, hstep]
    have hassoc : pre ++ name :: post = (pre ++ [name]) ++ post := by simp
    have hlen : pre.length + 1 = (pre ++ [name]).length := by simp
    rw [hassoc, hlen]
    have hnum' : (if (if name ∈ pre then [] else (candidateEntry fs name).toList) = []
            then st.newNumFiles else (st.newNumFiles + 1) % 4294967296) < 4294967296 := by
      by_cases hc : (if name ∈ pre then [] else (candidateEntry fs name).toList) = []
      · rw [if_pos hc]
        exact hnum
      · rw [if_neg hc]
        exact Nat.mod_lt _ (by norm_num)
    obtain ⟨err2, hrest⟩ := ih (pre ++ [name])
      { oldArchive := st.oldArchive,
        tempArchive := st.tempArchive ++ encodeEntries
          (if name ∈ pre then [] else (candidateEntry fs name).toList),
        newNumFiles :=
          if (if name ∈ pre then [] else (candidateEntry fs name).toList) = []
          then st.newNumFiles else (st.newNumFiles + 1) % 4294967296,
        stderr := err1 }
      (fun c hc => hopen c (by simp [hc])) hnum'
    refine ⟨err2, ?_⟩
    rw [hrest]
    simp only [appendedFrom, encodeEntries_append, List.append_assoc, List.length_append]
    congr 2
    by_cases hmem : name ∈ pre
    · simp [hmem]
    · cases hc : candidateEntry fs name with
      | none => simp [hmem]
      | some e =>
        simp only [hmem, if_false, Option.toList_some, List.length_singleton, reduceCtorEq,
          List.cons_ne_self]
        omega

theorem fwriteUint_mod (n : Nat) : fwriteUint (n % 4294967296) = fwriteUint n := by
  have h0 : n % 4294967296 % 256 = n % 256 := by omega
  have h1 : n % 4294967296 / 256 % 256 = n / 256 % 256 := by omega
  have h2 : n % 4294967296 / 65536 % 256 = n / 65536 % 256 := by omega
  have h3 : n % 4294967296 / 16777216 % 256 = n / 16777216 % 256 := by omega
  simp only [fwriteUint, h0, h1, h2, h3]

theorem farAdd_opened (fs : FileSys) (temp : Option (List Byte)) (archive : Option (List Byte))
    (fileArgs : List CStr) (es : List Entry) (rest : List Byte)
    (hargs : fileArgs ≠ [])
    (hopen : (match archive with
      | some bytes => freadUint bytes
      | none => some (0, [])) = some (es.length, encodeEntries es ++ rest))
    (hvalid : ∀ e ∈ es, e.Valid)
    (hopenable : Openable fs (fileListNew fs fileArgs).names) :
    ∃ err, farAdd fs true { archive := archive, temp := temp } fileArgs
      = some
        { code := FAR_RTRN.SUCCESS,
          disk :=
            { archive := some (encodeArchive
                (keptEntries (fileListNew fs fileArgs).names es
                  ++ appendedFrom fs [] (fileListNew fs fileArgs).names)),
              temp := none },
          stderr := err } := by
  have hargs' : fileArgs.length ≠ 0 := fun h => hargs (List.length_eq_zero.mp h)
  have hcopy := farAddCopyLoop_encode (fileListNew fs fileArgs).names es hvalid rest
    (fwriteUint 0) 0 (fileListNew fs fileArgs).stderr (by norm_num)
  obtain ⟨err, happend⟩ := farAddAppendLoop_spec fs [] (fileListNew fs fileArgs).names
    { oldArchive := rest,
      tempArchive := fwriteUint 0 ++ encodeEntries (keptEntries (fileListNew fs fileArgs).names es),
      newNumFiles :=
        (0 + (keptEntries (fileListNew fs fileArgs).names es).length) % 4294967296,
      stderr := (fileListNew fs fileArgs).stderr }
    hopenable (Nat.mod_lt _ (by norm_num))
  simp only [List.nil_append, List.length_nil] at happend
  refine ⟨err, ?_⟩
  unfold farAdd
  simp only [hargs', if_false, hopen, Bool.true_eq_false, hcopy, happend]
  simp only [finalizeArchive, List.append_assoc, List.drop_left' (fwriteUint_length 0),
    encodeArchive, encodeEntries_append, List.length_append, Nat.zero_add, Nat.mod_add_mod,
    fwriteUint_mod]

theorem farAdd_commits_openable (fs : FileSys) (archive : Option (List Byte))
    (es : List Entry) (temp : Option (List Byte)) (fileArgs : List CStr)
    (harch : Holds archive es) (hargs : fileArgs ≠ [])
    (hyield : Openable fs (fileListNew fs fileArgs).names) :
    ∃ err, farAdd fs true { archive := archive, temp := temp } fileArgs
      = some
        { code := FAR_RTRN.SUCCESS,
          disk :=
            { archive := some (encodeArchive
                (keptEntries (fileListNew fs fileArgs).names es
                  ++ appendedFrom fs [] (fileListNew fs fileArgs).names)),
              temp := none },
          stderr := err } := by
  cases archive with
  | none =>
    have hes : es = [] := harch
    subst hes
    exact farAdd_opened fs temp none fileArgs [] [] hargs (by simp [encodeEntries])
      (by simp) hyield
  | some bytes =>
    obtain ⟨hlen, hvalid, hbytes⟩ : WellFormed bytes es := harch
    refine farAdd_opened fs temp (some bytes) fileArgs es [] hargs ?_ hvalid hyield
    simp only [hbytes, encodeArchive, List.append_nil]
    exact freadUint_fwriteUint _ _ hlen

theorem openable_of_yields (fs : FileSys) (candidates : List CStr)
    (hyield : YieldsStatSize fs candidates) : Openable fs candidates := by
  intro c hc hdir hstat
  obtain ⟨st_size, hsize⟩ := Option.isSome_iff_exists.mp hstat
  obtain ⟨content, hopen, _⟩ := hyield c hc hdir st_size hsize
  have hopen' : fs.fopen c = some content := hopen
  simp [hopen']

theorem farAdd_commits (fs : FileSys) (archive : Option (List Byte)) (es : List Entry)
    (temp : Option (List Byte)) (fileArgs : List CStr)
    (harch : Holds archive es) (hargs : fileArgs ≠ [])
    (hyield : YieldsStatSize fs (fileListNew fs fileArgs).names) :
    ∃ err, farAdd fs true { archive := archive, temp := temp } fileArgs
      = some
        { code := FAR_RTRN.SUCCESS,
          disk :=
            { archive := some (encodeArchive
                (keptEntries (fileListNew fs fileArgs).names es
                  ++ appendedFrom fs [] (fileListNew fs fileArgs).names)),
              temp := none },
          stderr := err } :=
  farAdd_commits_openable fs archive es temp fileArgs harch hargs
    (openable_of_yields fs _ hyield)

/-! ## The entries farAdd appends -/

theorem candidateEntry_name (fs : FileSys) (name : CStr) (e : Entry)
    (h : candidateEntry fs name = some e) : e.name = name := by
  unfold candidateEntry at h
  cases hstat : fs.stat name with
  | none => simp [hstat] at h
  | some st_size =>
    simp only [hstat] at h
    by_cases hdir : fs.opendir name = true
    · simp only [hdir, if_true, Option.some.injEq] at h
      rw [← h]
    · simp only [hdir, Bool.false_eq_true, if_false, Option.some.injEq] at h
      rw [← h]

theorem mem_appendedFrom (fs : FileSys) (seen todo : List CStr) (e : Entry)
    (h : e ∈ appendedFrom fs seen todo) :
    e.name ∈ todo ∧ e.name ∉ seen ∧ candidateEntry fs e.name = some e := by
  induction todo generalizing seen with
  | nil => simp [appendedFrom] at h
  | cons name todo ih =>
    simp only [appendedFrom, List.mem_append] at h
    rcases h with h | h
    · by_cases hmem : name ∈ seen
      · simp [hmem] at h
      · simp only [hmem, if_false, Option.mem_toList, Option.mem_def] at h
        have hn := candidateEntry_name fs name e h
        rw [hn]
        exact ⟨by simp, hmem, h⟩
    · obtain ⟨h1, h2, h3⟩ := ih (seen ++ [name]) h
      refine ⟨by simp [h1], fun hs => h2 (by simp [hs]), h3⟩

theorem appendedFrom_nodup (fs : FileSys) (seen todo : List CStr) :
    ((appendedFrom fs seen todo).map (fun e => e.name)).Nodup := by
  induction todo generalizing seen with
  | nil => simp [appendedFrom]
  | cons name todo ih =>
    simp only [appendedFrom, List.map_append]
    rw [List.nodup_append]
    refine ⟨?_, ih _, ?_⟩
    · by_cases hmem : name ∈ seen
      · simp [hmem]
      · cases hc : candidateEntry fs name <;> simp [hmem]
    · intro x hx1 hx2
      obtain ⟨e1, he1, rfl⟩ := List.mem_map.mp hx1
      obtain ⟨e2, he2, hname⟩ := List.mem_map.mp hx2
      have hsnd := (mem_appendedFrom fs _ _ e2 he2).2.1
      by_cases hmem : name ∈ seen
      · simp [hmem] at he1
      · simp only [hmem, if_false, Option.mem_toList, Option.mem_def] at he1
        have hn := candidateEntry_name fs name e1 he1
        apply hsnd
        rw [hname, hn]
        simp

theorem appendedFrom_length_le (fs : FileSys) (seen todo : List CStr) :
    (appendedFrom fs seen todo).length ≤ todo.length := by
  induction todo generalizing seen with
  | nil => simp [appendedFrom]
  | cons name todo ih =>
    simp only [appendedFrom, List.length_append, List.length_cons]
    have h1 : (if name ∈ seen then [] else (candidateEntry fs name).toList).length ≤ 1 := by
      by_cases hmem : name ∈ seen
      · simp [hmem]
      · cases hc : candidateEntry fs name <;> simp [hmem]
    have h2 := ih (seen ++ [name])
    omega

theorem candidateEntry_valid (fs : FileSys) (name : CStr) (e : Entry)
    (hnul : (0 : Byte) ∉ name)
    (hyield : ∀ st_size, fs.stat name = some st_size → fs.opendir name = false →
      ∃ content, fs.fopen name = some content ∧ st_size ≤ content.length)
    (h : candidateEntry fs name = some e) : e.Valid := by
  unfold candidateEntry at h
  cases hstat : fs.stat name with
  | none => simp [hstat] at h
  | some st_size =>
    simp only [hstat] at h
    by_cases hdir : fs.opendir name = true
    · simp only [hdir, if_true, Option.some.injEq] at h
      rw [← h]
      exact ⟨hnul, by norm_num, rfl⟩
    · have hdir' : fs.opendir name = false := by simpa using hdir
      simp only [hdir', Bool.false_eq_true, if_false, Option.some.injEq] at h
      obtain ⟨content, hopen, hle⟩ := hyield st_size hstat hdir'
      rw [← h]
      refine ⟨hnul, Nat.mod_lt _ (by norm_num), ?_⟩
      simp only [hopen, Option.getD_some, List.length_take]
      exact Nat.min_eq_left (Nat.le_trans (Nat.mod_le _ _) hle)

theorem appendedFrom_valid (fs : FileSys) (seen todo : List CStr)
    (hnul : ∀ c ∈ todo, (0 : Byte) ∉ c) (hyield : YieldsStatSize fs todo) :
    ∀ e ∈ appendedFrom fs seen todo, e.Valid := by
  intro e he
  obtain ⟨h1, _, h3⟩ := mem_appendedFrom fs seen todo e he
  exact candidateEntry_valid fs e.name e (hnul _ h1)
    (fun st_size hstat hdir => hyield _ h1 hdir st_size hstat) h3

theorem keptEntries_length_le (candidates : List CStr) (es : List Entry) :
    (keptEntries candidates es).length ≤ es.length :=
  List.length_filter_le _ es

theorem mem_keptEntries (candidates : List CStr) (es : List Entry) (e : Entry) :
    e ∈ keptEntries candidates es ↔ e ∈ es ∧ e.name ∉ candidates := by
  simp [keptEntries, List.mem_filter]

theorem Holds.valid {archive : Option (List Byte)} {es : List Entry} (h : Holds archive es) :
    ∀ e ∈ es, e.Valid := by
  cases archive with
  | none =>
    have : es = [] := h
    simp [this]
  | some bytes => exact (h : WellFormed bytes es).2.1

theorem farAdd_entries_valid (fs : FileSys) (archive : Option (List Byte)) (es : List Entry)
    (candidates : List CStr) (harch : Holds archive es)
    (hnul : ∀ c ∈ candidates, (0 : Byte) ∉ c) (hyield : YieldsStatSize fs candidates) :
    ∀ e ∈ keptEntries candidates es ++ appendedFrom fs [] candidates, e.Valid := by
  intro e he
  rcases List.mem_append.mp he with h | h
  · exact harch.valid e ((mem_keptEntries _ _ _).mp h).1
  · exact appendedFrom_valid fs [] candidates hnul hyield e h

/-! ## C2: the committed archive is well-formed -/

theorem farAdd_total_lt (fs : FileSys) (candidates : List CStr) (es : List Entry)
    (hcount : es.length + candidates.length < 4294967296) :
    (keptEntries candidates es ++ appendedFrom fs [] candidates).length < 4294967296 := by
  have h1 := keptEntries_length_le candidates es
  have h2 := appendedFrom_length_le fs [] candidates
  rw [List.length_append]
  omega

/-- C2 (as amended): the archive committed by `farAdd` for a well-formed or absent old archive,
when every candidate file delivers at least `st_size` bytes and the old entries and the
candidates number fewer than 2^32 in total, and the archive committed by `farDelete` for a
well-formed old archive, are well-formed: the 4-byte count is the number of entries that follow,
each entry has exactly `size` body bytes, and no byte follows the last entry. -/
theorem C2_committed_archive_wellFormed
    (fs : FileSys) (archive : Option (List Byte)) (es : List Entry)
    (temp : Option (List Byte)) (fileArgs : List CStr)
    (bytes : List Byte) (es2 : List Entry) (temp2 : Option (List Byte)) (selectors : List CStr)
    (harch : Holds archive es) (hargs : fileArgs ≠ [])
    (hnul : ∀ c ∈ (fileListNew fs fileArgs).names, (0 : Byte) ∉ c)
    (hyield : YieldsStatSize fs (fileListNew fs fileArgs).names)
    (hcount : es.length + (fileListNew fs fileArgs).names.length < 4294967296)
    (hwf : WellFormed bytes es2) (hsel : selectors ≠ []) :
    (∃ out committed es',
      farAdd fs true { archive := archive, temp := temp } fileArgs = some out ∧
      out.code = FAR_RTRN.SUCCESS ∧ out.disk.archive = some committed ∧
      WellFormed committed es') ∧
    (∃ committed es',
      (farDelete true { archive := some bytes, temp := temp2 } selectors).disk.archive
        = some committed ∧
      WellFormed committed es') := by
  constructor
  · obtain ⟨err, hadd⟩ := farAdd_commits fs archive es temp fileArgs harch hargs hyield
    exact ⟨_, _, _, hadd, rfl, rfl, farAdd_total_lt fs _ es hcount,
      farAdd_entries_valid fs archive es _ harch hnul hyield, rfl⟩
  · rw [farDelete_wellFormed bytes es2 temp2 selectors hwf hsel]
    obtain ⟨hlen, hvalid, _⟩ := hwf
    exact ⟨_, _, rfl, filter_length_lt _ es2 _ hlen,
      fun e he => hvalid e (List.mem_of_mem_filter he), rfl⟩

/-- C2 at the specification's example archive: adding the three-byte file `"f"`, and deleting
`"x.txt"`. -/
theorem C2_committed_archive_wellFormed_witness :
    (∃ out committed es',
      farAdd (oneFileSys [1, 2, 3] 3) true
        { archive := some (encodeArchive exampleEntries), temp := none } [[102]] = some out ∧
      out.code = FAR_RTRN.SUCCESS ∧ out.disk.archive = some committed ∧
      WellFormed committed es') ∧
    (∃ committed es',
      (farDelete true { archive := some (encodeArchive exampleEntries), temp := none }
        [[120, 46, 116, 120, 116]]).disk.archive = some committed ∧
      WellFormed committed es') :=
  C2_committed_archive_wellFormed (oneFileSys [1, 2, 3] 3)
    (some (encodeArchive exampleEntries)) exampleEntries none [[102]]
    (encodeArchive exampleEntries) exampleEntries none [[120, 46, 116, 120, 116]]
    (by decide) (by decide) (by decide) (by decide) (by decide) (by decide) (by decide)

theorem encodeArchive_count_zero (es es' : List Entry)
    (hzero : es.length % 4294967296 = 0) (hne : es ≠ []) :
    ¬ WellFormed (encodeArchive es) es' := by
  rintro ⟨hlen, _, heq⟩
  unfold encodeArchive at heq
  obtain ⟨h1, h2⟩ := List.append_inj heq (by simp [fwriteUint_length])
  have hr1 := freadUint_fwriteUint_mod es.length []
  have hr2 := freadUint_fwriteUint es'.length [] hlen
  rw [h1, hr2, hzero] at hr1
  simp only [Option.some.injEq, Prod.mk.injEq, and_true] at hr1
  have hnil : es' = [] := List.length_eq_zero.mp hr1
  rw [hnil] at h2
  cases es with
  | nil => exact hne rfl
  | cons e es =>
    have hlen2 := congrArg List.length h2
    simp [encodeEntries, encodeEntry, fwriteUint_length] at hlen2

theorem keptEntries_replicate_empty (n : Nat) (candidates : List CStr)
    (h : ([] : CStr) ∉ candidates) :
    keptEntries candidates (List.replicate n emptyEntry) = List.replicate n emptyEntry := by
  unfold keptEntries
  rw [List.filter_eq_self]
  intro e he
  rw [List.eq_of_mem_replicate he]
  simpa [emptyEntry] using h

theorem replicate_empty_valid (n : Nat) : ∀ e ∈ List.replicate n emptyEntry, e.Valid := by
  intro e he
  rw [List.eq_of_mem_replicate he]
  decide

/-- C2 (counterexample): the old archive holds 2^32 - 1 entries and is well-formed, and `farAdd`
appends the empty regular file `"f"`; the count written wraps to 0 while 2^32 entries follow it,
so the committed archive is not well-formed. -/
theorem C2_farAdd_count_wraps :
    Holds (some (encodeArchive (List.replicate 4294967295 emptyEntry)))
      (List.replicate 4294967295 emptyEntry) ∧
    YieldsStatSize (oneFileSys [] 0) (fileListNew (oneFileSys [] 0) [[102]]).names ∧
    ∃ out committed,
      farAdd (oneFileSys [] 0) true
        { archive := some (encodeArchive (List.replicate 4294967295 emptyEntry)), temp := none }
        [[102]] = some out ∧
      out.code = FAR_RTRN.SUCCESS ∧ out.disk.archive = some committed ∧
      ∀ es', ¬ WellFormed committed es' := by
  have hgen : ∀ n, n + 1 = 4294967296 →
      Holds (some (encodeArchive (List.replicate n emptyEntry))) (List.replicate n emptyEntry) ∧
      ∃ out committed,
        farAdd (oneFileSys [] 0) true
          { archive := some (encodeArchive (List.replicate n emptyEntry)), temp := none }
          [[102]] = some out ∧
        out.code = FAR_RTRN.SUCCESS ∧ out.disk.archive = some committed ∧
        ∀ es', ¬ WellFormed committed es' := by
    intro n hn
    have hholds : Holds (some (encodeArchive (List.replicate n emptyEntry)))
        (List.replicate n emptyEntry) :=
      ⟨by rw [List.length_replicate]; omega, replicate_empty_valid n, rfl⟩
    refine ⟨hholds, ?_⟩
    obtain ⟨err, hadd⟩ := farAdd_commits (oneFileSys [] 0) _ _ none [[102]] hholds
      (by decide) (by decide)
    refine ⟨_, _, hadd, rfl, rfl, ?_⟩
    intro es'
    have hcands : (fileListNew (oneFileSys [] 0) [[102]]).names = [[102]] := by decide
    rw [hcands, keptEntries_replicate_empty n _ (by decide)]
    apply encodeArchive_count_zero
    · rw [List.length_append, List.length_replicate]
      have happ : (appendedFrom (oneFileSys [] 0) [] [[102]]).length = 1 := by decide
      rw [happ, hn]
    · have happ : appendedFrom (oneFileSys [] 0) [] [[102]]
          = [{ name := [102], size := 0, body := [] }] := by decide
      rw [happ]
      simp
  exact ⟨(hgen 4294967295 (by norm_num)).1, by decide, (hgen 4294967295 (by norm_num)).2⟩

/-! ## C3: round trip -/

/-- C3 (as amended): for every list of fewer than 2^32 entries (names without NUL bytes, body
length equal to size, size below 2^32), writing the count and then each entry with
`writeFileToArchive`, and then decoding with the 4-byte count read followed by `getFileName`,
the 4-byte size read and `size` body bytes per entry, gives back the same sequence of entries and
leaves no byte unread. -/
theorem C3_round_trip (es : List Entry) (hvalid : ∀ e ∈ es, e.Valid)
    (hlen : es.length < 4294967296) :
    readArchive (writeArchive es) = some (es, []) := by
  rw [writeArchive_eq es (fun e he => (hvalid e he).2.2)]
  exact readArchive_encode es hvalid hlen

/-- C3 at the two entries of the specification's example. -/
theorem C3_round_trip_witness :
    (∀ e ∈ exampleEntries, e.Valid) ∧ exampleEntries.length < 4294967296 ∧
      readArchive (writeArchive exampleEntries) = some (exampleEntries, []) :=
  ⟨by decide, by decide, C3_round_trip exampleEntries (by decide) (by decide)⟩

/-- C3 (counterexample): a list of 2^32 valid entries is written with the count 0, so decoding
gives back no entry at all and leaves every entry byte unread. -/
theorem C3_count_wraps :
    (∀ e ∈ List.replicate 4294967296 emptyEntry, e.Valid) ∧
      readArchive (writeArchive (List.replicate 4294967296 emptyEntry))
        = some ([], encodeEntries (List.replicate 4294967296 emptyEntry)) ∧
      readArchive (writeArchive (List.replicate 4294967296 emptyEntry))
        ≠ some (List.replicate 4294967296 emptyEntry, []) := by
  have hvalid : ∀ n, ∀ e ∈ List.replicate n emptyEntry, e.Valid := by
    intro n e he
    rw [List.eq_of_mem_replicate he]
    decide
  have hread : ∀ n, n % 4294967296 = 0 →
      readArchive (writeArchive (List.replicate n emptyEntry))
        = some ([], encodeEntries (List.replicate n emptyEntry)) := by
    intro n hn
    rw [writeArchive_eq _ (fun e he => (hvalid n e he).2.2)]
    unfold readArchive encodeArchive
    rw [freadUint_fwriteUint_mod, List.length_replicate, hn]
    rfl
  refine ⟨hvalid _, hread _ (by norm_num), ?_⟩
  rw [hread _ (by norm_num)]
  intro h
  have hlen := congrArg (fun r => r.map (fun p => p.1.length)) h
  simp only [Option.map_some', List.length_nil, List.length_replicate, Option.some.injEq] at hlen
  exact absurd hlen (by norm_num)

/-! ## C5: the layout of the archive farAdd commits -/

theorem candidateEntry_eq_expected (fs : FileSys) (c : CStr)
    (h : IsDirectory fs c ∨ (IsRegularFile fs c ∧ (fileContent fs c).length < 4294967296)) :
    candidateEntry fs c = some (expectedEntry fs c) := by
  unfold candidateEntry expectedEntry
  rcases h with ⟨hstat, hdir⟩ | ⟨⟨hdir, content, hopen, hstat⟩, hsize⟩
  · cases hs : fs.stat c with
    | none => simp [hs] at hstat
    | some st_size => simp [hdir]
  · have hopen' : fs.fopen c = some content := hopen
    have hcontent : fileContent fs c = content := by simp [fileContent, hopen']
    rw [hcontent] at hsize
    simp [hstat, hdir, hopen', hcontent, Nat.mod_eq_of_lt hsize]

theorem yieldsStatSize_of_candidates (fs : FileSys) (candidates : List CStr)
    (h : ∀ c ∈ candidates, IsDirectory fs c ∨
      (IsRegularFile fs c ∧ (fileContent fs c).length < 4294967296)) :
    YieldsStatSize fs candidates := by
  intro c hc hdir st_size hstat
  rcases h c hc with ⟨_, hdir'⟩ | ⟨⟨_, content, hopen, hstat'⟩, _⟩
  · rw [hdir] at hdir'
    exact absurd hdir' (by decide)
  · refine ⟨content, hopen, ?_⟩
    have : fs.stat c = some st_size := hstat
    rw [hstat'] at this
    exact Nat.le_of_eq (Option.some.inj this).symm

theorem appendedFrom_eq_map (fs : FileSys) (seen todo : List CStr)
    (h : ∀ c ∈ todo, IsDirectory fs c ∨
      (IsRegularFile fs c ∧ (fileContent fs c).length < 4294967296)) :
    appendedFrom fs seen todo
      = ((firstOccurrences todo).filter (fun m => decide (m ∉ seen))).map (expectedEntry fs) := by
  induction todo generalizing seen with
  | nil => simp [appendedFrom, firstOccurrences]
  | cons n t ih =>
    have hn := candidateEntry_eq_expected fs n (h n (by simp))
    have ht : ∀ c ∈ t, IsDirectory fs c ∨
        (IsRegularFile fs c ∧ (fileContent fs c).length < 4294967296) :=
      fun c hc => h c (by simp [hc])
    simp only [appendedFrom, firstOccurrences, ih (seen ++ [n]) ht, hn, Option.toList_some,
      List.filter_cons, List.filter_filter]
    have hfilter : (firstOccurrences t).filter (fun m => decide (m ∉ seen ++ [n]))
        = (firstOccurrences t).filter (fun m => decide (m ∉ seen) && decide (m ≠ n)) := by
      apply List.filter_congr
      intro m _
      simp [not_or]
    rw [hfilter]
    by_cases hmem : n ∈ seen <;> simp [hmem]

theorem appendedFrom_nil_eq_map (fs : FileSys) (candidates : List CStr)
    (h : ∀ c ∈ candidates, IsDirectory fs c ∨
      (IsRegularFile fs c ∧ (fileContent fs c).length < 4294967296)) :
    appendedFrom fs [] candidates = (firstOccurrences candidates).map (expectedEntry fs) := by
  rw [appendedFrom_eq_map fs [] candidates h]
  simp

theorem foldl_names_invariant {α : Type} (P : CStr → Prop) (f : fileList → α → fileList)
    (hf : ∀ files a, ∀ n ∈ (f files a).names, n ∈ files.names ∨ P n)
    (l : List α) (init : fileList) :
    ∀ n ∈ (l.foldl f init).names, n ∈ init.names ∨ P n := by
  induction l generalizing init with
  | nil => exact fun n hn => Or.inl hn
  | cons a l ih =>
    intro n hn
    rw [List.foldl_cons] at hn
    rcases ih (f init a) n hn with h | h
    · exact hf init a n h
    · exact Or.inr h

theorem fileListCheckAndAddName_names (fs : FileSys) (fuel : Nat) (files : fileList)
    (filename : CStr) :
    ∀ n ∈ (fileListCheckAndAddName fs fuel files filename).names,
      n ∈ files.names ∨ AddedName fs n := by
  induction fuel generalizing files filename with
  | zero =>
    intro n hn
    unfold fileListCheckAndAddName at hn
    split at hn
    · exact Or.inl hn
    · rename_i h1
      simp only [fileListAddName, List.mem_append, List.mem_singleton] at hn
      rcases hn with h | h
      · exact Or.inl h
      · exact Or.inr (Or.inl (h ▸ h1))
    · exact Or.inl hn
  | succ fuel ih =>
    intro n hn
    unfold fileListCheckAndAddName at hn
    split at hn
    · exact Or.inl hn
    · rename_i h1
      simp only [fileListAddName, List.mem_append, List.mem_singleton] at hn
      rcases hn with h | h
      · exact Or.inl h
      · exact Or.inr (Or.inl (h ▸ h1))
    · unfold fileListAddDir at hn
      have h := foldl_names_invariant (AddedName fs)
        (fun files d_name =>
          if d_name ≠ dotName ∧ d_name ≠ dotDotName then
            fileListCheckAndAddName fs fuel files
              (appendDir (ensureSingleSlash filename) d_name)
          else files)
        (fun files a m hm => by
          by_cases hc : a ≠ dotName ∧ a ≠ dotDotName
          · have hm' : m ∈ (fileListCheckAndAddName fs fuel files
                (appendDir (ensureSingleSlash filename) a)).names := by
              simpa only [if_pos hc] using hm
            exact ih files _ m hm'
          · have hm' : m ∈ files.names := by
              simpa only [if_neg hc] using hm
            exact Or.inl hm')
        (fs.readdir filename) (fileListAddName files (ensureSingleSlash filename)) n hn
      rcases h with h | h
      · simp only [fileListAddName, List.mem_append, List.mem_singleton] at h
        rcases h with h | h
        · exact Or.inl h
        · rename_i hdirtype
          exact Or.inr (Or.inr ⟨filename, h, hdirtype⟩)
      · exact Or.inr h
    · exact Or.inl hn

theorem fileListNew_names (fs : FileSys) (initNames : List CStr) :
    ∀ n ∈ (fileListNew fs initNames).names, AddedName fs n := by
  intro n hn
  unfold fileListNew at hn
  have h := foldl_names_invariant (AddedName fs)
    (fun files name => fileListCheckAndAddName fs (fs.depth name) files name)
    (fun files a m hm => fileListCheckAndAddName_names fs _ files a m hm)
    initNames { names := [], stderr := [] } n hn
  rcases h with h | h
  · simp at h
  · exact h

theorem ensureSingleSlash_getLast (d : CStr) : (ensureSingleSlash d).getLast? = some slash := by
  simp [ensureSingleSlash]

/-- C5 (as amended): the temporary file being creatable, for every non-empty argument list whose
candidates are directories or readable regular files shorter than 2^32 bytes, the old entries
and the candidates numbering fewer than 2^32 in total: when `farAdd` opens the old archive and
it is well-formed, `farAdd` commits the well-formed archive made of the old entries whose name
equals no candidate name, verbatim and in original order, followed by one entry per distinct
candidate name in order of first occurrence in the candidate list: a directory as a zero-size
entry under the candidate name, a regular file with its full contents. When the old archive
cannot be opened, whether or not a file of that name exists, it counts as empty: the archive
committed in its place holds the candidate entries alone. When `opendir` refuses the names that
fileList.c found to be regular files, the name of a directory candidate ends in `'/'`. -/
theorem C5_farAdd_layout (fs : FileSys) (bytes : List Byte) (es : List Entry)
    (temp : Option (List Byte)) (fileArgs : List CStr)
    (hwf : WellFormed bytes es) (hargs : fileArgs ≠ [])
    (hnul : ∀ c ∈ (fileListNew fs fileArgs).names, (0 : Byte) ∉ c)
    (hcand : ∀ c ∈ (fileListNew fs fileArgs).names, IsDirectory fs c ∨
      (IsRegularFile fs c ∧ (fileContent fs c).length < 4294967296))
    (hcount : es.length + (fileListNew fs fileArgs).names.length < 4294967296) :
    (∃ err committed,
      farAdd fs true { archive := some bytes, temp := temp } fileArgs
        = some { code := FAR_RTRN.SUCCESS,
                 disk := { archive := some committed, temp := none },
                 stderr := err } ∧
      WellFormed committed
        (es.filter (fun e => decide (e.name ∉ (fileListNew fs fileArgs).names))
          ++ (firstOccurrences (fileListNew fs fileArgs).names).map (expectedEntry fs))) ∧
    (∃ err committed,
      farAdd fs true { archive := none, temp := temp } fileArgs
        = some { code := FAR_RTRN.SUCCESS,
                 disk := { archive := some committed, temp := none },
                 stderr := err } ∧
      WellFormed committed
        ((firstOccurrences (fileListNew fs fileArgs).names).map (expectedEntry fs))) ∧
    ((∀ c, checkFileType fs c = 1 → fs.opendir c = false) →
      ∀ c ∈ (fileListNew fs fileArgs).names, fs.opendir c = true →
        c.getLast? = some slash) := by
  have hyield := yieldsStatSize_of_candidates fs _ hcand
  refine ⟨?_, ?_, ?_⟩
  · have harch : Holds (some bytes) es := hwf
    obtain ⟨err, hadd⟩ := farAdd_commits fs (some bytes) es temp fileArgs harch hargs hyield
    refine ⟨err, _, hadd, ?_⟩
    have hvalid := farAdd_entries_valid fs (some bytes) es _ harch hnul hyield
    have hlt := farAdd_total_lt fs (fileListNew fs fileArgs).names es hcount
    rw [appendedFrom_nil_eq_map fs _ hcand] at hvalid hlt ⊢
    exact ⟨hlt, hvalid, rfl⟩
  · have harch : Holds none ([] : List Entry) := rfl
    obtain ⟨err, hadd⟩ := farAdd_commits fs none [] temp fileArgs harch hargs hyield
    refine ⟨err, _, hadd, ?_⟩
    have hvalid := farAdd_entries_valid fs none [] _ harch hnul hyield
    have hlt := farAdd_total_lt fs (fileListNew fs fileArgs).names []
      (by simp only [List.length_nil]; omega)
    rw [appendedFrom_nil_eq_map fs _ hcand] at hvalid hlt ⊢
    simp only [keptEntries, List.filter_nil, List.nil_append] at hvalid hlt ⊢
    exact ⟨hlt, hvalid, rfl⟩
  · intro hreg c hc hdir
    rcases fileListNew_names fs fileArgs c hc with h | ⟨d, hd, _⟩
    · rw [hreg c h] at hdir
      exact absurd hdir (by decide)
    · rw [hd]
      exact ensureSingleSlash_getLast d

theorem sampleFileSys_regular (c : CStr) (h : checkFileType sampleFileSys c = 1) :
    sampleFileSys.opendir c = false := by
  unfold checkFileType sampleFileSys at h
  simp only at h
  by_cases h1 : c = [100] ∨ c = [100, 47]
  · simp [h1] at h
  · simpa [sampleFileSys, not_or] using h1

/-- C5 at the specification's example archive, adding the directory `"d"` twice: the candidates
are `"d/"`, `"d/a"`, `"d/"`, `"d/a"`. When the archive cannot be opened the committed archive
holds `"d/"` and `"d/a"` alone. -/
theorem C5_farAdd_layout_witness :
    (fileListNew sampleFileSys [[100], [100]]).names
      = [[100, 47], [100, 47, 97], [100, 47], [100, 47, 97]] ∧
    (∃ err committed,
      farAdd sampleFileSys true
          { archive := some (encodeArchive exampleEntries), temp := none } [[100], [100]]
        = some { code := FAR_RTRN.SUCCESS,
                 disk := { archive := some committed, temp := none },
                 stderr := err } ∧
      WellFormed committed
        (exampleEntries.filter
            (fun e => decide (e.name ∉ (fileListNew sampleFileSys [[100], [100]]).names))
          ++ (firstOccurrences (fileListNew sampleFileSys [[100], [100]]).names).map
              (expectedEntry sampleFileSys))) ∧
    (∃ err committed,
      farAdd sampleFileSys true { archive := none, temp := none } [[100], [100]]
        = some { code := FAR_RTRN.SUCCESS,
                 disk := { archive := some committed, temp := none },
                 stderr := err } ∧
      WellFormed committed
        ((firstOccurrences (fileListNew sampleFileSys [[100], [100]]).names).map
          (expectedEntry sampleFileSys))) ∧
    (∀ c ∈ (fileListNew sampleFileSys [[100], [100]]).names, sampleFileSys.opendir c = true →
        c.getLast? = some slash) :=
  have h := C5_farAdd_layout sampleFileSys (encodeArchive exampleEntries) exampleEntries
    none [[100], [100]] (by decide) (by decide) (by decide) (by decide) (by decide)
  ⟨by decide, h.1, h.2.1, h.2.2 sampleFileSys_regular⟩

theorem oneFileSys_candidates (content : List Byte) (st_size : Nat) :
    (fileListNew (oneFileSys content st_size) [[102]]).names = [[102]] := by
  simp [fileListNew, fileListCheckAndAddName, checkFileType, oneFileSys, fileListAddName]

theorem oneFileSys_yields (content : List Byte) (st_size : Nat) (hle : st_size ≤ content.length) :
    YieldsStatSize (oneFileSys content st_size)
      (fileListNew (oneFileSys content st_size) [[102]]).names := by
  rw [oneFileSys_candidates]
  intro c hc _ sz hsz
  have hc' : c = [102] := by simpa using hc
  subst hc'
  have hsz' : st_size = sz := by simpa [oneFileSys] using hsz
  subst hsz'
  exact ⟨content, by simp [oneFileSys], hle⟩

theorem oneFileSys_appended (content : List Byte) (st_size : Nat) :
    appendedFrom (oneFileSys content st_size) [] [[102]]
      = [{ name := [102], size := st_size % 4294967296,
           body := content.take (st_size % 4294967296) }] := by
  simp [appendedFrom, candidateEntry, oneFileSys]

/-- C5 (counterexample): the only candidate is the regular file `"f"` of 2^32 bytes; `farAdd`
returns SUCCESS and commits an archive whose entry `"f"` has size 0 and an empty body, not the
contents of the file. -/
theorem C5_large_file_truncated :
    IsRegularFile (oneFileSys (List.replicate 4294967296 0) 4294967296) [102] ∧
    (fileContent (oneFileSys (List.replicate 4294967296 0) 4294967296) [102]).length
      = 4294967296 ∧
    ∃ err,
      farAdd (oneFileSys (List.replicate 4294967296 0) 4294967296) true
          { archive := none, temp := none } [[102]]
        = some { code := FAR_RTRN.SUCCESS,
                 disk := { archive := some (encodeArchive
                             [{ name := [102], size := 0, body := [] }]),
                           temp := none },
                 stderr := err } := by
  have hgen : ∀ (content : List Byte) (n : Nat), content.length = n → n % 4294967296 = 0 →
      IsRegularFile (oneFileSys content n) [102] ∧
      (fileContent (oneFileSys content n) [102]).length = n ∧
      ∃ err,
        farAdd (oneFileSys content n) true { archive := none, temp := none } [[102]]
          = some { code := FAR_RTRN.SUCCESS,
                   disk := { archive := some (encodeArchive
                               [{ name := [102], size := 0, body := [] }]),
                             temp := none },
                   stderr := err } := by
    intro content n hlen hn
    refine ⟨⟨rfl, content, rfl, ?_⟩, ?_, ?_⟩
    · rw [hlen]
      rfl
    · exact hlen
    · obtain ⟨err, hadd⟩ := farAdd_commits (oneFileSys content n) none [] none [[102]] rfl
        (by decide) (oneFileSys_yields content n (Nat.le_of_eq hlen.symm))
      refine ⟨err, ?_⟩
      rw [hadd, oneFileSys_candidates, oneFileSys_appended, hn]
      rfl
  exact hgen (List.replicate 4294967296 0) 4294967296 (List.length_replicate _ _) (by norm_num)

/-! ## C4: replace semantics of farAdd -/

theorem mem_appendedFrom_of_mem (fs : FileSys) (seen todo : List CStr) (c : CStr) (e : Entry)
    (hc : c ∈ todo) (hseen : c ∉ seen) (he : candidateEntry fs c = some e) :
    e ∈ appendedFrom fs seen todo := by
  induction todo generalizing seen with
  | nil => simp at hc
  | cons n t ih =>
    simp only [appendedFrom, List.mem_append]
    by_cases hcn : c = n
    · left
      subst hcn
      simp [hseen, he]
    · right
      have hct : c ∈ t := by
        rcases List.mem_cons.mp hc with h | h
        · exact absurd h hcn
        · exact h
      exact ih (seen ++ [n]) hct (by simp [hseen, hcn])

theorem filter_name_eq_singleton (l : List Entry) (e : Entry)
    (hnodup : (l.map (fun x => x.name)).Nodup) (he : e ∈ l) :
    l.filter (fun x => decide (x.name = e.name)) = [e] := by
  induction l with
  | nil => simp at he
  | cons x l ih =>
    simp only [List.map_cons, List.nodup_cons, List.mem_map, not_exists, not_and] at hnodup
    obtain ⟨hx, hl⟩ := hnodup
    rcases List.mem_cons.mp he with h | h
    · subst h
      have hnone : l.filter (fun x => decide (x.name = e.name)) = [] := by
        rw [List.filter_eq_nil_iff]
        intro y hy
        simpa using hx y hy
      simp [List.filter_cons, hnone]
    · have hxe : x.name ≠ e.name := fun heq => hx e h heq.symm
      simp [List.filter_cons, hxe, ih hl h]

/-- C4 (as amended): for every well-formed (or absent) old archive and every candidate list
containing the readable regular file `c` shorter than 2^32 bytes, the other candidate files
delivering at least `st_size` bytes and the old entries and the candidates numbering fewer than
2^32 in total, `farAdd` commits a well-formed archive made of the retained old entries, none of
which is named `c`, followed by the appended entries, exactly one of which is named `c`; its
body is the content of file `c`. -/
theorem C4_farAdd_replaces (fs : FileSys) (archive : Option (List Byte)) (es : List Entry)
    (temp : Option (List Byte)) (fileArgs : List CStr) (c : CStr)
    (harch : Holds archive es) (hc : c ∈ (fileListNew fs fileArgs).names)
    (hreg : IsRegularFile fs c) (hsize : (fileContent fs c).length < 4294967296)
    (hnul : ∀ n ∈ (fileListNew fs fileArgs).names, (0 : Byte) ∉ n)
    (hyield : YieldsStatSize fs (fileListNew fs fileArgs).names)
    (hcount : es.length + (fileListNew fs fileArgs).names.length < 4294967296) :
    ∃ err committed appended,
      farAdd fs true { archive := archive, temp := temp } fileArgs
        = some { code := FAR_RTRN.SUCCESS,
                 disk := { archive := some committed, temp := none },
                 stderr := err } ∧
      WellFormed committed
        (es.filter (fun e => decide (e.name ∉ (fileListNew fs fileArgs).names)) ++ appended) ∧
      (∀ e ∈ es.filter (fun e => decide (e.name ∉ (fileListNew fs fileArgs).names)),
        e.name ≠ c) ∧
      appended.filter (fun e => decide (e.name = c))
        = [{ name := c, size := (fileContent fs c).length, body := fileContent fs c }] := by
  have hargs : fileArgs ≠ [] := by
    intro h
    rw [h] at hc
    simp [fileListNew] at hc
  obtain ⟨err, hadd⟩ := farAdd_commits fs archive es temp fileArgs harch hargs hyield
  refine ⟨err, _, appendedFrom fs [] (fileListNew fs fileArgs).names, hadd, ?_, ?_, ?_⟩
  · exact ⟨farAdd_total_lt fs _ es hcount,
      farAdd_entries_valid fs archive es _ harch hnul hyield, rfl⟩
  · intro e he hec
    have := (List.mem_filter.mp he).2
    simp only [decide_eq_true_eq] at this
    exact this (hec ▸ hc)
  · have hentry := candidateEntry_eq_expected fs c (Or.inr ⟨hreg, hsize⟩)
    have hexp : expectedEntry fs c
        = { name := c, size := (fileContent fs c).length, body := fileContent fs c } := by
      simp [expectedEntry, hreg.1]
    rw [hexp] at hentry
    have hmem := mem_appendedFrom_of_mem fs [] _ c _ hc (by simp) hentry
    exact filter_name_eq_singleton _ _ (appendedFrom_nodup fs [] _) hmem

/-- C4 at an archive holding an old `"f"`: adding the three-byte file `"f"` replaces it. -/
theorem C4_farAdd_replaces_witness :
    ∃ err committed appended,
      farAdd (oneFileSys [1, 2, 3] 3) true
          { archive := some (encodeArchive
              [{ name := [102], size := 1, body := [9] }, { name := [103], size := 0, body := [] }]),
            temp := none } [[102]]
        = some { code := FAR_RTRN.SUCCESS,
                 disk := { archive := some committed, temp := none },
                 stderr := err } ∧
      WellFormed committed
        (([{ name := [102], size := 1, body := [9] },
           { name := [103], size := 0, body := [] }] : List Entry).filter
            (fun e => decide (e.name ∉ (fileListNew (oneFileSys [1, 2, 3] 3) [[102]]).names))
          ++ appended) ∧
      (∀ e ∈ ([{ name := [102], size := 1, body := [9] },
           { name := [103], size := 0, body := [] }] : List Entry).filter
            (fun e => decide (e.name ∉ (fileListNew (oneFileSys [1, 2, 3] 3) [[102]]).names)),
        e.name ≠ [102]) ∧
      appended.filter (fun e => decide (e.name = [102]))
        = [{ name := [102], size := (fileContent (oneFileSys [1, 2, 3] 3) [102]).length,
             body := fileContent (oneFileSys [1, 2, 3] 3) [102] }] :=
  C4_farAdd_replaces (oneFileSys [1, 2, 3] 3) _ _ none [[102]] [102]
    (by decide) (by decide) (by decide) (by decide) (by decide) (by decide) (by decide)

/-- C4 (counterexample): the archive holds an entry `"f"` and the candidate `"f"` is a regular
file of 2^32 bytes; the only entry named `"f"` of the committed archive has an empty body, which
is not the content of the file. -/
theorem C4_large_file_body_lost :
    WellFormed (encodeArchive [{ name := [102], size := 1, body := [9] }])
      [{ name := [102], size := 1, body := [9] }] ∧
    [102] ∈ (fileListNew (oneFileSys (List.replicate 4294967296 0) 4294967296) [[102]]).names ∧
    IsRegularFile (oneFileSys (List.replicate 4294967296 0) 4294967296) [102] ∧
    fileContent (oneFileSys (List.replicate 4294967296 0) 4294967296) [102] ≠ [] ∧
    ∃ err,
      farAdd (oneFileSys (List.replicate 4294967296 0) 4294967296) true
          { archive := some (encodeArchive [{ name := [102], size := 1, body := [9] }]),
            temp := none } [[102]]
        = some { code := FAR_RTRN.SUCCESS,
                 disk := { archive := some (encodeArchive
                             [{ name := [102], size := 0, body := [] }]),
                           temp := none },
                 stderr := err } := by
  have hgen : ∀ (content : List Byte) (n : Nat), content.length = n → n % 4294967296 = 0 →
      0 < n →
      [102] ∈ (fileListNew (oneFileSys content n) [[102]]).names ∧
      IsRegularFile (oneFileSys content n) [102] ∧
      fileContent (oneFileSys content n) [102] ≠ [] ∧
      ∃ err,
        farAdd (oneFileSys content n) true
            { archive := some (encodeArchive [{ name := [102], size := 1, body := [9] }]),
              temp := none } [[102]]
          = some { code := FAR_RTRN.SUCCESS,
                   disk := { archive := some (encodeArchive
                               [{ name := [102], size := 0, body := [] }]),
                             temp := none },
                   stderr := err } := by
    intro content n hlen hn hpos
    refine ⟨by rw [oneFileSys_candidates]; simp, ⟨rfl, content, rfl, ?_⟩, ?_, ?_⟩
    · rw [hlen]
      rfl
    · intro hnil
      have hcontent : content = [] := hnil
      rw [hcontent] at hlen
      simp at hlen
      omega
    · obtain ⟨err, hadd⟩ := farAdd_commits (oneFileSys content n)
        (some (encodeArchive [{ name := [102], size := 1, body := [9] }]))
        [{ name := [102], size := 1, body := [9] }] none [[102]] (by decide)
        (by decide) (oneFileSys_yields content n (Nat.le_of_eq hlen.symm))
      refine ⟨err, ?_⟩
      rw [hadd, oneFileSys_candidates, oneFileSys_appended, hn]
      rfl
  exact ⟨by decide,
    hgen (List.replicate 4294967296 0) 4294967296 (List.length_replicate _ _) (by norm_num)
      (by norm_num)⟩

/-! ## C6: the names of the archive farAdd commits -/

theorem readArchive_encodeArchive (es : List Entry) (h : ∀ e ∈ es, e.Valid) :
    readArchive (encodeArchive es)
      = some (es.take (es.length % 4294967296),
              encodeEntries (es.drop (es.length % 4294967296))) := by
  unfold readArchive encodeArchive
  rw [freadUint_fwriteUint_mod]
  simp only
  have hk : es.length % 4294967296 ≤ es.length := Nat.mod_le _ _
  have hsplit : encodeEntries es
      = encodeEntries (es.take (es.length % 4294967296))
        ++ encodeEntries (es.drop (es.length % 4294967296)) := by
    rw [← encodeEntries_append, List.take_append_drop]
  have hlen : (es.take (es.length % 4294967296)).length = es.length % 4294967296 := by
    rw [List.length_take]
    exact Nat.min_eq_left hk
  have hread := readEntries_encode (es.take (es.length % 4294967296))
    (encodeEntries (es.drop (es.length % 4294967296)))
    (fun e he => h e (List.mem_of_mem_take he))
  rw [hlen] at hread
  rw [hsplit]
  exact hread

theorem farAdd_names_nodup (fs : FileSys) (candidates : List CStr) (es : List Entry)
    (hnodup : (es.map (fun e => e.name)).Nodup) :
    ((keptEntries candidates es ++ appendedFrom fs [] candidates).map
      (fun e => e.name)).Nodup := by
  rw [List.map_append, List.nodup_append]
  refine ⟨?_, appendedFrom_nodup fs [] candidates, ?_⟩
  · exact List.Nodup.sublist (List.Sublist.map _ (List.filter_sublist es)) hnodup
  · intro x hx1 hx2
    obtain ⟨e1, he1, rfl⟩ := List.mem_map.mp hx1
    obtain ⟨e2, he2, hname⟩ := List.mem_map.mp hx2
    have h1 := ((mem_keptEntries _ _ _).mp he1).2
    have h2 := (mem_appendedFrom fs _ _ e2 he2).1
    exact h1 (hname ▸ h2)

theorem checkFileType_eq_one (fs : FileSys) (c : CStr) (h : checkFileType fs c = 1) :
    (fs.fopen c).isSome = true := by
  unfold checkFileType at h
  split at h
  all_goals first
    | exact absurd h (by decide)
    | (by_cases hopen : (fs.fopen c).isSome = true
       · exact hopen
       · rw [if_neg hopen] at h
         exact absurd h (by decide))
    | (split at h <;> exact absurd h (by decide))

theorem checkFileType_eq_two (fs : FileSys) (d : CStr) (h : checkFileType fs d = 2) :
    fs.opendir d = true := by
  unfold checkFileType at h
  split at h
  all_goals first
    | exact absurd h (by decide)
    | (by_cases hdir : fs.opendir d = true
       · exact hdir
       · rw [if_neg hdir] at h
         exact absurd h (by decide))
    | (split at h <;> exact absurd h (by decide))

theorem openable_fileListNew (fs : FileSys) (fileArgs : List CStr) (hcoh : SlashCoherent fs) :
    Openable fs (fileListNew fs fileArgs).names := by
  intro c hc hdir _
  rcases fileListNew_names fs fileArgs c hc with h | ⟨d, hd, hd2⟩
  · exact checkFileType_eq_one fs c h
  · have hopen := hcoh d (checkFileType_eq_two fs d hd2)
    rw [← hd, hdir] at hopen
    exact absurd hopen (by decide)

theorem farAdd_names_unique (fs : FileSys) (archive : Option (List Byte)) (es : List Entry)
    (temp : Option (List Byte)) (fileArgs : List CStr)
    (harch : Holds archive es) (hnodup : (es.map (fun e => e.name)).Nodup)
    (hargs : fileArgs ≠ [])
    (hnul : ∀ c ∈ (fileListNew fs fileArgs).names, (0 : Byte) ∉ c)
    (hyield : YieldsStatSize fs (fileListNew fs fileArgs).names) :
    ∃ err decoded rest,
      farAdd fs true { archive := archive, temp := temp } fileArgs
        = some
          { code := FAR_RTRN.SUCCESS,
            disk :=
              { archive := some (encodeArchive
                  (keptEntries (fileListNew fs fileArgs).names es
                    ++ appendedFrom fs [] (fileListNew fs fileArgs).names)),
                temp := none },
            stderr := err } ∧
      (∀ e ∈ keptEntries (fileListNew fs fileArgs).names es
          ++ appendedFrom fs [] (fileListNew fs fileArgs).names, e.Valid) ∧
      ((keptEntries (fileListNew fs fileArgs).names es
          ++ appendedFrom fs [] (fileListNew fs fileArgs).names).map (fun e => e.name)).Nodup ∧
      readArchive (encodeArchive
          (keptEntries (fileListNew fs fileArgs).names es
            ++ appendedFrom fs [] (fileListNew fs fileArgs).names)) = some (decoded, rest) ∧
      (decoded.map (fun e => e.name)).Nodup := by
  obtain ⟨err, hadd⟩ := farAdd_commits fs archive es temp fileArgs harch hargs hyield
  have hnames := farAdd_names_nodup fs (fileListNew fs fileArgs).names es hnodup
  have hvalid := farAdd_entries_valid fs archive es _ harch hnul hyield
  exact ⟨err, _, _, hadd, hvalid, hnames, readArchive_encodeArchive _ hvalid,
    List.Nodup.sublist (List.Sublist.map _ (List.take_sublist _ _)) hnames⟩

theorem sampleFileSys_slashCoherent : SlashCoherent sampleFileSys := by
  intro d hd
  have hd' : d = [100] ∨ d = [100, 47] := by simpa [sampleFileSys] using hd
  rcases hd' with h | h <;> subst h <;> decide

/-- C6 (the code departs from the claim): the old archive is the well-formed archive holding
`x.txt` and `y.txt`, whose names differ, and the candidates are the regular files `"f"` and
`"g"`, whose names differ. `stat` reports 6 bytes for `"f"` and `"f"` delivers none, so
`writeFileToArchive` writes the name and the size 6 and returns -1 at the first `fgetc`; farAdd
drops this return value, counts the entry and goes on to `"g"`, whose 6 bytes are `'f'`, NUL and
a zero size. farAdd returns SUCCESS without a diagnostic, and the archive it commits is the
well-formed archive of four entries named `x.txt`, `y.txt`, `f` and `f`: the record of `"g"`
is read as the body of the first `f`, and the body of `"g"` as a second entry named `f`. -/
theorem C6_short_file_repeats_name :
    WellFormed (encodeArchive exampleEntries) exampleEntries ∧
    (exampleEntries.map (fun e => e.name)).Nodup ∧
    (fileListNew shortFileSys [[102], [103]]).names = [[102], [103]] ∧
    ([[102], [103]] : List CStr).Nodup ∧
    writeFileToArchive [] [102] 6 [] = (-1, [102, 0, 6, 0, 0, 0]) ∧
    farAdd shortFileSys true { archive := some (encodeArchive exampleEntries), temp := none }
        [[102], [103]]
      = some { code := FAR_RTRN.SUCCESS,
               disk := { archive := some (encodeArchive shortFileEntries), temp := none },
               stderr := [] } ∧
    WellFormed (encodeArchive shortFileEntries) shortFileEntries ∧
    readArchive (encodeArchive shortFileEntries) = some (shortFileEntries, []) ∧
    shortFileEntries.map (fun e => e.name)
      = [[120, 46, 116, 120, 116], [121, 46, 116, 120, 116], [102], [102]] ∧
    ¬ (shortFileEntries.map (fun e => e.name)).Nodup := by
  decide

/-! ## C7: running farAdd twice -/

theorem keptEntries_append_appended (fs : FileSys) (candidates : List CStr) (es : List Entry) :
    keptEntries candidates (keptEntries candidates es ++ appendedFrom fs [] candidates)
      = keptEntries candidates es := by
  unfold keptEntries
  rw [List.filter_append, List.filter_filter]
  have h2 : (appendedFrom fs [] candidates).filter (fun e => decide (e.name ∉ candidates))
      = [] := by
    rw [List.filter_eq_nil_iff]
    intro e he
    simpa using (mem_appendedFrom fs _ _ e he).1
  rw [h2, List.append_nil]
  apply List.filter_congr
  intro e _
  simp

/-- C7 (as amended): for every well-formed (or absent) archive and every argument list whose
candidates are C strings and deliver at least `st_size` bytes, the old entries and the
candidates numbering fewer than 2^32 in total, running `farAdd` twice in succession with the
same arguments on the same file system leaves, after the second run, an archive byte-identical
to the archive after the first run (same names, sizes, bodies and entry order). -/
theorem C7_farAdd_idempotent (fs : FileSys) (archive : Option (List Byte)) (es : List Entry)
    (temp : Option (List Byte)) (fileArgs : List CStr)
    (harch : Holds archive es)
    (hnul : ∀ c ∈ (fileListNew fs fileArgs).names, (0 : Byte) ∉ c)
    (hyield : YieldsStatSize fs (fileListNew fs fileArgs).names)
    (hcount : es.length + (fileListNew fs fileArgs).names.length < 4294967296) :
    ∃ first second,
      farAdd fs true { archive := archive, temp := temp } fileArgs = some first ∧
      farAdd fs true first.disk fileArgs = some second ∧
      first.code = FAR_RTRN.SUCCESS ∧ second.code = FAR_RTRN.SUCCESS ∧
      second.disk.archive = first.disk.archive := by
  by_cases hargs : fileArgs = []
  · subst hargs
    exact ⟨_, _, rfl, rfl, rfl, rfl, rfl⟩
  · obtain ⟨err1, hadd1⟩ := farAdd_commits fs archive es temp fileArgs harch hargs hyield
    have hwf1 : Holds (some (encodeArchive
        (keptEntries (fileListNew fs fileArgs).names es
          ++ appendedFrom fs [] (fileListNew fs fileArgs).names)))
        (keptEntries (fileListNew fs fileArgs).names es
          ++ appendedFrom fs [] (fileListNew fs fileArgs).names) :=
      ⟨farAdd_total_lt fs _ es hcount,
        farAdd_entries_valid fs archive es _ harch hnul hyield, rfl⟩
    obtain ⟨err2, hadd2⟩ := farAdd_commits fs _ _ none fileArgs hwf1 hargs hyield
    rw [keptEntries_append_appended] at hadd2
    exact ⟨_, _, hadd1, hadd2, rfl, rfl, rfl⟩

/-- C7 at the specification's example archive, adding the directory `"d"` twice, two times. -/
theorem C7_farAdd_idempotent_witness :
    ∃ first second,
      farAdd sampleFileSys true
        { archive := some (encodeArchive exampleEntries), temp := none } [[100], [100]]
        = some first ∧
      farAdd sampleFileSys true first.disk [[100], [100]] = some second ∧
      first.code = FAR_RTRN.SUCCESS ∧ second.code = FAR_RTRN.SUCCESS ∧
      second.disk.archive = first.disk.archive :=
  C7_farAdd_idempotent sampleFileSys (some (encodeArchive exampleEntries)) exampleEntries
    none [[100], [100]] (by decide) (by decide) (by decide) (by decide)

/-- C7 (counterexample): the archive holds 2^32 - 1 entries and the argument is the empty regular
file `"f"`. The first run writes the count 0 in front of 2^32 entries, so a reader finds no
entry in its archive; the second run copies nothing and commits an archive holding `"f"`
alone. -/
theorem C7_second_run_differs :
    Holds (some (encodeArchive (List.replicate 4294967295 emptyEntry)))
      (List.replicate 4294967295 emptyEntry) ∧
    YieldsStatSize (oneFileSys [] 0) (fileListNew (oneFileSys [] 0) [[102]]).names ∧
    ∃ first second committed1 committed2,
      farAdd (oneFileSys [] 0) true
        { archive := some (encodeArchive (List.replicate 4294967295 emptyEntry)), temp := none }
        [[102]] = some first ∧
      farAdd (oneFileSys [] 0) true first.disk [[102]] = some second ∧
      first.disk.archive = some committed1 ∧ second.disk.archive = some committed2 ∧
      (readArchive committed1).map Prod.fst = some [] ∧
      (readArchive committed2).map Prod.fst = some [{ name := [102], size := 0, body := [] }] ∧
      committed2 ≠ committed1 := by
  have hgen : ∀ n, n + 1 = 4294967296 →
      ∃ first second committed1 committed2,
        farAdd (oneFileSys [] 0) true
          { archive := some (encodeArchive (List.replicate n emptyEntry)), temp := none }
          [[102]] = some first ∧
        farAdd (oneFileSys [] 0) true first.disk [[102]] = some second ∧
        first.disk.archive = some committed1 ∧ second.disk.archive = some committed2 ∧
        (readArchive committed1).map Prod.fst = some [] ∧
        (readArchive committed2).map Prod.fst
          = some [{ name := [102], size := 0, body := [] }] ∧
        committed2 ≠ committed1 := by
    intro n hn
    have hholds : Holds (some (encodeArchive (List.replicate n emptyEntry)))
        (List.replicate n emptyEntry) :=
      ⟨by rw [List.length_replicate]; omega, replicate_empty_valid n, rfl⟩
    have hyield : YieldsStatSize (oneFileSys [] 0)
        (fileListNew (oneFileSys [] 0) [[102]]).names := by decide
    obtain ⟨err1, hadd1⟩ := farAdd_commits (oneFileSys [] 0) _ _ none [[102]] hholds
      (by decide) hyield
    have hcands : (fileListNew (oneFileSys [] 0) [[102]]).names = [[102]] := by decide
    have happ : appendedFrom (oneFileSys [] 0) [] [[102]]
        = [({ name := [102], size := 0, body := [] } : Entry)] := by decide
    rw [hcands, keptEntries_replicate_empty n _ (by decide), happ] at hadd1
    have hlen : (List.replicate n emptyEntry ++ [({ name := [102], size := 0, body := [] } : Entry)]).length
        % 4294967296 = 0 := by
      rw [List.length_append, List.length_replicate, List.length_singleton, hn]
    have hvalid : ∀ e ∈ List.replicate n emptyEntry ++ [({ name := [102], size := 0, body := [] } : Entry)],
        e.Valid := by
      intro e he
      rcases List.mem_append.mp he with h | h
      · exact replicate_empty_valid n e h
      · have : e = ({ name := [102], size := 0, body := [] } : Entry) := by simpa using h
        rw [this]
        decide
    have hread1 := readArchive_encodeArchive _ hvalid
    rw [hlen] at hread1
    obtain ⟨err2, hadd2⟩ := farAdd_opened (oneFileSys [] 0) none
      (some (encodeArchive
        (List.replicate n emptyEntry ++ [({ name := [102], size := 0, body := [] } : Entry)])))
      [[102]] []
      (encodeEntries
        (List.replicate n emptyEntry ++ [({ name := [102], size := 0, body := [] } : Entry)]))
      (by decide)
      (by
        simp only [encodeArchive, encodeEntries, List.nil_append, List.length_nil]
        rw [freadUint_fwriteUint_mod, hlen])
      (by simp) (openable_of_yields _ _ hyield)
    rw [hcands, happ] at hadd2
    refine ⟨_, _, _, _, hadd1, hadd2, rfl, rfl, ?_, by decide, ?_⟩
    · rw [hread1]
      rfl
    · intro heq
      have h2 := congrArg readArchive heq
      rw [hread1] at h2
      have h3 : readArchive (encodeArchive
          (keptEntries [[102]] [] ++ [({ name := [102], size := 0, body := [] } : Entry)]))
          = some ([({ name := [102], size := 0, body := [] } : Entry)], []) := by decide
      rw [h3] at h2
      simp at h2
  exact ⟨⟨by rw [List.length_replicate]; norm_num, replicate_empty_valid _, rfl⟩, by decide,
    hgen 4294967295 (by norm_num)⟩

/-! ## C8: how an entry name is classified -/

theorem isDuplicateFileFrom_first (name : CStr) (l : List CStr) (k i : Nat)
    (hi : l[i]? = some name) (hfirst : ∀ j < i, l[j]? ≠ some name) :
    isDuplicateFileFrom name l k = ((k + i : Nat) : Int) := by
  induction l generalizing k i with
  | nil => simp at hi
  | cons n rest ih =>
    unfold isDuplicateFileFrom
    cases i with
    | zero =>
      have hn : name = n := by simpa using hi.symm
      simp [hn]
    | succ i =>
      have hn : name ≠ n := by
        intro hn
        exact hfirst 0 (Nat.succ_pos i) (by simp [hn])
      simp only [hn, if_false]
      have hrest := ih (k + 1) i (by simpa using hi)
        (fun j hj => by simpa using hfirst (j + 1) (Nat.succ_lt_succ hj))
      rw [hrest]
      congr 1
      omega

theorem isDirectoryMatchFrom_first (filename : CStr) (l : List CStr) (k i : Nat) (d : CStr)
    (hi : l[i]? = some d) (hd : d <+: filename)
    (hfirst : ∀ j t, j < i → l[j]? = some t → ¬ t <+: filename) :
    isDirectoryMatchFrom filename l k = ((k + i : Nat) : Int) := by
  induction l generalizing k i with
  | nil => simp at hi
  | cons n rest ih =>
    unfold isDirectoryMatchFrom
    cases i with
    | zero =>
      have hn : n = d := by simpa using hi
      have hs : strstr filename n = some 0 := (strstr_zero_iff _ _).mpr (hn ▸ hd)
      simp [hs]
    | succ i =>
      have hn : strstr filename n ≠ some 0 := by
        intro hs
        exact hfirst 0 n (Nat.succ_pos i) (by simp) ((strstr_zero_iff _ _).mp hs)
      simp only [hn, if_false]
      have hrest := ih (k + 1) i (by simpa using hi)
        (fun j t hj ht => hfirst (j + 1) t (Nat.succ_lt_succ hj) (by simpa using ht))
      rw [hrest]
      congr 1
      omega

/-- C8: for every entry name and every selector list, the index recorded by farDelete and
farExtract is the least index `i` with `name = fileArgs[i]` if there is one; otherwise the least
index `i` such that `ensureSingleSlash(fileArgs[i])` is a prefix of the name if there is one;
otherwise the entry is unmatched, which is exactly when it is neither extracted nor deleted.
An exact match wins over a prefix match whatever their indices. -/
theorem C8_match_classification (fileArgs : List CStr) (name : CStr) :
    (∀ i, fileArgs[i]? = some name → (∀ j < i, fileArgs[j]? ≠ some name) →
      matchIndex fileArgs name = some i) ∧
    (name ∉ fileArgs → ∀ i s, fileArgs[i]? = some s → ensureSingleSlash s <+: name →
      (∀ j t, j < i → fileArgs[j]? = some t → ¬ ensureSingleSlash t <+: name) →
      matchIndex fileArgs name = some i) ∧
    (name ∉ fileArgs → (∀ s ∈ fileArgs, ¬ ensureSingleSlash s <+: name) →
      matchIndex fileArgs name = none) ∧
    (matchIndex fileArgs name = none ↔
      (isDuplicateFile name fileArgs fileArgs.length < 0 ∧
        isDirectoryMatch name (fileArgs.map ensureSingleSlash) fileArgs.length < 0)) := by
  refine ⟨?_, ?_, ?_, ?_⟩
  · intro i hi hfirst
    unfold matchIndex isDuplicateFile
    rw [List.take_length, isDuplicateFileFrom_first name fileArgs 0 i hi hfirst]
    simp [usedArgIndex]
  · intro hnot i s hi hs hfirst
    unfold matchIndex
    have hexact := (isDuplicateFile_neg_iff name fileArgs).mpr hnot
    have hlen : fileArgs.length = (fileArgs.map ensureSingleSlash).length := by simp
    have hdir : isDirectoryMatch name (fileArgs.map ensureSingleSlash) fileArgs.length
        = ((0 + i : Nat) : Int) := by
      unfold isDirectoryMatch
      rw [hlen, List.take_length]
      apply isDirectoryMatchFrom_first name _ 0 i (ensureSingleSlash s) (by simp [hi]) hs
      intro j t hj ht
      rw [List.getElem?_map] at ht
      cases hj' : fileArgs[j]? with
      | none => simp [hj'] at ht
      | some u =>
        simp only [hj', Option.map_some', Option.some.injEq] at ht
        rw [← ht]
        exact hfirst j u hj hj'
    rw [hdir]
    unfold usedArgIndex
    have h1 : ¬ isDuplicateFile name fileArgs fileArgs.length ≥ 0 := by omega
    simp [h1]
  · intro hnot hnone
    rw [matchIndex_eq_none_iff]
    rintro ⟨s, hs, h | h⟩
    · exact hnot (h ▸ hs)
    · exact hnone s hs h
  · unfold matchIndex
    exact usedArgIndex_eq_none_iff _ _

/-- C8 at the selectors `"d"`, `"d/x"` and the entry name `"d/x"`: the slashed form of selector 0
is a prefix of the name, and the name is classified by selector 1, which equals it. -/
theorem C8_match_classification_witness :
    ensureSingleSlash [100] <+: [100, 47, 120] ∧
    matchIndex [[100], [100, 47, 120]] [100, 47, 120] = some 1 ∧
    matchIndex [[100], [100, 47, 120]] [100, 47, 121] = some 0 ∧
    matchIndex [[100], [100, 47, 120]] [101] = none :=
  ⟨by decide,
    (C8_match_classification [[100], [100, 47, 120]] [100, 47, 120]).1 1 (by decide)
      (by decide),
    (C8_match_classification [[100], [100, 47, 120]] [100, 47, 121]).2.1 (by decide) 0 [100]
      (by decide) (by decide) (by intro j t hj; omega),
    (C8_match_classification [[100], [100, 47, 120]] [101]).2.2.1 (by decide) (by decide)⟩

/-! ## printUnusedArgs prints the indices that were not recorded -/

theorem uintLe_iff (a b : Nat) : uintLe a b ↔ a ≤ b := by
  unfold uintLe compareUints
  by_cases h1 : a < b
  · simp only [h1, if_true]
    constructor
    · intro _
      omega
    · intro _
      decide
  · by_cases h2 : a = b
    · simp [h1, h2]
    · simp only [h1, h2, if_false]
      constructor
      · intro h
        exact absurd h (by decide)
      · intro h
        omega

instance uintLe_isTotal : IsTotal Nat uintLe :=
  ⟨fun a b => by
    rw [uintLe_iff, uintLe_iff]
    exact Nat.le_total a b⟩

instance uintLe_isTrans : IsTrans Nat uintLe :=
  ⟨fun a b c hab hbc => by
    rw [uintLe_iff] at hab hbc ⊢
    exact Nat.le_trans hab hbc⟩

theorem qsort_sorted (array : List Nat) : (qsort array).Pairwise (fun a b => a ≤ b) :=
  List.Pairwise.imp (fun h => (uintLe_iff _ _).mp h) (List.sorted_insertionSort uintLe array)

theorem qsort_perm (array : List Nat) : (qsort array).Perm array :=
  List.perm_insertionSort uintLe array

theorem filter_range_split (lo a n : Nat) (rest : List Nat)
    (hrest : ∀ u ∈ rest, a ≤ u) (hlo : lo ≤ a + 1) (ha : a < n) :
    (List.range' lo (n - lo)).filter (fun j => decide (j ∉ a :: rest))
      = List.range' lo (a - lo)
        ++ (List.range' (a + 1) (n - (a + 1))).filter (fun j => decide (j ∉ rest)) := by
  have htail : (List.range' (a + 1) (n - (a + 1))).filter (fun j => decide (j ∉ a :: rest))
      = (List.range' (a + 1) (n - (a + 1))).filter (fun j => decide (j ∉ rest)) := by
    apply List.filter_congr
    intro j hj
    have hj' := List.mem_range'_1.mp hj
    have hne : j ≠ a := by omega
    simp [hne]
  by_cases hle : lo ≤ a
  · have hsplit : List.range' lo (n - lo)
        = List.range' lo (a - lo) ++ ([a] ++ List.range' (a + 1) (n - (a + 1))) := by
      have h1 : [a] ++ List.range' (a + 1) (n - (a + 1)) = List.range' a (n - (a + 1) + 1) := by
        rw [List.range'_succ]
        rfl
      have h2 : a = lo + (a - lo) := by omega
      rw [h1]
      nth_rewrite 2 [h2]
      rw [List.range'_append_1]
      congr 1
      omega
    rw [hsplit, List.filter_append, List.filter_append, htail]
    have hfirst : (List.range' lo (a - lo)).filter (fun j => decide (j ∉ a :: rest))
        = List.range' lo (a - lo) := by
      rw [List.filter_eq_self]
      intro j hj
      have hj' := List.mem_range'_1.mp hj
      have hne : j ≠ a := by omega
      have hnot : j ∉ rest := fun hmem => by
        have := hrest j hmem
        omega
      simp [hne, hnot]
    rw [hfirst]
    simp
  · have hlo' : lo = a + 1 := by omega
    subst hlo'
    rw [htail]
    simp

theorem printUnused_sorted (fileArgs : List CStr) (n a : Nat) (rest : List Nat) (lo : Nat)
    (hsorted : (a :: rest).Pairwise (fun x y => x ≤ y)) (hlo : lo ≤ a + 1)
    (hn : ∀ u ∈ a :: rest, u < n) :
    cannotFindLoop fileArgs lo a
        ++ betweenLoop fileArgs (a :: rest)
        ++ cannotFindLoop fileArgs ((a :: rest).getLastD 0 + 1) n
      = ((List.range' lo (n - lo)).filter (fun j => decide (j ∉ a :: rest))).map
          (fun j => Diag.cannotFindArgError (fileArgs.getD j [])) := by
  induction rest generalizing a lo with
  | nil =>
    rw [filter_range_split lo a n [] (by simp) hlo (hn a (by simp))]
    simp [cannotFindLoop, betweenLoop]
  | cons b rest ih =>
    have hab : a ≤ b := (List.pairwise_cons.mp hsorted).1 b (by simp)
    have hsorted' := (List.pairwise_cons.mp hsorted).2
    have hrest : ∀ u ∈ b :: rest, a ≤ u := (List.pairwise_cons.mp hsorted).1
    have hn' : ∀ u ∈ b :: rest, u < n := fun u hu => hn u (by simp [List.mem_cons.mp hu])
    have hih := ih b (a + 1) hsorted' (by omega) hn'
    rw [filter_range_split lo a n (b :: rest) hrest hlo (hn a (by simp))]
    rw [List.map_append, ← hih]
    simp only [betweenLoop, List.getLastD_cons, cannotFindLoop, List.append_assoc]

theorem printUnusedArgs_eq (fileArgs : List CStr) (n : Nat) (usedArgs : List Nat)
    (hn : ∀ u ∈ usedArgs, u < n) :
    printUnusedArgs fileArgs n usedArgs
      = ((List.range n).filter (fun j => decide (j ∉ usedArgs))).map
          (fun j => Diag.cannotFindArgError (fileArgs.getD j [])) := by
  unfold printUnusedArgs
  by_cases hused : usedArgs = []
  · subst hused
    simp [cannotFindLoop, List.range_eq_range']
  · simp only [hused, ne_eq, not_false_eq_true, if_true]
    have hperm := qsort_perm usedArgs
    have hsorted := qsort_sorted usedArgs
    cases hq : qsort usedArgs with
    | nil =>
      rw [hq] at hperm
      exact absurd hperm.symm.eq_nil hused
    | cons a rest =>
      rw [hq] at hperm hsorted
      have hn' : ∀ u ∈ a :: rest, u < n := fun u hu => hn u (hperm.mem_iff.mp hu)
      have h := printUnused_sorted fileArgs n a rest 0 hsorted (by omega) hn'
      simp only [List.headD_cons]
      rw [h, List.range_eq_range']
      congr 1
      apply List.filter_congr
      intro j _
      simp only [hperm.mem_iff]

/-! ## extractFile and the position in the archive -/

theorem ensureDirExists_frame {σ : Type} (fsx : ExtractFS σ) (dirname : CStr)
    (st : ExtractState σ) :
    (ensureDirExists fsx dirname st).archive = st.archive ∧
    (ensureDirExists fsx dirname st).usedArgs = st.usedArgs ∧
    (ensureDirExists fsx dirname st).stderr.filter Diag.isCannotFind
      = st.stderr.filter Diag.isCannotFind := by
  unfold ensureDirExists
  cases fsx.opendir st.world dirname with
  | opened => simp
  | eacces => simp [Diag.isCannotFind]
  | failed =>
    by_cases h : (fsx.mkdir st.world dirname).1 = true
    · simp [h]
    · simp [h, Diag.isCannotFind]

theorem extractFileLoop_frame {σ : Type} (fsx : ExtractFS σ) (filename : CStr) (fileSize : Nat)
    (fuel currentLen : Nat) (st : ExtractState σ) :
    (extractFileLoop fsx filename fileSize fuel currentLen st).2.usedArgs = st.usedArgs ∧
    (extractFileLoop fsx filename fileSize fuel currentLen st).2.stderr.filter Diag.isCannotFind
      = st.stderr.filter Diag.isCannotFind := by
  induction fuel generalizing currentLen st with
  | zero => simp [extractFileLoop]
  | succ fuel ih =>
    unfold extractFileLoop
    by_cases hlt : currentLen < filename.length
    · simp only [hlt, if_true]
      split
      · obtain ⟨h1, h2⟩ := ih _ (ensureDirExists fsx _ st)
        obtain ⟨_, h3, h4⟩ := ensureDirExists_frame fsx
          (filename.take (currentLen + strcspnSlash (filename.drop currentLen) + 1)) st
        exact ⟨h1.trans h3, h2.trans h4⟩
      · split
        · split
          · simp
          · rename_i body rest _
            obtain ⟨h1, h2⟩ := ih (currentLen + strcspnSlash (filename.drop currentLen) + 1)
              { st with archive := rest,
                        world := fsx.fputs (fsx.fopen st.world filename).2 filename body }
            exact ⟨h1, h2⟩
        · obtain ⟨h1, h2⟩ := ih (currentLen + strcspnSlash (filename.drop currentLen) + 1)
            { st with world := (fsx.fopen st.world filename).2,
                      stderr := st.stderr ++ [Diag.fileOpenError filename] }
          refine ⟨h1, h2.trans ?_⟩
          simp [Diag.isCannotFind]
    · simp [hlt]

theorem extractFileLoop_size_zero {σ : Type} (fsx : ExtractFS σ) (filename : CStr)
    (fuel currentLen : Nat) (st : ExtractState σ) :
    (extractFileLoop fsx filename 0 fuel currentLen st).1 = 0 ∧
    (extractFileLoop fsx filename 0 fuel currentLen st).2.archive = st.archive := by
  induction fuel generalizing currentLen st with
  | zero => simp [extractFileLoop]
  | succ fuel ih =>
    unfold extractFileLoop
    by_cases hlt : currentLen < filename.length
    · simp only [hlt, if_true, readBodyLoop]
      split
      · obtain ⟨h1, h2⟩ := ih (currentLen + strcspnSlash (filename.drop currentLen) + 1)
          (ensureDirExists fsx
            (filename.take (currentLen + strcspnSlash (filename.drop currentLen) + 1)) st)
        exact ⟨h1, h2.trans (ensureDirExists_frame fsx _ st).1⟩
      · split
        · exact ih _ _
        · exact ih _ _
    · simp [hlt]

theorem getD_takeWhile_length (p : Byte → Bool) (l : List Byte) (d : Byte)
    (h : (l.takeWhile p).length < l.length) :
    p (l.getD (l.takeWhile p).length d) = false := by
  induction l with
  | nil => simp at h
  | cons x l ih =>
    by_cases hx : p x = true
    · simp only [List.takeWhile_cons, hx, if_true, List.length_cons, List.getD_cons_succ]
      apply ih
      simpa [List.takeWhile_cons, hx] using h
    · simp only [List.takeWhile_cons, hx]
      simpa using hx

theorem takeWhile_length_le (p : Byte → Bool) (l : List Byte) :
    (l.takeWhile p).length ≤ l.length := by
  induction l with
  | nil => simp
  | cons x l ih =>
    by_cases hx : p x = true
    · simp only [List.takeWhile_cons, hx, if_true, List.length_cons]
      omega
    · simp [List.takeWhile_cons, hx]

theorem strcspnSlash_spec (filename : CStr) (currentLen : Nat) :
    currentLen + strcspnSlash (filename.drop currentLen) ≤ max currentLen filename.length ∧
    (currentLen + strcspnSlash (filename.drop currentLen) < filename.length →
      filename.getD (currentLen + strcspnSlash (filename.drop currentLen)) 0 = slash) := by
  have hle := takeWhile_length_le (fun c => decide (c ≠ slash)) (filename.drop currentLen)
  rw [List.length_drop] at hle
  constructor
  · unfold strcspnSlash
    omega
  · intro hlt
    have hlt' : ((filename.drop currentLen).takeWhile (fun c => decide (c ≠ slash))).length
        < (filename.drop currentLen).length := by
      rw [List.length_drop]
      unfold strcspnSlash at hlt
      omega
    have h := getD_takeWhile_length (fun c => decide (c ≠ slash)) (filename.drop currentLen)
      0 hlt'
    rw [List.getD_eq_getElem?_getD, List.getElem?_drop, ← List.getD_eq_getElem?_getD] at h
    simpa [strcspnSlash] using h

theorem extractFileLoop_done {σ : Type} (fsx : ExtractFS σ) (filename : CStr) (fileSize : Nat)
    (fuel currentLen : Nat) (st : ExtractState σ) (h : ¬ currentLen < filename.length) :
    extractFileLoop fsx filename fileSize fuel currentLen st = (0, st) := by
  cases fuel with
  | zero => rfl
  | succ fuel => simp [extractFileLoop, h]

theorem extractFileLoop_file {σ : Type} (fsx : ExtractFS σ) (filename : CStr)
    (body rest : List Byte)
    (hopen : ∀ w n, (fsx.fopen w n).1 = true)
    (hlast : filename.getD (filename.length - 1) 0 ≠ slash)
    (fuel currentLen : Nat) (st : ExtractState σ)
    (hcur : currentLen < filename.length) (hfuel : filename.length - currentLen ≤ fuel)
    (harchive : st.archive = body ++ rest) :
    (extractFileLoop fsx filename body.length fuel currentLen st).1 = 0 ∧
    (extractFileLoop fsx filename body.length fuel currentLen st).2.archive = rest := by
  induction fuel generalizing currentLen st with
  | zero => omega
  | succ fuel ih =>
    unfold extractFileLoop
    simp only [hcur, if_true]
    obtain ⟨hle, hslash⟩ := strcspnSlash_spec filename currentLen
    have hmax : max currentLen filename.length = filename.length := by omega
    rw [hmax] at hle
    have hsub : currentLen + strcspnSlash (filename.drop currentLen) + 1 - 1
        = currentLen + strcspnSlash (filename.drop currentLen) := by omega
    rw [hsub]
    by_cases hk : currentLen + strcspnSlash (filename.drop currentLen) < filename.length
    · have hs := hslash hk
      simp only [hs, if_true]
      have hne : currentLen + strcspnSlash (filename.drop currentLen) ≠ filename.length - 1 := by
        intro heq
        rw [heq] at hs
        exact hlast hs
      apply ih
      · omega
      · omega
      · rw [(ensureDirExists_frame fsx _ st).1]
        exact harchive
    · have heq : currentLen + strcspnSlash (filename.drop currentLen) = filename.length := by
        omega
      have hout : filename.getD (currentLen + strcspnSlash (filename.drop currentLen)) 0 = 0 := by
        rw [heq, List.getD_eq_getElem?_getD, List.getElem?_eq_none (Nat.le_refl _)]
        rfl
      have hns : ¬ (filename.getD (currentLen + strcspnSlash (filename.drop currentLen)) 0
          = slash) := by
        rw [hout]
        decide
      simp only [hns, if_false, hopen, if_true, harchive, readBodyLoop_append]
      rw [extractFileLoop_done fsx filename body.length fuel _ _ (by omega)]
      exact ⟨rfl, rfl⟩

theorem getD_last_of_namesFile (name : CStr) (h : NamesFile name) :
    name.getD (name.length - 1) 0 ≠ slash := by
  obtain ⟨hne, hlast⟩ := h
  intro hs
  apply hlast
  rw [List.getLast?_eq_getElem?]
  rw [List.getD_eq_getElem?_getD] at hs
  cases hget : name[name.length - 1]? with
  | none =>
    have hpos : 0 < name.length := List.length_pos.mpr hne
    rw [List.getElem?_eq_none_iff] at hget
    omega
  | some c =>
    rw [hget] at hs
    simpa using hs

theorem extractFile_consumes {σ : Type} (fsx : ExtractFS σ) (e : Entry) (rest : List Byte)
    (hopen : ∀ w n, (fsx.fopen w n).1 = true)
    (he : e.size = 0 ∨ NamesFile e.name) (hbody : e.body.length = e.size)
    (st : ExtractState σ) (harchive : st.archive = e.body ++ rest) :
    (extractFile fsx e.name e.size st).1 = 0 ∧
    (extractFile fsx e.name e.size st).2.archive = rest ∧
    (extractFile fsx e.name e.size st).2.usedArgs = st.usedArgs ∧
    (extractFile fsx e.name e.size st).2.stderr.filter Diag.isCannotFind
      = st.stderr.filter Diag.isCannotFind := by
  unfold extractFile
  obtain ⟨h3, h4⟩ := extractFileLoop_frame fsx e.name e.size (e.name.length + 2) 0 st
  refine ⟨?_, ?_, h3, h4⟩
  · rcases he with h0 | hfile
    · rw [h0]
      exact (extractFileLoop_size_zero fsx e.name _ 0 st).1
    · rw [← hbody]
      exact (extractFileLoop_file fsx e.name e.body rest hopen
        (getD_last_of_namesFile _ hfile) _ 0 st (List.length_pos.mpr hfile.1) (by omega)
        harchive).1
  · rcases he with h0 | hfile
    · have hnil : e.body = [] := List.length_eq_zero.mp (hbody.trans h0)
      rw [h0, (extractFileLoop_size_zero fsx e.name _ 0 st).2, harchive, hnil]
      rfl
    · rw [← hbody]
      exact (extractFileLoop_file fsx e.name e.body rest hopen
        (getD_last_of_namesFile _ hfile) _ 0 st (List.length_pos.mpr hfile.1) (by omega)
        harchive).2

/-! ## The loop of farExtract on a well-formed stream -/

theorem matchIndex_nil (name : CStr) : matchIndex [] name = none := rfl

theorem usedArgIndex_ne_none_iff (a b : Int) : usedArgIndex a b ≠ none ↔ (a ≥ 0 ∨ b ≥ 0) := by
  rw [ne_eq, usedArgIndex_eq_none_iff]
  omega

theorem farExtractLoop_encode {σ : Type} (fsx : ExtractFS σ) (fileArgs : List CStr)
    (es : List Entry) (hvalid : ∀ e ∈ es, e.Valid)
    (hopen : ∀ w n, (fsx.fopen w n).1 = true)
    (hext : ∀ e ∈ es, Extracted fileArgs e.name → e.size = 0 ∨ NamesFile e.name)
    (rest : List Byte) (st : ExtractState σ) (harchive : st.archive = encodeEntries es ++ rest) :
    (farExtractLoop fsx fileArgs (fileArgs.map ensureSingleSlash) fileArgs.length
        es.length st).1 = true ∧
    (farExtractLoop fsx fileArgs (fileArgs.map ensureSingleSlash) fileArgs.length
        es.length st).2.archive = rest ∧
    (farExtractLoop fsx fileArgs (fileArgs.map ensureSingleSlash) fileArgs.length
        es.length st).2.usedArgs
      = st.usedArgs ++ es.filterMap (fun e => matchIndex fileArgs e.name) ∧
    (farExtractLoop fsx fileArgs (fileArgs.map ensureSingleSlash) fileArgs.length
        es.length st).2.stderr.filter Diag.isCannotFind
      = st.stderr.filter Diag.isCannotFind := by
  induction es generalizing st with
  | nil => simpa [farExtractLoop, encodeEntries] using harchive
  | cons e es ih =>
    obtain ⟨hname, hsize, hbody⟩ := hvalid e (by simp)
    have hes : ∀ x ∈ es, x.Valid := fun x hx => hvalid x (by simp [hx])
    have hext' : ∀ x ∈ es, Extracted fileArgs x.name → x.size = 0 ∨ NamesFile x.name :=
      fun x hx => hext x (by simp [hx])
    rw [encodeEntries_cons_append] at harchive
    by_cases hnil : fileArgs = []
    · subst hnil
      simp only [List.length_nil, List.map_nil] at ih ⊢
      simp only [List.length_cons, farExtractLoop, harchive]
      rw [getFileName_append _ _ hname]
      simp only
      rw [freadUint_fwriteUint _ _ hsize]
      simp only
      have hcons := extractFile_consumes fsx e (encodeEntries es ++ rest) hopen
        (hext e (by simp) (Or.inl rfl)) hbody
        { st with archive := e.body ++ (encodeEntries es ++ rest) } rfl
      obtain ⟨h1, h2, h3, h4⟩ := hcons
      have hnot : ¬ (extractFile fsx e.name e.size
          { st with archive := e.body ++ (encodeEntries es ++ rest) }).1 < 0 := by
        rw [h1]
        decide
      simp only [if_true, hnot, if_false]
      obtain ⟨i1, i2, i3, i4⟩ := ih hes hext' _ h2
      refine ⟨i1, i2, ?_, ?_⟩
      · rw [i3, h3]
        simp [matchIndex_nil]
      · rw [i4, h4]
    have hargs : fileArgs.length ≠ 0 := fun h => hnil (List.length_eq_zero.mp h)
    simp only [List.length_cons, farExtractLoop, harchive]
    rw [getFileName_append _ _ hname]
    simp only
    rw [freadUint_fwriteUint _ _ hsize]
    simp only
    simp only [hargs, if_false]
    cases hm : matchIndex fileArgs e.name with
    | none =>
      have hm' := hm
      unfold matchIndex at hm'
      have hneg := (usedArgIndex_eq_none_iff _ _).mp hm'
      have hnot : ¬ (isDuplicateFile e.name fileArgs fileArgs.length ≥ 0 ∨
          isDirectoryMatch e.name (fileArgs.map ensureSingleSlash) fileArgs.length ≥ 0) := by
        omega
      simp only [hnot, if_false, hm']
      rw [← hbody, readBodyLoop_append]
      simp only
      obtain ⟨i1, i2, i3, i4⟩ := ih hes hext'
        { st with archive := encodeEntries es ++ rest } rfl
      refine ⟨i1, i2, ?_, i4⟩
      rw [i3]
      simp [List.filterMap_cons, hm]
    | some i =>
      have hm' := hm
      unfold matchIndex at hm'
      have hpos : (isDuplicateFile e.name fileArgs fileArgs.length ≥ 0 ∨
          isDirectoryMatch e.name (fileArgs.map ensureSingleSlash) fileArgs.length ≥ 0) := by
        apply (usedArgIndex_ne_none_iff _ _).mp
        rw [hm']
        simp
      have hextracted : Extracted fileArgs e.name := Or.inr (by rw [hm]; simp)
      have hcons := extractFile_consumes fsx e (encodeEntries es ++ rest) hopen
        (hext e (by simp) hextracted) hbody
        { st with archive := e.body ++ (encodeEntries es ++ rest),
                  usedArgs := uintArrayAdd st.usedArgs i } rfl
      obtain ⟨h1, h2, h3, h4⟩ := hcons
      have hnot : ¬ (extractFile fsx e.name e.size
          { st with archive := e.body ++ (encodeEntries es ++ rest),
                    usedArgs := uintArrayAdd st.usedArgs i }).1 < 0 := by
        rw [h1]
        decide
      simp only [hpos, if_true, hm', hnot, if_false]
      obtain ⟨i1, i2, i3, i4⟩ := ih hes hext' _ h2
      refine ⟨i1, i2, ?_, ?_⟩
      · rw [i3, h3]
        simp [List.filterMap_cons, hm, uintArrayAdd]
      · rw [i4, h4]

/-! ## C9: what the used-selectors array holds -/

theorem isDuplicateFileFrom_index (name : CStr) (l : List CStr) (k : Nat)
    (h : 0 ≤ isDuplicateFileFrom name l k) :
    ∃ i, isDuplicateFileFrom name l k = ((k + i : Nat) : Int) ∧ l[i]? = some name := by
  induction l generalizing k with
  | nil =>
    unfold isDuplicateFileFrom at h
    exact absurd h (by decide)
  | cons n rest ih =>
    unfold isDuplicateFileFrom at h ⊢
    by_cases hn : name = n
    · exact ⟨0, by simp [hn], by simp [hn]⟩
    · simp only [hn, if_false] at h ⊢
      obtain ⟨i, hi1, hi2⟩ := ih (k + 1) h
      refine ⟨i + 1, ?_, by simpa using hi2⟩
      rw [hi1]
      congr 1
      omega

theorem isDirectoryMatchFrom_index (filename : CStr) (l : List CStr) (k : Nat)
    (h : 0 ≤ isDirectoryMatchFrom filename l k) :
    ∃ i d, isDirectoryMatchFrom filename l k = ((k + i : Nat) : Int) ∧ l[i]? = some d ∧
      d <+: filename := by
  induction l generalizing k with
  | nil =>
    unfold isDirectoryMatchFrom at h
    exact absurd h (by decide)
  | cons n rest ih =>
    unfold isDirectoryMatchFrom at h ⊢
    by_cases hn : strstr filename n = some 0
    · exact ⟨0, n, by simp [hn], by simp, (strstr_zero_iff _ _).mp hn⟩
    · simp only [hn, if_false] at h ⊢
      obtain ⟨i, d, hi1, hi2, hi3⟩ := ih (k + 1) h
      refine ⟨i + 1, d, ?_, by simpa using hi2, hi3⟩
      rw [hi1]
      congr 1
      omega

theorem matchIndex_some (fileArgs : List CStr) (name : CStr) (i : Nat)
    (h : matchIndex fileArgs name = some i) :
    ∃ s, fileArgs[i]? = some s ∧ (name = s ∨ ensureSingleSlash s <+: name) := by
  unfold matchIndex usedArgIndex at h
  by_cases hexact : isDuplicateFile name fileArgs fileArgs.length ≥ 0
  · simp only [hexact, if_true, Option.some.injEq] at h
    unfold isDuplicateFile at h hexact
    rw [List.take_length] at h hexact
    obtain ⟨j, hj1, hj2⟩ := isDuplicateFileFrom_index name fileArgs 0 hexact
    rw [hj1] at h
    have hji : j = i := by simpa using h
    subst hji
    exact ⟨name, hj2, Or.inl rfl⟩
  · simp only [hexact, if_false] at h
    by_cases hdir : isDirectoryMatch name (fileArgs.map ensureSingleSlash) fileArgs.length ≥ 0
    · simp only [hdir, if_true, Option.some.injEq] at h
      unfold isDirectoryMatch at h hdir
      have hlen : fileArgs.length = (fileArgs.map ensureSingleSlash).length := by simp
      rw [hlen, List.take_length] at h hdir
      obtain ⟨j, d, hj1, hj2, hj3⟩ := isDirectoryMatchFrom_index name _ 0 hdir
      rw [hj1] at h
      have hji : j = i := by simpa using h
      subst hji
      rw [List.getElem?_map] at hj2
      cases hs : fileArgs[j]? with
      | none => simp [hs] at hj2
      | some s =>
        simp only [hs, Option.map_some', Option.some.injEq] at hj2
        exact ⟨s, rfl, Or.inr (hj2 ▸ hj3)⟩
    · simp [hdir] at h

theorem matchIndex_lt (fileArgs : List CStr) (name : CStr) (i : Nat)
    (h : matchIndex fileArgs name = some i) : i < fileArgs.length := by
  obtain ⟨s, hs, _⟩ := matchIndex_some fileArgs name i h
  by_contra hlt
  rw [List.getElem?_eq_none (by omega)] at hs
  exact absurd hs (by simp)

theorem printUnusedArgs_recorded (fileArgs : List CStr) (es : List Entry) :
    printUnusedArgs fileArgs fileArgs.length
        (es.filterMap (fun e => matchIndex fileArgs e.name))
      = (unrecordedSelectors fileArgs es).map
          (fun i => Diag.cannotFindArgError (fileArgs.getD i [])) := by
  rw [printUnusedArgs_eq]
  · unfold unrecordedSelectors
    congr 1
    apply List.filter_congr
    intro j _
    simp only [List.mem_filterMap, not_exists, not_and, decide_eq_decide]
  · intro u hu
    obtain ⟨e, _, he⟩ := List.mem_filterMap.mp hu
    exact matchIndex_lt fileArgs e.name u he

theorem filter_isCannotFind_map (l : List Nat) (fileArgs : List CStr) :
    (l.map (fun i => Diag.cannotFindArgError (fileArgs.getD i []))).filter Diag.isCannotFind
      = l.map (fun i => Diag.cannotFindArgError (fileArgs.getD i [])) := by
  rw [List.filter_eq_self]
  intro d hd
  obtain ⟨i, _, rfl⟩ := List.mem_map.mp hd
  rfl

/-- C10 (as amended): on a well-formed archive, for every selector list, farDelete prints, when
the temporary file can be created, the `Cannot find file` diagnostic exactly for the selector
indices under which no entry is classified, once each and in increasing order, and nothing
else; when the temporary file cannot be created it prints no `Cannot find file` diagnostic at
all. farExtract returns SUCCESS and prints the `Cannot find file` diagnostic for the same
indices, once each and in increasing order, when every destination file can be opened and every
extracted entry has size 0 or a non-empty name not ending in `'/'`. A selector that matches no
entry (neither by exact name nor as a directory prefix) is among those reported; a selector
under which an entry is classified is never reported. -/
theorem C10_unrecorded_selectors_reported {σ : Type} (fsx : ExtractFS σ) (world : σ)
    (temp : Option (List Byte)) (fileArgs : List CStr) (bytes : List Byte) (es : List Entry)
    (hwf : WellFormed bytes es) :
    (farDelete true { archive := some bytes, temp := temp } fileArgs).stderr
      = (unrecordedSelectors fileArgs es).map
          (fun i => Diag.cannotFindArgError (fileArgs.getD i [])) ∧
    (farDelete false { archive := some bytes, temp := temp } fileArgs).stderr.filter
        Diag.isCannotFind = [] ∧
    ((∀ w n, (fsx.fopen w n).1 = true) →
      (∀ e ∈ es, Extracted fileArgs e.name → e.size = 0 ∨ NamesFile e.name) →
      (farExtract fsx (some bytes) world fileArgs).code = FAR_RTRN.SUCCESS ∧
      (farExtract fsx (some bytes) world fileArgs).stderr.filter Diag.isCannotFind
        = (unrecordedSelectors fileArgs es).map
            (fun i => Diag.cannotFindArgError (fileArgs.getD i []))) ∧
    (∀ i s, fileArgs[i]? = some s →
      (∀ e ∈ es, e.name ≠ s ∧ ¬ ensureSingleSlash s <+: e.name) →
      i ∈ unrecordedSelectors fileArgs es) ∧
    (∀ i, (∃ e ∈ es, matchIndex fileArgs e.name = some i) →
      i ∉ unrecordedSelectors fileArgs es) := by
  refine ⟨?_, ?_, ?_, ?_, ?_⟩
  · by_cases hargs : fileArgs = []
    · subst hargs
      rfl
    · rw [farDelete_wellFormed bytes es temp fileArgs hwf hargs]
      exact printUnusedArgs_recorded fileArgs es
  · by_cases hargs : fileArgs = []
    · subst hargs
      rfl
    · rw [farDelete_temp_fails bytes _ _ temp fileArgs hargs (freadUint_wellFormed bytes es hwf)]
      rfl
  · intro hopen hext
    have h := farExtractLoop_encode fsx fileArgs es hwf.2.1 hopen hext []
      { archive := encodeEntries es, world := world, stderr := [], usedArgs := [] }
      (by simp)
    unfold farExtract
    simp only [freadUint_wellFormed bytes es hwf]
    split
    · rename_i st heq
      rw [heq] at h
      exact absurd h.1 (by simp)
    · rename_i st heq
      rw [heq] at h
      obtain ⟨_, _, h3, h4⟩ := h
      simp only at h3 h4
      refine ⟨rfl, ?_⟩
      rw [List.filter_append, h4, h3]
      simp only [List.filter_nil, List.nil_append]
      rw [printUnusedArgs_recorded, filter_isCannotFind_map]
  · intro i s hi hnone
    unfold unrecordedSelectors
    rw [List.mem_filter]
    refine ⟨?_, ?_⟩
    · rw [List.mem_range]
      by_contra hlt
      rw [List.getElem?_eq_none (by omega)] at hi
      exact absurd hi (by simp)
    · simp only [decide_eq_true_eq]
      intro e he hm
      obtain ⟨t, ht, hmatch⟩ := matchIndex_some fileArgs e.name i hm
      rw [hi] at ht
      have hts : s = t := Option.some.inj ht
      subst hts
      rcases hmatch with h | h
      · exact (hnone e he).1 h
      · exact (hnone e he).2 h
  · rintro i ⟨e, he, hm⟩ hmem
    unfold unrecordedSelectors at hmem
    rw [List.mem_filter] at hmem
    have := hmem.2
    simp only [decide_eq_true_eq] at this
    exact this e he hm

/-- C10 at the specification's example: the selectors `"x.txt"`, `"missing"`, `"y.txt"` on the
archive holding `x.txt` and `y.txt`, for farDelete with and without the temporary file and for
farExtract. -/
theorem C10_unrecorded_selectors_reported_witness :
    (farDelete true { archive := some (encodeArchive exampleEntries), temp := none }
        [[120, 46, 116, 120, 116], [109], [121, 46, 116, 120, 116]]).stderr
      = [Diag.cannotFindArgError [109]] ∧
    (farDelete false { archive := some (encodeArchive exampleEntries), temp := none }
        [[120, 46, 116, 120, 116], [109], [121, 46, 116, 120, 116]]).stderr.filter
          Diag.isCannotFind
      = [] ∧
    (farExtract permissiveFS (some (encodeArchive exampleEntries)) []
        [[120, 46, 116, 120, 116], [109], [121, 46, 116, 120, 116]]).stderr.filter
          Diag.isCannotFind
      = [Diag.cannotFindArgError [109]] :=
  have h := C10_unrecorded_selectors_reported permissiveFS [] none
    [[120, 46, 116, 120, 116], [109], [121, 46, 116, 120, 116]]
    (encodeArchive exampleEntries) exampleEntries (by decide)
  ⟨h.1.trans (by decide), h.2.1, (h.2.2.1 (fun _ _ => rfl) (by decide)).2.trans (by decide)⟩

/-- C10 (counterexample): the archive holds the single entry `"d/x"` and the selectors are `"d"`
and `"d/x"`. Selector 0 matches the entry as a directory prefix, yet farDelete and farExtract
both print `Cannot find file: d`, because the entry is classified under selector 1. -/
theorem C10_matching_selector_reported :
    WellFormed (encodeArchive [{ name := [100, 47, 120], size := 1, body := [7] }])
      [{ name := [100, 47, 120], size := 1, body := [7] }] ∧
    ensureSingleSlash [100] <+: [100, 47, 120] ∧
    (farDelete true
        { archive := some (encodeArchive [{ name := [100, 47, 120], size := 1, body := [7] }]),
          temp := none }
        [[100], [100, 47, 120]]).stderr = [Diag.cannotFindArgError [100]] ∧
    (farExtract permissiveFS
        (some (encodeArchive [{ name := [100, 47, 120], size := 1, body := [7] }])) []
        [[100], [100, 47, 120]]).stderr = [Diag.cannotFindArgError [100]] := by
  decide

/-! ## C11: printUnusedArgs -/

/-- C11: for every selector array and every `usedArgs` array of indices below its length (in
any order, with repeats, possibly empty), printUnusedArgs emits the `Cannot find file`
diagnostic of the indices below the length that do not occur in `usedArgs`, in strictly
increasing index order: an index that does not occur in `usedArgs` is reported exactly once,
and an index that occurs in it is not reported. -/
theorem C11_printUnusedArgs_reports_unused (fileArgs : List CStr) (usedArgs : List Nat)
    (hused : ∀ u ∈ usedArgs, u < fileArgs.length) :
    printUnusedArgs fileArgs fileArgs.length usedArgs
      = ((List.range fileArgs.length).filter (fun j => decide (j ∉ usedArgs))).map
          (fun j => Diag.cannotFindArgError (fileArgs.getD j [])) ∧
    ((List.range fileArgs.length).filter (fun j => decide (j ∉ usedArgs))).Pairwise
      (fun a b => a < b) ∧
    (∀ j, j < fileArgs.length → j ∉ usedArgs →
      ((List.range fileArgs.length).filter (fun j => decide (j ∉ usedArgs))).count j = 1) ∧
    (∀ j ∈ usedArgs,
      ((List.range fileArgs.length).filter (fun j => decide (j ∉ usedArgs))).count j = 0) := by
  have hsorted : ((List.range fileArgs.length).filter
      (fun j => decide (j ∉ usedArgs))).Pairwise (fun a b => a < b) :=
    List.Pairwise.sublist (List.filter_sublist _) (List.pairwise_lt_range _)
  have hnodup : ((List.range fileArgs.length).filter
      (fun j => decide (j ∉ usedArgs))).Nodup :=
    List.Nodup.sublist (List.filter_sublist _) (List.nodup_range _)
  refine ⟨printUnusedArgs_eq fileArgs fileArgs.length usedArgs hused, hsorted, ?_, ?_⟩
  · intro j hj hnot
    apply List.count_eq_one_of_mem hnodup
    rw [List.mem_filter]
    exact ⟨List.mem_range.mpr hj, by simpa using hnot⟩
  · intro j hj
    apply List.count_eq_zero_of_not_mem
    rw [List.mem_filter]
    rintro ⟨_, h⟩
    simp only [decide_eq_true_eq] at h
    exact h hj

/-- C11 at four selectors `"a"`, `"b"`, `"c"`, `"d"` and the used indices `2, 0, 2`: the
diagnostics of the indices 1 and 3 are printed, in this order. -/
theorem C11_printUnusedArgs_reports_unused_witness :
    printUnusedArgs [[97], [98], [99], [100]] 4 [2, 0, 2]
      = [Diag.cannotFindArgError [98], Diag.cannotFindArgError [100]] :=
  (C11_printUnusedArgs_reports_unused [[97], [98], [99], [100]] [2, 0, 2]
    (by decide)).1.trans (by decide)

/-! ## C18: ensureSingleSlash -/

theorem ensureSingleSlashLoop_eq (dirname : CStr) (i : Nat) (outputSize : Nat)
    (hi : i ≤ dirname.length) :
    ensureSingleSlashLoop dirname i outputSize
      = outputSize - (i - (withoutTrailingSlashes (dirname.take i)).length) := by
  induction i generalizing outputSize with
  | zero => simp [ensureSingleSlashLoop]
  | succ i ih =>
    have hlt : i < dirname.length := by omega
    have htake : dirname.take (i + 1) = dirname.take i ++ [dirname.getD i 0] := by
      rw [List.take_succ, List.getD_eq_getElem?_getD, List.getElem?_eq_getElem hlt]
      rfl
    have hle : (withoutTrailingSlashes (dirname.take i)).length ≤ i := by
      have h1 : (withoutTrailingSlashes (dirname.take i)).length ≤ (dirname.take i).length :=
        (List.rdropWhile_prefix _ _).length_le
      have h2 : (dirname.take i).length ≤ i := by
        rw [List.length_take]
        omega
      omega
    unfold ensureSingleSlashLoop
    by_cases hs : dirname.getD i 0 = slash
    · simp only [hs, if_true]
      rw [ih (outputSize - 1) (by omega), htake, hs]
      unfold withoutTrailingSlashes
      rw [List.rdropWhile_concat_pos _ _ _ (by simp)]
      unfold withoutTrailingSlashes at hle
      omega
    · simp only [hs, if_false]
      rw [htake]
      unfold withoutTrailingSlashes
      rw [List.rdropWhile_concat_neg _ _ _ (by simpa using hs)]
      rw [List.length_append, List.length_take]
      simp only [List.length_singleton]
      have : min i dirname.length = i := by omega
      omega

theorem ensureSingleSlash_eq (s : CStr) :
    ensureSingleSlash s = withoutTrailingSlashes s ++ [slash] := by
  have hpre : withoutTrailingSlashes s <+: s := List.rdropWhile_prefix _ _
  have hle : (withoutTrailingSlashes s).length ≤ s.length := hpre.length_le
  unfold ensureSingleSlash
  simp only
  rw [ensureSingleSlashLoop_eq s s.length (s.length + 2) (Nat.le_refl _), List.take_length]
  have hsize : s.length + 2 - (s.length - (withoutTrailingSlashes s).length) - 2
      = (withoutTrailingSlashes s).length := by omega
  rw [hsize, ← List.prefix_iff_eq_take.mp hpre]

theorem withoutTrailingSlashes_getLast (s : CStr) :
    (withoutTrailingSlashes s).getLast? ≠ some slash := by
  intro h
  have hne : withoutTrailingSlashes s ≠ [] := by
    intro hnil
    rw [hnil] at h
    simp at h
  have hlast := List.rdropWhile_last_not (fun c => decide (c = slash)) s hne
  rw [List.getLast?_eq_getLast _ hne] at h
  have heq : (withoutTrailingSlashes s).getLast hne = slash := Option.some.inj h
  unfold withoutTrailingSlashes at heq
  rw [heq] at hlast
  simp at hlast

theorem withoutTrailingSlashes_rest (s : CStr) :
    ∃ k, s = withoutTrailingSlashes s ++ List.replicate k slash := by
  induction s using List.reverseRecOn with
  | nil => exact ⟨0, by simp [withoutTrailingSlashes]⟩
  | append_singleton l x ih =>
    obtain ⟨k, hk⟩ := ih
    by_cases hx : x = slash
    · refine ⟨k + 1, ?_⟩
      unfold withoutTrailingSlashes at hk ⊢
      rw [List.rdropWhile_concat_pos _ _ _ (by simpa using hx), hx]
      rw [List.replicate_succ', ← List.append_assoc, ← hk]
    · refine ⟨0, ?_⟩
      unfold withoutTrailingSlashes
      rw [List.rdropWhile_concat_neg _ _ _ (by simpa using hx)]
      simp

/-- C18: for every string `s`, ensureSingleSlash returns `s` with all its trailing `'/'`
characters removed, followed by a single `'/'`. Here `s` is the part without trailing slashes
followed by some number of `'/'`, and that part does not end in `'/'`. Hence the result ends in
`'/'` and, when it is longer than one character, its second-to-last character is not `'/'`. -/
theorem C18_ensureSingleSlash_strips_and_appends (s : CStr) :
    ensureSingleSlash s = withoutTrailingSlashes s ++ [slash] ∧
    (∃ k, s = withoutTrailingSlashes s ++ List.replicate k slash) ∧
    (withoutTrailingSlashes s).getLast? ≠ some slash ∧
    (ensureSingleSlash s).getLast? = some slash ∧
    (1 < (ensureSingleSlash s).length →
      (ensureSingleSlash s)[(ensureSingleSlash s).length - 2]? ≠ some slash) := by
  refine ⟨ensureSingleSlash_eq s, withoutTrailingSlashes_rest s,
    withoutTrailingSlashes_getLast s, ensureSingleSlash_getLast s, ?_⟩
  intro hlen
  rw [ensureSingleSlash_eq] at hlen ⊢
  have hlast := withoutTrailingSlashes_getLast s
  rw [List.getLast?_eq_getElem?] at hlast
  simp only [List.length_append, List.length_singleton] at hlen ⊢
  have hidx : (withoutTrailingSlashes s).length + 1 - 2
      = (withoutTrailingSlashes s).length - 1 := by omega
  rw [hidx, List.getElem?_append_left (by omega)]
  exact hlast

/-- C18 at the empty string, at `"///"` and at `"a//b///"`. -/
theorem C18_ensureSingleSlash_strips_and_appends_witness :
    ensureSingleSlash [] = [slash] ∧
    ensureSingleSlash [47, 47, 47] = [slash] ∧
    ensureSingleSlash [97, 47, 47, 98, 47, 47, 47] = [97, 47, 47, 98, 47] :=
  ⟨(C18_ensureSingleSlash_strips_and_appends []).1.trans (by decide),
   (C18_ensureSingleSlash_strips_and_appends [47, 47, 47]).1.trans (by decide),
   (C18_ensureSingleSlash_strips_and_appends [97, 47, 47, 98, 47, 47, 47]).1.trans
     (by decide)⟩

/-! ## C15: farDelete on an archive that cannot be opened -/

/-- C15 (as amended): for every non-empty selector list, when the file `archiveName` cannot be
opened farDelete prints the archive-name diagnostic, returns OPEN_ERROR and leaves the two
files as they were, whether or not the temporary file could be created. -/
theorem C15_farDelete_requires_archive (tempOk : Bool) (temp : Option (List Byte))
    (fileArgs : List CStr) (hargs : fileArgs ≠ []) :
    farDelete tempOk { archive := none, temp := temp } fileArgs
      = { code := FAR_RTRN.OPEN_ERROR, disk := { archive := none, temp := temp },
          stderr := [Diag.invalidArchiveNameError] } := by
  have hlen : fileArgs.length ≠ 0 := fun h => hargs (List.length_eq_zero.mp h)
  simp [farDelete, hlen]

/-- C15 at the selector list `"x"`. -/
theorem C15_farDelete_requires_archive_witness :
    (farDelete true { archive := none, temp := none } [[120]]).code = FAR_RTRN.OPEN_ERROR :=
  congrArg Outcome.code
    (C15_farDelete_requires_archive true none [[120]] (by decide))

/-- C15 (counterexample): with the empty selector list farDelete returns SUCCESS before it
tries to open the archive, also when the archive cannot be opened. -/
theorem C15_empty_list_returns_success :
    (farDelete true { archive := none, temp := none } []).code = FAR_RTRN.SUCCESS ∧
    (farDelete true { archive := none, temp := none } []).stderr = [] := by
  decide

/-! ## C14: the archive after a failed command -/

theorem farDelete_failure_keeps_archive (tempOk : Bool) (disk : Disk) (fileArgs : List CStr)
    (hcode : (farDelete tempOk disk fileArgs).code ≠ FAR_RTRN.SUCCESS) :
    (farDelete tempOk disk fileArgs).disk.archive = disk.archive := by
  obtain ⟨archive, temp⟩ := disk
  unfold farDelete at hcode ⊢
  by_cases hargs : fileArgs.length = 0
  · simp [hargs]
  · simp only [hargs, if_false] at hcode ⊢
    cases archive with
    | none => rfl
    | some bytes =>
      simp only at hcode ⊢
      cases hread : freadUint bytes with
      | none => rfl
      | some r =>
        obtain ⟨oldNumFiles, oldArchive⟩ := r
        simp only [hread] at hcode ⊢
        by_cases htemp : tempOk = false
        · simp [htemp]
        · simp only [htemp, if_false] at hcode ⊢
          cases hloop : farDeleteLoop fileArgs (fileArgs.map ensureSingleSlash) fileArgs.length
              oldNumFiles { oldArchive := oldArchive, tempArchive := fwriteUint 0,
                            newNumFiles := 0, usedArgs := [] } with
          | none => rfl
          | some st =>
            rw [hloop] at hcode
            exact absurd rfl hcode

theorem farAdd_failure_keeps_archive (fs : FileSys) (tempOk : Bool) (disk : Disk)
    (fileArgs : List CStr) (out : Outcome) (hout : farAdd fs tempOk disk fileArgs = some out)
    (hcode : out.code ≠ FAR_RTRN.SUCCESS) :
    out.disk.archive = disk.archive := by
  unfold farAdd at hout
  simp only at hout
  split at hout
  · rw [← Option.some.inj hout]
  · split at hout
    · rw [← Option.some.inj hout]
    · split at hout
      · split at hout
        · exact absurd hout (by simp)
        · rw [← Option.some.inj hout]
      · split at hout
        · rw [← Option.some.inj hout]
        · split at hout
          · exact absurd hout (by simp)
          · rw [← Option.some.inj hout] at hcode
            exact absurd rfl hcode

/-- C14 (as amended): the archive and the temporary file being two files (the archive is not
named `ARCHIVE.bak`), whenever farDelete returns a code other than SUCCESS, and whenever farAdd
returns a code other than SUCCESS, the file named `archiveName` is afterwards what it was
before the call: the same bytes, or still not to be opened. This holds for every content of the
two files, every name list, and whether or not the temporary file can be created. -/
theorem C14_archive_unchanged_on_failure (fs : FileSys) (tempOk : Bool) (disk : Disk)
    (fileArgs : List CStr) :
    ((farDelete tempOk disk fileArgs).code ≠ FAR_RTRN.SUCCESS →
      (farDelete tempOk disk fileArgs).disk.archive = disk.archive) ∧
    (∀ out, farAdd fs tempOk disk fileArgs = some out → out.code ≠ FAR_RTRN.SUCCESS →
      out.disk.archive = disk.archive) :=
  ⟨farDelete_failure_keeps_archive tempOk disk fileArgs,
   farAdd_failure_keeps_archive fs tempOk disk fileArgs⟩

/-- C14 at an archive whose count announces one entry that is not there, with the name `"f"`:
farDelete and farAdd return CORRUPTED_ARCH and the archive still holds its four bytes. -/
theorem C14_archive_unchanged_on_failure_witness :
    (farDelete true { archive := some [1, 0, 0, 0], temp := none } [[102]]).code
      = FAR_RTRN.CORRUPTED_ARCH ∧
    (farDelete true { archive := some [1, 0, 0, 0], temp := none } [[102]]).disk.archive
      = some [1, 0, 0, 0] ∧
    (farAdd (oneFileSys [7] 1) true { archive := some [1, 0, 0, 0], temp := none } [[102]]).map
        (fun out => (out.code, out.disk.archive))
      = some (FAR_RTRN.CORRUPTED_ARCH, some [1, 0, 0, 0]) :=
  ⟨by decide,
   (C14_archive_unchanged_on_failure (oneFileSys [7] 1) true
      { archive := some [1, 0, 0, 0], temp := none } [[102]]).1 (by decide),
   by decide⟩

/-- C14 (counterexample): the archive is the file `ARCHIVE.bak`, the name far.c gives its
temporary file, and holds the four bytes of the count 1 and no entry. farDelete with the
selector `"x"` reads the count, empties the file by opening it as the temporary archive, meets
the end of the file where the entry should begin, removes the file and returns CORRUPTED_ARCH:
the archive is gone. -/
theorem C14_archive_named_as_temporary_file_lost :
    farDeleteOnTemp true (some [1, 0, 0, 0]) [[120]] = some (FAR_RTRN.CORRUPTED_ARCH, none) := by
  decide

/-! ## Framing: what the entry loops accept -/

theorem getFileName_sound (bytes : List Byte) (name : CStr) (rest : List Byte)
    (h : getFileName bytes = some (name, rest)) :
    (0 : Byte) ∉ name ∧ bytes = name ++ 0 :: rest := by
  induction bytes generalizing name with
  | nil => simp [getFileName] at h
  | cons c bytes ih =>
    unfold getFileName at h
    by_cases hc : c = 0
    · simp only [hc, if_true, Option.some.injEq, Prod.mk.injEq] at h
      obtain ⟨rfl, rfl⟩ := h
      simp [hc]
    · simp only [hc, if_false] at h
      cases hrec : getFileName bytes with
      | none => simp [hrec] at h
      | some r =>
        obtain ⟨name', rest'⟩ := r
        simp only [hrec, Option.some.injEq, Prod.mk.injEq] at h
        obtain ⟨rfl, rfl⟩ := h
        obtain ⟨h1, h2⟩ := ih name' hrec
        refine ⟨?_, ?_⟩
        · simp only [List.mem_cons, not_or]
          exact ⟨fun h0 => hc h0.symm, h1⟩
        · rw [h2]
          rfl

theorem uint_of_bytes (b0 b1 b2 b3 n : Nat) (h0 : b0 < 256) (h1 : b1 < 256) (h2 : b2 < 256)
    (h3 : b3 < 256) (hn : b0 + 256 * b1 + 65536 * b2 + 16777216 * b3 = n) :
    n < 4294967296 ∧ n % 256 = b0 ∧ n / 256 % 256 = b1 ∧ n / 65536 % 256 = b2 ∧
      n / 16777216 % 256 = b3 := by
  omega

theorem freadUint_sound (bytes : List Byte) (n : Nat) (rest : List Byte)
    (hb : ∀ b ∈ bytes, b < 256) (h : freadUint bytes = some (n, rest)) :
    n < 4294967296 ∧ bytes = fwriteUint n ++ rest := by
  rcases bytes with _ | ⟨b0, _ | ⟨b1, _ | ⟨b2, _ | ⟨b3, r⟩⟩⟩⟩
  · simp [freadUint] at h
  · simp [freadUint] at h
  · simp [freadUint] at h
  · simp [freadUint] at h
  · simp only [freadUint, Option.some.injEq, Prod.mk.injEq] at h
    obtain ⟨hn, hr⟩ := h
    obtain ⟨hlt, e0, e1, e2, e3⟩ := uint_of_bytes b0 b1 b2 b3 n (hb b0 (by simp))
      (hb b1 (by simp)) (hb b2 (by simp)) (hb b3 (by simp)) hn
    subst hr
    refine ⟨hlt, ?_⟩
    simp only [fwriteUint, e0, e1, e2, e3, List.cons_append, List.nil_append]

theorem readBodyLoop_sound (k : Nat) (bytes body rest : List Byte)
    (h : readBodyLoop k bytes = some (body, rest)) :
    body.length = k ∧ bytes = body ++ rest := by
  induction k generalizing bytes body with
  | zero =>
    simp only [readBodyLoop, Option.some.injEq, Prod.mk.injEq] at h
    obtain ⟨rfl, rfl⟩ := h
    simp
  | succ k ih =>
    cases bytes with
    | nil => simp [readBodyLoop] at h
    | cons c bytes =>
      simp only [readBodyLoop] at h
      cases hrec : readBodyLoop k bytes with
      | none => simp [hrec] at h
      | some r =>
        obtain ⟨body', rest'⟩ := r
        simp only [hrec, Option.some.injEq, Prod.mk.injEq] at h
        obtain ⟨rfl, rfl⟩ := h
        obtain ⟨h1, h2⟩ := ih bytes body' hrec
        simp [h1, h2]

theorem readEntries_sound (n : Nat) (bytes : List Byte) (es : List Entry) (rest : List Byte)
    (hb : ∀ b ∈ bytes, b < 256) (h : readEntries n bytes = some (es, rest)) :
    es.length = n ∧ (∀ e ∈ es, e.Valid) ∧ bytes = encodeEntries es ++ rest := by
  induction n generalizing bytes es with
  | zero =>
    simp only [readEntries, Option.some.injEq, Prod.mk.injEq] at h
    obtain ⟨rfl, rfl⟩ := h
    simp [encodeEntries]
  | succ n ih =>
    simp only [readEntries] at h
    cases hname : getFileName bytes with
    | none => simp [hname] at h
    | some r1 =>
      obtain ⟨filename, afterName⟩ := r1
      simp only [hname] at h
      obtain ⟨hn0, hbytes⟩ := getFileName_sound bytes filename afterName hname
      have hb1 : ∀ b ∈ afterName, b < 256 := fun b hmem => hb b (by rw [hbytes]; simp [hmem])
      cases hsize : freadUint afterName with
      | none => simp [hsize] at h
      | some r2 =>
        obtain ⟨fileSize, afterSize⟩ := r2
        simp only [hsize] at h
        obtain ⟨hlt, hafter⟩ := freadUint_sound afterName fileSize afterSize hb1 hsize
        have hb2 : ∀ b ∈ afterSize, b < 256 :=
          fun b hmem => hb1 b (by rw [hafter]; simp [hmem])
        cases hbody : readBodyLoop fileSize afterSize with
        | none => simp [hbody] at h
        | some r3 =>
          obtain ⟨body, rest1⟩ := r3
          simp only [hbody] at h
          obtain ⟨hlen, hsplit⟩ := readBodyLoop_sound fileSize afterSize body rest1 hbody
          have hb3 : ∀ b ∈ rest1, b < 256 :=
            fun b hmem => hb2 b (by rw [hsplit]; simp [hmem])
          cases hrec : readEntries n rest1 with
          | none => simp [hrec] at h
          | some r4 =>
            obtain ⟨es', rest'⟩ := r4
            simp only [hrec, Option.some.injEq, Prod.mk.injEq] at h
            obtain ⟨rfl, rfl⟩ := h
            obtain ⟨i1, i2, i3⟩ := ih rest1 es' hb3 hrec
            refine ⟨by simp [i1], ?_, ?_⟩
            · intro e he
              rcases List.mem_cons.mp he with rfl | he'
              · exact ⟨hn0, hlt, hlen⟩
              · exact i2 e he'
            · rw [hbytes, hafter, hsplit, i3]
              simp [encodeEntries, encodeEntry]

theorem getFileName_mono (p q : List Byte) (name : CStr) (rest : List Byte)
    (h : getFileName p = some (name, rest)) :
    getFileName (p ++ q) = some (name, rest ++ q) := by
  obtain ⟨h0, hp⟩ := getFileName_sound p name rest h
  rw [hp, List.append_assoc, List.cons_append]
  exact getFileName_append name (rest ++ q) h0

theorem freadUint_mono (p q : List Byte) (n : Nat) (rest : List Byte)
    (h : freadUint p = some (n, rest)) :
    freadUint (p ++ q) = some (n, rest ++ q) := by
  rcases p with _ | ⟨b0, _ | ⟨b1, _ | ⟨b2, _ | ⟨b3, r⟩⟩⟩⟩
  · simp [freadUint] at h
  · simp [freadUint] at h
  · simp [freadUint] at h
  · simp [freadUint] at h
  · simp only [freadUint, Option.some.injEq, Prod.mk.injEq] at h
    obtain ⟨hn, hr⟩ := h
    simp [freadUint, hn, hr]

theorem readBodyLoop_mono (k : Nat) (p q body rest : List Byte)
    (h : readBodyLoop k p = some (body, rest)) :
    readBodyLoop k (p ++ q) = some (body, rest ++ q) := by
  obtain ⟨hlen, hp⟩ := readBodyLoop_sound k p body rest h
  rw [hp, List.append_assoc, ← hlen]
  exact readBodyLoop_append body (rest ++ q)

theorem readEntries_mono (n : Nat) (p q : List Byte) (es : List Entry) (rest : List Byte)
    (h : readEntries n p = some (es, rest)) :
    readEntries n (p ++ q) = some (es, rest ++ q) := by
  induction n generalizing p es with
  | zero =>
    simp only [readEntries, Option.some.injEq, Prod.mk.injEq] at h
    obtain ⟨rfl, rfl⟩ := h
    rfl
  | succ n ih =>
    simp only [readEntries] at h ⊢
    cases hname : getFileName p with
    | none => simp [hname] at h
    | some r1 =>
      obtain ⟨filename, afterName⟩ := r1
      simp only [hname] at h
      rw [getFileName_mono p q filename afterName hname]
      simp only
      cases hsize : freadUint afterName with
      | none => simp [hsize] at h
      | some r2 =>
        obtain ⟨fileSize, afterSize⟩ := r2
        simp only [hsize] at h
        rw [freadUint_mono afterName q fileSize afterSize hsize]
        simp only
        cases hbody : readBodyLoop fileSize afterSize with
        | none => simp [hbody] at h
        | some r3 =>
          obtain ⟨body, rest1⟩ := r3
          simp only [hbody] at h
          rw [readBodyLoop_mono fileSize afterSize q body rest1 hbody]
          simp only
          cases hrec : readEntries n rest1 with
          | none => simp [hrec] at h
          | some r4 =>
            obtain ⟨es', rest'⟩ := r4
            simp only [hrec, Option.some.injEq, Prod.mk.injEq] at h
            obtain ⟨rfl, rfl⟩ := h
            rw [ih rest1 es' hrec]

theorem readArchive_mono (p q : List Byte) (es : List Entry) (rest : List Byte)
    (h : readArchive p = some (es, rest)) :
    readArchive (p ++ q) = some (es, rest ++ q) := by
  unfold readArchive at h ⊢
  cases hcount : freadUint p with
  | none => simp [hcount] at h
  | some r =>
    obtain ⟨numFiles, afterCount⟩ := r
    simp only [hcount] at h
    rw [freadUint_mono p q numFiles afterCount hcount]
    exact readEntries_mono numFiles afterCount q es rest h

theorem readArchive_proper_prefix (full bytes : List Byte) (es : List Entry)
    (hwf : WellFormed full es) (hpre : bytes <+: full) (hne : bytes ≠ full) :
    readArchive bytes = none := by
  obtain ⟨q, hq⟩ := hpre
  obtain ⟨hlen, hvalid, hfull⟩ := hwf
  cases hread : readArchive bytes with
  | none => rfl
  | some r =>
    obtain ⟨es', rest⟩ := r
    have h1 := readArchive_mono bytes q es' rest hread
    rw [hq, hfull, readArchive_encode es hvalid hlen] at h1
    simp only [Option.some.injEq, Prod.mk.injEq] at h1
    have hq' : q = [] := (List.append_eq_nil.mp h1.2.symm).2
    rw [hq', List.append_nil] at hq
    exact absurd hq hne

theorem framed_iff_readArchive (bytes : List Byte) (hb : ∀ b ∈ bytes, b < 256) :
    Framed bytes ↔ (readArchive bytes).isSome = true := by
  constructor
  · rintro ⟨es, rest, hlen, hvalid, hbytes⟩
    have h := readArchive_mono (encodeArchive es) rest es []
      (readArchive_encode es hvalid hlen)
    rw [hbytes, h]
    rfl
  · intro h
    unfold readArchive at h
    cases hcount : freadUint bytes with
    | none => simp [hcount] at h
    | some r =>
      obtain ⟨numFiles, afterCount⟩ := r
      simp only [hcount] at h
      obtain ⟨hlt, hbytes⟩ := freadUint_sound bytes numFiles afterCount hb hcount
      have hb1 : ∀ b ∈ afterCount, b < 256 :=
        fun b hmem => hb b (by rw [hbytes]; simp [hmem])
      cases hread : readEntries numFiles afterCount with
      | none => simp [hread] at h
      | some r2 =>
        obtain ⟨es, rest⟩ := r2
        obtain ⟨i1, i2, i3⟩ := readEntries_sound numFiles afterCount es rest hb1 hread
        refine ⟨es, rest, by omega, i2, ?_⟩
        rw [hbytes, i3, encodeArchive, i1, List.append_assoc]

/-! ## C12: the result of farPrint -/

theorem farPrintLoop_fst (n : Nat) (archive : List Byte) (stdout : List (List Byte)) :
    (farPrintLoop n archive stdout).1 = (readEntries n archive).isSome := by
  induction n generalizing archive stdout with
  | zero => rfl
  | succ n ih =>
    simp only [farPrintLoop, readEntries]
    cases hname : getFileName archive with
    | none => rfl
    | some r1 =>
      obtain ⟨filename, afterName⟩ := r1
      simp only
      cases hsize : freadUint afterName with
      | none => rfl
      | some r2 =>
        obtain ⟨fileSize, afterSize⟩ := r2
        simp only
        cases hbody : readBodyLoop fileSize afterSize with
        | none => rfl
        | some r3 =>
          obtain ⟨body, rest⟩ := r3
          simp only
          rw [ih]
          cases readEntries n rest with
          | none => rfl
          | some r4 => rfl

theorem farPrint_code (bytes : List Byte) :
    (farPrint (some bytes)).code
      = if (readArchive bytes).isSome = true then FAR_RTRN.SUCCESS
        else FAR_RTRN.CORRUPTED_ARCH := by
  unfold farPrint readArchive
  simp only
  cases hcount : freadUint bytes with
  | none => simp
  | some r =>
    obtain ⟨numFiles, afterCount⟩ := r
    simp only
    have hfst := farPrintLoop_fst numFiles afterCount []
    cases hloop : farPrintLoop numFiles afterCount [] with
    | mk ok stdout =>
      rw [hloop] at hfst
      simp only at hfst
      rw [← hfst]
      cases ok <;> simp

/-- C12: for every content of an archive that can be opened (every byte below 256), farPrint
returns SUCCESS if and only if the bytes begin with a 4-byte count `n` followed by `n` complete
entries (NUL-terminated name, 4-byte size, `size` body bytes), and returns CORRUPTED_ARCH
otherwise. Every proper prefix of a well-formed archive is reported as corrupted. -/
theorem C12_farPrint_decided_by_framing (bytes : List Byte) (hbytes : ∀ b ∈ bytes, b < 256) :
    ((farPrint (some bytes)).code = FAR_RTRN.SUCCESS ↔ Framed bytes) ∧
    (¬ Framed bytes → (farPrint (some bytes)).code = FAR_RTRN.CORRUPTED_ARCH) ∧
    (∀ full es, WellFormed full es → bytes <+: full → bytes ≠ full →
      (farPrint (some bytes)).code = FAR_RTRN.CORRUPTED_ARCH) := by
  have hframed := framed_iff_readArchive bytes hbytes
  have hcode := farPrint_code bytes
  refine ⟨?_, ?_, ?_⟩
  · rw [hframed, hcode]
    by_cases h : (readArchive bytes).isSome = true
    · simp [h]
    · simp [h]
  · intro hnot
    rw [hframed] at hnot
    rw [hcode, if_neg hnot]
  · intro full es hwf hpre hne
    rw [hcode, readArchive_proper_prefix full bytes es hwf hpre hne]
    rfl

/-- C12 at the archive holding `x.txt` and `y.txt`: farPrint returns SUCCESS on it and
CORRUPTED_ARCH on its first 12 bytes, which end inside the body of `x.txt`. -/
theorem C12_farPrint_decided_by_framing_witness :
    ((farPrint (some (encodeArchive exampleEntries))).code = FAR_RTRN.SUCCESS ↔
      Framed (encodeArchive exampleEntries)) ∧
    (farPrint (some ((encodeArchive exampleEntries).take 12))).code
      = FAR_RTRN.CORRUPTED_ARCH :=
  ⟨(C12_farPrint_decided_by_framing (encodeArchive exampleEntries) (by decide)).1,
   (C12_farPrint_decided_by_framing ((encodeArchive exampleEntries).take 12)
      (by decide)).2.2 (encodeArchive exampleEntries) exampleEntries (by decide)
      (by decide) (by decide)⟩

/-! ## C13: farDelete and farAdd on a truncated archive -/

theorem copyBodyLoop_readBodyLoop (shouldCopy : Bool) (k : Nat) (oldArchive temp : List Byte) :
    (copyBodyLoop shouldCopy k oldArchive temp).map Prod.fst
      = (readBodyLoop k oldArchive).map Prod.snd := by
  induction k generalizing oldArchive temp with
  | zero => rfl
  | succ k ih =>
    cases oldArchive with
    | nil => rfl
    | cons c oldArchive =>
      simp only [copyBodyLoop, readBodyLoop]
      rw [ih]
      cases readBodyLoop k oldArchive with
      | none => rfl
      | some r => rfl

theorem farDeleteLoop_isSome (fileArgs slashedFileArgs : List CStr) (numFileArgs n : Nat)
    (st : DeleteState) :
    (farDeleteLoop fileArgs slashedFileArgs numFileArgs n st).isSome
      = (readEntries n st.oldArchive).isSome := by
  induction n generalizing st with
  | zero => rfl
  | succ n ih =>
    simp only [farDeleteLoop, readEntries]
    cases hname : getFileName st.oldArchive with
    | none => rfl
    | some r1 =>
      obtain ⟨filename, afterName⟩ := r1
      simp only
      cases hsize : freadUint afterName with
      | none => rfl
      | some r2 =>
        obtain ⟨fileSize, afterSize⟩ := r2
        simp only
        have hrel := fun sc temp => copyBodyLoop_readBodyLoop sc fileSize afterSize temp
        cases hbody : readBodyLoop fileSize afterSize with
        | none =>
          simp only [hbody, Option.map_none', Option.map_eq_none'] at hrel
          simp only [hrel]
          rfl
        | some r3 =>
          obtain ⟨body, rest⟩ := r3
          simp only [hbody, Option.map_some'] at hrel
          split
          · rename_i hcopy
            have h2 := congrArg (Option.map Prod.fst) hcopy
            rw [hrel] at h2
            simp at h2
          · rename_i oldArchive tempArchive hcopy
            have h2 := congrArg (Option.map Prod.fst) hcopy
            rw [hrel] at h2
            simp only [Option.map_some', Option.some.injEq] at h2
            subst h2
            rw [ih]
            simp only
            cases readEntries n rest with
            | none => rfl
            | some r4 => rfl

theorem farAddCopyLoop_isSome (validArgs : List CStr) (n : Nat) (st : AddState) :
    (farAddCopyLoop validArgs n st).isSome = (readEntries n st.oldArchive).isSome := by
  induction n generalizing st with
  | zero => rfl
  | succ n ih =>
    simp only [farAddCopyLoop, readEntries]
    cases hname : getFileName st.oldArchive with
    | none => rfl
    | some r1 =>
      obtain ⟨filename, afterName⟩ := r1
      simp only
      cases hsize : freadUint afterName with
      | none => rfl
      | some r2 =>
        obtain ⟨fileSize, afterSize⟩ := r2
        simp only
        have hrel := fun sc temp => copyBodyLoop_readBodyLoop sc fileSize afterSize temp
        cases hbody : readBodyLoop fileSize afterSize with
        | none =>
          simp only [hbody, Option.map_none', Option.map_eq_none'] at hrel
          simp only [hrel]
          rfl
        | some r3 =>
          obtain ⟨body, rest⟩ := r3
          simp only [hbody, Option.map_some'] at hrel
          split
          · rename_i hcopy
            have h2 := congrArg (Option.map Prod.fst) hcopy
            rw [hrel] at h2
            simp at h2
          · rename_i oldArchive tempArchive hcopy
            have h2 := congrArg (Option.map Prod.fst) hcopy
            rw [hrel] at h2
            simp only [Option.map_some', Option.some.injEq] at h2
            subst h2
            rw [ih]
            simp only
            cases readEntries n rest with
            | none => rfl
            | some r4 => rfl

theorem farDelete_unframed (bytes : List Byte) (temp : Option (List Byte))
    (fileArgs : List CStr) (hargs : fileArgs ≠ []) (h : readArchive bytes = none) :
    (farDelete true { archive := some bytes, temp := temp } fileArgs).code
      = FAR_RTRN.CORRUPTED_ARCH := by
  have hlen : fileArgs.length ≠ 0 := fun h0 => hargs (List.length_eq_zero.mp h0)
  unfold farDelete
  simp only [hlen, if_false]
  unfold readArchive at h
  cases hcount : freadUint bytes with
  | none => simp
  | some r =>
    obtain ⟨n, after⟩ := r
    simp only [hcount] at h
    have hsome := farDeleteLoop_isSome fileArgs (fileArgs.map ensureSingleSlash)
      fileArgs.length n
      { oldArchive := after, tempArchive := fwriteUint 0, newNumFiles := 0, usedArgs := [] }
    simp only [h, Option.isSome_none] at hsome
    cases hloop : farDeleteLoop fileArgs (fileArgs.map ensureSingleSlash) fileArgs.length n
        { oldArchive := after, tempArchive := fwriteUint 0, newNumFiles := 0,
          usedArgs := [] } with
    | none => simp [hloop]
    | some st =>
      rw [hloop] at hsome
      simp at hsome

theorem farAdd_unframed (fs : FileSys) (bytes : List Byte) (temp : Option (List Byte))
    (fileArgs : List CStr) (hargs : fileArgs ≠ []) (h : readArchive bytes = none) :
    (farAdd fs true { archive := some bytes, temp := temp } fileArgs).map (fun out => out.code)
      = some FAR_RTRN.CORRUPTED_ARCH := by
  have hlen : fileArgs.length ≠ 0 := fun h0 => hargs (List.length_eq_zero.mp h0)
  unfold farAdd
  simp only [hlen, if_false]
  unfold readArchive at h
  cases hcount : freadUint bytes with
  | none => simp
  | some r =>
    obtain ⟨n, after⟩ := r
    simp only [hcount] at h
    have hsome := farAddCopyLoop_isSome (fileListNew fs fileArgs).names n
      { oldArchive := after, tempArchive := fwriteUint 0, newNumFiles := 0,
        stderr := (fileListNew fs fileArgs).stderr }
    simp only [h, Option.isSome_none] at hsome
    cases hloop : farAddCopyLoop (fileListNew fs fileArgs).names n
        { oldArchive := after, tempArchive := fwriteUint 0, newNumFiles := 0,
          stderr := (fileListNew fs fileArgs).stderr } with
    | none => simp [hloop]
    | some st =>
      rw [hloop] at hsome
      simp at hsome

theorem truncatedInBody_proper_prefix (pre : List Entry) (e : Entry) (post : List Entry)
    (k : Nat) (hk : k < e.body.length) :
    truncatedInBody pre e post k <+: encodeArchive (pre ++ e :: post) ∧
    truncatedInBody pre e post k ≠ encodeArchive (pre ++ e :: post) := by
  have hfull : encodeArchive (pre ++ e :: post)
      = truncatedInBody pre e post k ++ (e.body.drop k ++ encodeEntries post) := by
    unfold encodeArchive truncatedInBody
    rw [encodeEntries_append]
    simp only [encodeEntries, encodeEntry, List.append_assoc, List.append_cancel_left_eq]
    rw [← List.append_assoc (e.body.take k), List.take_append_drop]
  refine ⟨⟨_, hfull.symm⟩, ?_⟩
  intro heq
  rw [hfull] at heq
  have hnil : e.body.drop k ++ encodeEntries post = [] := by
    simpa using heq
  have hdrop : e.body.drop k = [] := (List.append_eq_nil.mp hnil).1
  have hlen := congrArg List.length hdrop
  rw [List.length_drop] at hlen
  simp only [List.length_nil] at hlen
  omega

/-- C13 (as amended): the temporary file being creatable, for every well-formed archive cut
inside the body of one of its entries (after fewer than `size` bytes of that body) and for
every non-empty list of names, farDelete and farAdd both return CORRUPTED_ARCH. -/
theorem C13_truncated_archive_corrupted (fs : FileSys) (temp : Option (List Byte))
    (fileArgs : List CStr) (pre : List Entry) (e : Entry) (post : List Entry) (k : Nat)
    (hlen : (pre ++ e :: post).length < 4294967296)
    (hvalid : ∀ x ∈ pre ++ e :: post, x.Valid)
    (hk : k < e.size) (hargs : fileArgs ≠ []) :
    (farDelete true { archive := some (truncatedInBody pre e post k), temp := temp }
        fileArgs).code = FAR_RTRN.CORRUPTED_ARCH ∧
    (farAdd fs true { archive := some (truncatedInBody pre e post k), temp := temp }
        fileArgs).map (fun out => out.code) = some FAR_RTRN.CORRUPTED_ARCH := by
  have hbody : e.body.length = e.size := (hvalid e (by simp)).2.2
  obtain ⟨hpre, hne⟩ := truncatedInBody_proper_prefix pre e post k (by omega)
  have hread := readArchive_proper_prefix (encodeArchive (pre ++ e :: post))
    (truncatedInBody pre e post k) (pre ++ e :: post) ⟨hlen, hvalid, rfl⟩ hpre hne
  exact ⟨farDelete_unframed _ temp fileArgs hargs hread,
    farAdd_unframed fs _ temp fileArgs hargs hread⟩

/-- C13 at the archive holding `x.txt` and `y.txt`, cut after two of the five body bytes of
`x.txt`, with the name `"f"`. -/
theorem C13_truncated_archive_corrupted_witness :
    (farDelete true
        { archive := some (truncatedInBody []
            { name := [120, 46, 116, 120, 116], size := 5, body := [104, 101, 108, 108, 111] }
            [{ name := [121, 46, 116, 120, 116], size := 3, body := [98, 121, 101] }] 2),
          temp := none }
        [[102]]).code = FAR_RTRN.CORRUPTED_ARCH ∧
    (farAdd (oneFileSys [7] 1) true
        { archive := some (truncatedInBody []
            { name := [120, 46, 116, 120, 116], size := 5, body := [104, 101, 108, 108, 111] }
            [{ name := [121, 46, 116, 120, 116], size := 3, body := [98, 121, 101] }] 2),
          temp := none }
        [[102]]).map (fun out => out.code) = some FAR_RTRN.CORRUPTED_ARCH :=
  C13_truncated_archive_corrupted (oneFileSys [7] 1) none [[102]] []
    { name := [120, 46, 116, 120, 116], size := 5, body := [104, 101, 108, 108, 111] }
    [{ name := [121, 46, 116, 120, 116], size := 3, body := [98, 121, 101] }] 2
    (by decide) (by decide) (by decide) (by decide)

/-- C13 (counterexample): the archive holding `x.txt` and `y.txt` is cut after two of the five
body bytes of `x.txt`. With the empty list of names farDelete and farAdd return SUCCESS: they
return before they open the archive. -/
theorem C13_empty_list_on_truncated_archive :
    (farDelete true
        { archive := some (truncatedInBody []
            { name := [120, 46, 116, 120, 116], size := 5, body := [104, 101, 108, 108, 111] }
            [{ name := [121, 46, 116, 120, 116], size := 3, body := [98, 121, 101] }] 2),
          temp := none }
        []).code = FAR_RTRN.SUCCESS ∧
    (farAdd (oneFileSys [7] 1) true
        { archive := some (truncatedInBody []
            { name := [120, 46, 116, 120, 116], size := 5, body := [104, 101, 108, 108, 111] }
            [{ name := [121, 46, 116, 120, 116], size := 3, body := [98, 121, 101] }] 2),
          temp := none }
        []).map (fun out => out.code) = some FAR_RTRN.SUCCESS := by
  decide

/-! ## C20: the listing of farPrint -/

theorem farPrintLoop_encode (es : List Entry) (hvalid : ∀ e ∈ es, e.Valid) (rest : List Byte)
    (stdout : List (List Byte)) :
    farPrintLoop es.length (encodeEntries es ++ rest) stdout
      = (true, stdout ++ es.map (fun e => printfLine e.size e.name)) := by
  induction es generalizing stdout with
  | nil => simp [farPrintLoop]
  | cons e es ih =>
    obtain ⟨hname, hsize, hbody⟩ := hvalid e (by simp)
    have hes : ∀ x ∈ es, x.Valid := fun x hx => hvalid x (by simp [hx])
    rw [encodeEntries_cons_append]
    simp only [List.length_cons, farPrintLoop]
    rw [getFileName_append _ _ hname]
    simp only
    rw [freadUint_fwriteUint _ _ hsize]
    simp only
    rw [← hbody, readBodyLoop_append]
    simp only
    rw [ih hes]
    simp [hbody]

theorem farPrint_wellFormed (bytes : List Byte) (es : List Entry) (hwf : WellFormed bytes es) :
    farPrint (some bytes)
      = { code := FAR_RTRN.SUCCESS, stdout := es.map (fun e => printfLine e.size e.name),
          stderr := [] } := by
  unfold farPrint
  simp only [freadUint_wellFormed bytes es hwf]
  have h := farPrintLoop_encode es hwf.2.1 [] []
  rw [List.append_nil] at h
  rw [h]
  simp

theorem printfLine_eq_expectedLine (e : Entry) (h : e.size < 2147483648) :
    printfLine e.size e.name = expectedLine e := by
  have hmod : e.size % 4294967296 = e.size := Nat.mod_eq_of_lt (by omega)
  have hnot : ¬ ((e.size : Int) < 0) := by omega
  unfold printfLine expectedLine printfD8 printfD asInt
  rw [hmod]
  simp only [h, if_true, hnot, if_false, Int.natAbs_ofNat]

theorem farPrint_listing (bytes : List Byte) (es : List Entry) (hwf : WellFormed bytes es)
    (hsizes : ∀ e ∈ es, e.size < 2147483648) :
    (farPrint (some bytes)).stdout = es.map expectedLine := by
  rw [farPrint_wellFormed bytes es hwf]
  simp only
  apply List.map_congr_left
  intro e he
  exact printfLine_eq_expectedLine e (hsizes e he)

/-- C20 (the code departs from the claim): the well-formed archive holds the single entry `"f"`
of size 2^31 (a body of 2^31 bytes). farPrint returns SUCCESS and writes the one line
`-2147483648 f`, whereas the decimal value of the size right-aligned in a field of width 8, one
space and the name make the line `2147483648 f`: `printf` is given the `unsigned int` size for
the conversion `%8d`, which prints it as a signed `int`. -/
theorem C20_size_printed_as_signed :
    WellFormed
      (encodeArchive
        [{ name := [102], size := 2147483648, body := List.replicate 2147483648 0 }])
      [{ name := [102], size := 2147483648, body := List.replicate 2147483648 0 }] ∧
    farPrint (some (encodeArchive
        [{ name := [102], size := 2147483648, body := List.replicate 2147483648 0 }]))
      = { code := FAR_RTRN.SUCCESS,
          stdout := [[45, 50, 49, 52, 55, 52, 56, 51, 54, 52, 56, 32, 102, 10]],
          stderr := [] } ∧
    expectedLine { name := [102], size := 2147483648, body := List.replicate 2147483648 0 }
      = [50, 49, 52, 55, 52, 56, 51, 54, 52, 56, 32, 102, 10] := by
  have hgen : ∀ body : List Byte, body.length = 2147483648 →
      WellFormed (encodeArchive [{ name := [102], size := 2147483648, body := body }])
        [{ name := [102], size := 2147483648, body := body }] ∧
      farPrint (some (encodeArchive [{ name := [102], size := 2147483648, body := body }]))
        = { code := FAR_RTRN.SUCCESS,
            stdout := [[45, 50, 49, 52, 55, 52, 56, 51, 54, 52, 56, 32, 102, 10]],
            stderr := [] } ∧
      expectedLine { name := [102], size := 2147483648, body := body }
        = [50, 49, 52, 55, 52, 56, 51, 54, 52, 56, 32, 102, 10] := by
    intro body hlen
    have hline : printfLine 2147483648 [102]
        = [45, 50, 49, 52, 55, 52, 56, 51, 54, 52, 56, 32, 102, 10] := by decide
    have hwf : WellFormed
        (encodeArchive [{ name := [102], size := 2147483648, body := body }])
        [{ name := [102], size := 2147483648, body := body }] := by
      refine ⟨by simp, ?_, rfl⟩
      intro e he
      rw [List.mem_singleton] at he
      subst he
      show (0 : Byte) ∉ [102] ∧ 2147483648 < 4294967296 ∧ body.length = 2147483648
      exact ⟨by decide, by decide, hlen⟩
    refine ⟨hwf, ?_, ?_⟩
    · rw [farPrint_wellFormed _ _ hwf]
      simp only [List.map_cons, List.map_nil, hline]
    · unfold expectedLine
      simp only
      decide
  exact hgen (List.replicate 2147483648 0) (List.length_replicate _ _)

/-! ## main.c: the command main calls -/

theorem main_filenames {σ : Type} (fs : FileSys) (tempOk : Bool) (disk : Disk)
    (fsx : ExtractFS σ) (world : σ) (argv : List CStr) (hargc : ¬ argv.length < 3) :
    main fs tempOk disk fsx world argv
      = if argv.getD 1 [] = keyR then
          (farAdd fs tempOk disk (filenamesOf argv)).map (fun out => out.code.toInt)
        else if argv.getD 1 [] = keyX then
          some (farExtract fsx disk.archive world (filenamesOf argv)).code.toInt
        else if argv.getD 1 [] = keyD then
          some (farDelete tempOk disk (filenamesOf argv)).code.toInt
        else if argv.getD 1 [] = keyT then
          some (farPrint disk.archive).code.toInt
        else some 4 := by
  unfold main filenamesOf
  simp only [hargc, if_false]
  by_cases h3 : argv.length > 3
  · simp only [h3, if_true]
  · simp only [h3, if_false]

theorem main_dispatch {σ : Type} (fs : FileSys) (tempOk : Bool) (disk : Disk)
    (fsx : ExtractFS σ) (world : σ) (argv : List CStr) (h : 3 ≤ argv.length) :
    (argv.getD 1 [] = keyR →
      main fs tempOk disk fsx world argv
        = (farAdd fs tempOk disk (filenamesOf argv)).map (fun out => out.code.toInt)) ∧
    (argv.getD 1 [] = keyX →
      main fs tempOk disk fsx world argv
        = some (farExtract fsx disk.archive world (filenamesOf argv)).code.toInt) ∧
    (argv.getD 1 [] = keyD →
      main fs tempOk disk fsx world argv
        = some (farDelete tempOk disk (filenamesOf argv)).code.toInt) ∧
    (argv.getD 1 [] = keyT →
      main fs tempOk disk fsx world argv = some (farPrint disk.archive).code.toInt) ∧
    (argv.getD 1 [] ∉ [keyR, keyX, keyD, keyT] →
      main fs tempOk disk fsx world argv = some 4) := by
  refine ⟨?_, ?_, ?_, ?_, ?_⟩
  · intro hkey
    rw [main_filenames fs tempOk disk fsx world argv (by omega), if_pos hkey]
  · intro hkey
    have h1 : argv.getD 1 [] ≠ keyR := by rw [hkey]; decide
    rw [main_filenames fs tempOk disk fsx world argv (by omega), if_neg h1, if_pos hkey]
  · intro hkey
    have h1 : argv.getD 1 [] ≠ keyR := by rw [hkey]; decide
    have h2 : argv.getD 1 [] ≠ keyX := by rw [hkey]; decide
    rw [main_filenames fs tempOk disk fsx world argv (by omega), if_neg h1, if_neg h2,
      if_pos hkey]
  · intro hkey
    have h1 : argv.getD 1 [] ≠ keyR := by rw [hkey]; decide
    have h2 : argv.getD 1 [] ≠ keyX := by rw [hkey]; decide
    have h3 : argv.getD 1 [] ≠ keyD := by rw [hkey]; decide
    rw [main_filenames fs tempOk disk fsx world argv (by omega), if_neg h1, if_neg h2,
      if_neg h3, if_pos hkey]
  · intro hkey
    simp only [List.mem_cons, List.mem_singleton, not_or, List.not_mem_nil, or_false] at hkey
    obtain ⟨h1, h2, h3, h4⟩ := hkey
    rw [main_filenames fs tempOk disk fsx world argv (by omega), if_neg h1, if_neg h2,
      if_neg h3, if_neg h4]

/-! ## C17: extractFile when the destination cannot be opened -/

theorem extractFileLoop_fopen_fails {σ : Type} (fsx : ExtractFS σ)
    (hfail : ∀ w n, (fsx.fopen w n).1 = false) (filename : CStr) (fileSize : Nat)
    (fuel currentLen : Nat) (st : ExtractState σ) :
    (extractFileLoop fsx filename fileSize fuel currentLen st).1 = 0 ∧
    (extractFileLoop fsx filename fileSize fuel currentLen st).2.archive = st.archive := by
  induction fuel generalizing currentLen st with
  | zero => simp [extractFileLoop]
  | succ fuel ih =>
    unfold extractFileLoop
    by_cases hlt : currentLen < filename.length
    · simp only [hlt, if_true, hfail]
      split
      · obtain ⟨h1, h2⟩ := ih (currentLen + strcspnSlash (filename.drop currentLen) + 1)
          (ensureDirExists fsx
            (filename.take (currentLen + strcspnSlash (filename.drop currentLen) + 1)) st)
        exact ⟨h1, h2.trans (ensureDirExists_frame fsx _ st).1⟩
      · exact ih _ _
    · simp [hlt]

/-- C17 (the code departs from the claim): when no destination file can be opened for writing,
extractFile returns 0 and leaves the archive position where it was, for every entry name and
every size: the body bytes are not skipped. -/
theorem C17_body_not_skipped {σ : Type} (fsx : ExtractFS σ)
    (hfail : ∀ w n, (fsx.fopen w n).1 = false) (filename : CStr) (fileSize : Nat)
    (st : ExtractState σ) :
    (extractFile fsx filename fileSize st).1 = 0 ∧
    (extractFile fsx filename fileSize st).2.archive = st.archive :=
  extractFileLoop_fopen_fails fsx hfail filename fileSize (filename.length + 2) 0 st

/-- C17 at the entry `"f"` of size 1, with the archive positioned at its body byte `A`:
extractFile prints the diagnostic and returns 0 with the archive position unchanged, whereas it
advances by one byte when the file can be written. On the archive holding `("f", 1, "A")` and
`("g", 1, "B")`, farExtract therefore decodes the second entry as `"Ag"`, whereas it decodes
`"f"` and `"g"` when the files can be written. -/
theorem C17_body_not_skipped_witness :
    ((extractFile refusingFS [102] 1
        { archive := [65, 103, 0, 1, 0, 0, 0, 66], world := [], stderr := [],
          usedArgs := [] }).1 = 0 ∧
      (extractFile refusingFS [102] 1
        { archive := [65, 103, 0, 1, 0, 0, 0, 66], world := [], stderr := [],
          usedArgs := [] }).2.archive = [65, 103, 0, 1, 0, 0, 0, 66]) ∧
    (extractFile refusingFS [102] 1
        { archive := [65, 103, 0, 1, 0, 0, 0, 66], world := [], stderr := [],
          usedArgs := [] }).2.stderr = [Diag.fileOpenError [102]] ∧
    (extractFile permissiveFS [102] 1
        { archive := [65, 103, 0, 1, 0, 0, 0, 66], world := [], stderr := [],
          usedArgs := [] }).2.archive = [103, 0, 1, 0, 0, 0, 66] ∧
    WellFormed
      (encodeArchive [{ name := [102], size := 1, body := [65] },
                      { name := [103], size := 1, body := [66] }])
      [{ name := [102], size := 1, body := [65] }, { name := [103], size := 1, body := [66] }] ∧
    (farExtract refusingFS
        (some (encodeArchive [{ name := [102], size := 1, body := [65] },
                              { name := [103], size := 1, body := [66] }])) [] []).stderr
      = [Diag.fileOpenError [102], Diag.fileOpenError [65, 103]] ∧
    (farExtract permissiveFS
        (some (encodeArchive [{ name := [102], size := 1, body := [65] },
                              { name := [103], size := 1, body := [66] }])) [] []).world
      = [([103], [66]), ([102], [65])] :=
  ⟨C17_body_not_skipped refusingFS (fun _ _ => rfl) [102] 1
      { archive := [65, 103, 0, 1, 0, 0, 0, 66], world := [], stderr := [], usedArgs := [] },
   by decide, by decide, by decide, by decide, by decide⟩

/-! ## C16: what farExtract writes -/

/-- C29: called with no name, farDelete and farAdd return SUCCESS at once, whatever the archive
file is (absent, corrupted or well-formed), whether or not the temporary file could be created
and whatever the archive is named: the archive and the temporary file are left as they were and
nothing is printed. The last part is the case in which the archive has the name of the
temporary file. -/
theorem C29_empty_name_list_is_a_no_op (fs : FileSys) (tempOk : Bool) (disk : Disk)
    (file : Option (List Byte)) :
    farDelete tempOk disk [] = { code := FAR_RTRN.SUCCESS, disk := disk, stderr := [] } ∧
    farAdd fs tempOk disk [] = some { code := FAR_RTRN.SUCCESS, disk := disk, stderr := [] } ∧
    farDeleteOnTemp tempOk file [] = some (FAR_RTRN.SUCCESS, file) :=
  ⟨rfl, rfl, rfl⟩

/-- C29 at an absent archive, at a corrupted archive (an empty file beside a left-over
temporary file) and at the well-formed example archive. -/
theorem C29_empty_name_list_is_a_no_op_witness :
    (farDelete false { archive := none, temp := none } []).disk
      = { archive := none, temp := none } ∧
    (farAdd unreadableFileSys true { archive := some [], temp := some [1] } []).map
        (fun out => (out.code, out.disk))
      = some (FAR_RTRN.SUCCESS, { archive := some [], temp := some [1] }) ∧
    (farDelete true { archive := some (encodeArchive exampleEntries), temp := none } []).disk
      = { archive := some (encodeArchive exampleEntries), temp := none } :=
  ⟨congrArg Outcome.disk
      (C29_empty_name_list_is_a_no_op unreadableFileSys false
        { archive := none, temp := none } none).1,
   congrArg (Option.map (fun out => (out.code, out.disk)))
      (C29_empty_name_list_is_a_no_op unreadableFileSys true
        { archive := some [], temp := some [1] } none).2.1,
   congrArg Outcome.disk
      (C29_empty_name_list_is_a_no_op unreadableFileSys true
        { archive := some (encodeArchive exampleEntries), temp := none } none).1⟩

/-! ## C24 and C30: the names main hands on -/

theorem stripTrailingSlashesLoop_eq (name : CStr) (i slashlessSize : Nat) :
    stripTrailingSlashesLoop name i slashlessSize = ensureSingleSlashLoop name i slashlessSize := by
  induction i generalizing slashlessSize with
  | zero => rfl
  | succ i ih =>
    unfold stripTrailingSlashesLoop ensureSingleSlashLoop
    by_cases hs : name.getD i 0 = slash
    · simp only [hs, if_true]
      exact ih _
    · simp only [hs, if_false]

theorem stripTrailingSlashesName_eq (s : CStr) : stripTrailingSlashesName s = strippedName s := by
  have hpre : withoutTrailingSlashes s <+: s := List.rdropWhile_prefix _ _
  have hle : (withoutTrailingSlashes s).length ≤ s.length := hpre.length_le
  unfold stripTrailingSlashesName strippedName
  simp only
  rw [stripTrailingSlashesLoop_eq, ensureSingleSlashLoop_eq s s.length (s.length + 1)
    (Nat.le_refl _), List.take_length]
  by_cases hnil : withoutTrailingSlashes s = []
  · have h0 : (withoutTrailingSlashes s).length = 0 := by rw [hnil]; rfl
    have h1 : s.length + 1 - (s.length - (withoutTrailingSlashes s).length) = 1 := by omega
    rw [if_pos h1, if_pos hnil]
  · have hpos : 0 < (withoutTrailingSlashes s).length := List.length_pos.mpr hnil
    have h1 : ¬ s.length + 1 - (s.length - (withoutTrailingSlashes s).length) = 1 := by omega
    have h2 : s.length + 1 - (s.length - (withoutTrailingSlashes s).length) - 1
        = (withoutTrailingSlashes s).length := by omega
    rw [if_neg h1, if_neg hnil, h2, ← List.prefix_iff_eq_take.mp hpre]

/-- C24 (as amended): for every array of names, each output string of stripTrailingSlashes is
the corresponding input with its trailing `'/'` characters removed, unless nothing is left (the
input is empty or made of `'/'` only): the output is then `"/"`. -/
theorem C24_stripTrailingSlashes_keeps_root (names : List CStr) (numNames : Nat) :
    stripTrailingSlashes names numNames = (names.take numNames).map strippedName ∧
    (∀ s, withoutTrailingSlashes s ≠ [] → strippedName s = withoutTrailingSlashes s) ∧
    (∀ s, withoutTrailingSlashes s = [] → strippedName s = [slash]) := by
  refine ⟨?_, ?_, ?_⟩
  · unfold stripTrailingSlashes
    apply List.map_congr_left
    intro s _
    exact stripTrailingSlashesName_eq s
  · intro s h
    unfold strippedName
    rw [if_neg h]
  · intro s h
    unfold strippedName
    rw [if_pos h]

/-- C24 at the names `"a/b//"`, `"c"`, `"//"` and the empty name. -/
theorem C24_stripTrailingSlashes_keeps_root_witness :
    stripTrailingSlashes [[97, 47, 98, 47, 47], [99], [47, 47], []] 4
      = [[97, 47, 98], [99], [47], [47]] :=
  (C24_stripTrailingSlashes_keeps_root [[97, 47, 98, 47, 47], [99], [47, 47], []] 4).1.trans
    (by decide)

/-- C24 (counterexample): for the names `"//"` and `""` stripTrailingSlashes gives `"/"` and
`"/"`, whereas the names with their trailing `'/'` characters removed are both empty. -/
theorem C24_only_slashes_gives_root :
    stripTrailingSlashes [[47, 47], []] 2 = [[47], [47]] ∧
    withoutTrailingSlashes [47, 47] = [] ∧
    withoutTrailingSlashes [] = [] := by
  decide

theorem withoutTrailingSlashes_idem (s : CStr) :
    withoutTrailingSlashes (withoutTrailingSlashes s) = withoutTrailingSlashes s := by
  unfold withoutTrailingSlashes
  rw [List.rdropWhile_eq_self_iff]
  intro hl
  exact List.rdropWhile_last_not _ s hl

theorem ensureSingleSlash_strippedName (s : CStr) :
    ensureSingleSlash (strippedName s) = ensureSingleSlash s := by
  rw [ensureSingleSlash_eq, ensureSingleSlash_eq]
  unfold strippedName
  by_cases hnil : withoutTrailingSlashes s = []
  · rw [if_pos hnil, hnil]
    rfl
  · rw [if_neg hnil, withoutTrailingSlashes_idem]

/-- C30: for every string `s`, ensureSingleSlash gives the same result on `s` and on the name
stripTrailingSlashes makes of `s`, so that the directory-prefix form of a selector does not
depend on the trailing slashes it was typed with; when `s` is empty or made of `'/'` only, both
results are `"/"`. The same holds for the whole array of names. -/
theorem C30_normalisations_agree (s : CStr) (names : List CStr) (numNames : Nat) :
    ensureSingleSlash (stripTrailingSlashesName s) = ensureSingleSlash s ∧
    (withoutTrailingSlashes s = [] →
      ensureSingleSlash (stripTrailingSlashesName s) = [slash] ∧ ensureSingleSlash s = [slash]) ∧
    (stripTrailingSlashes names numNames).map ensureSingleSlash
      = (names.take numNames).map ensureSingleSlash := by
  have hone : ∀ t, ensureSingleSlash (stripTrailingSlashesName t) = ensureSingleSlash t :=
    fun t => by rw [stripTrailingSlashesName_eq, ensureSingleSlash_strippedName]
  refine ⟨hone s, ?_, ?_⟩
  · intro hnil
    have h : ensureSingleSlash s = [slash] := by
      rw [ensureSingleSlash_eq, hnil]
      rfl
    exact ⟨(hone s).trans h, h⟩
  · unfold stripTrailingSlashes
    rw [List.map_map]
    apply List.map_congr_left
    intro t _
    exact hone t

/-- C30 at the selectors `"d///"`, `"///"` and `""`. -/
theorem C30_normalisations_agree_witness :
    ensureSingleSlash (stripTrailingSlashesName [100, 47, 47, 47]) = [100, 47] ∧
    ensureSingleSlash [100, 47, 47, 47] = [100, 47] ∧
    ensureSingleSlash (stripTrailingSlashesName [47, 47, 47]) = [slash] ∧
    ensureSingleSlash (stripTrailingSlashesName []) = [slash] :=
  ⟨(C30_normalisations_agree [100, 47, 47, 47] [] 0).1.trans (by decide),
   by decide,
   ((C30_normalisations_agree [47, 47, 47] [] 0).2.1 (by decide)).1,
   ((C30_normalisations_agree [] [] 0).2.1 (by decide)).1⟩

/-! ## C23: isDirectoryMatch is a prefix test -/

theorem isDirectoryMatchFrom_eq_findIdx (filename : CStr) (l : List CStr) (k : Nat) :
    isDirectoryMatchFrom filename l k
      = match l.findIdx? (fun d => d.isPrefixOf filename) k with
        | some i => (i : Int)
        | none => -1 := by
  induction l generalizing k with
  | nil => rfl
  | cons d rest ih =>
    unfold isDirectoryMatchFrom
    rw [List.findIdx?_cons]
    by_cases hd : d <+: filename
    · have h1 : strstr filename d = some 0 := (strstr_zero_iff _ _).mpr hd
      have h2 : d.isPrefixOf filename = true := List.isPrefixOf_iff_prefix.mpr hd
      simp only [h1, if_true, h2]
    · have h1 : ¬ strstr filename d = some 0 := fun h => hd ((strstr_zero_iff _ _).mp h)
      have h2 : ¬ d.isPrefixOf filename = true := fun h => hd (List.isPrefixOf_iff_prefix.mp h)
      simp only [h1, if_false, h2]
      exact ih (k + 1)

/-- C23: for every filename and every array of dirnames, isDirectoryMatch returns the least
index `i` such that `dirnames[i]` is a prefix of `filename`, and -1 when no element is a
prefix. An element that `strstr` finds only at a later position of `filename` is not the
index returned. -/
theorem C23_isDirectoryMatch_is_prefix_test (filename : CStr) (dirnames : List CStr) :
    isDirectoryMatch filename dirnames dirnames.length = firstPrefixIndex filename dirnames ∧
    (∀ (i : Nat) (d : CStr), dirnames[i]? = some d → d <+: filename →
      (∀ (j : Nat) (t : CStr), j < i → dirnames[j]? = some t → ¬ t <+: filename) →
      isDirectoryMatch filename dirnames dirnames.length = (i : Int)) ∧
    ((∀ d ∈ dirnames, ¬ d <+: filename) →
      isDirectoryMatch filename dirnames dirnames.length = -1) ∧
    (∀ (i : Nat) (d : CStr) (k : Nat), dirnames[i]? = some d →
      strstr filename d = some (k + 1) →
      isDirectoryMatch filename dirnames dirnames.length ≠ (i : Int)) := by
  refine ⟨?_, ?_, ?_, ?_⟩
  · unfold isDirectoryMatch firstPrefixIndex
    rw [List.take_length]
    exact isDirectoryMatchFrom_eq_findIdx filename dirnames 0
  · intro i d hi hd hfirst
    unfold isDirectoryMatch
    rw [List.take_length, isDirectoryMatchFrom_first filename dirnames 0 i d hi hd hfirst]
    simp
  · intro hnone
    unfold isDirectoryMatch
    rw [List.take_length]
    exact isDirectoryMatchFrom_neg filename dirnames 0 hnone
  · intro i d k hi hs heq
    unfold isDirectoryMatch at heq
    rw [List.take_length] at heq
    obtain ⟨j, t, hj1, hj2, hj3⟩ := isDirectoryMatchFrom_index filename dirnames 0
      (by rw [heq]; omega)
    rw [hj1] at heq
    have hji : j = i := by
      have : ((0 + j : Nat) : Int) = (i : Int) := heq
      omega
    subst hji
    rw [hi] at hj2
    have hdt : d = t := Option.some.inj hj2
    subst hdt
    have h0 := (strstr_zero_iff filename d).mpr hj3
    rw [hs] at h0
    simp at h0

/-- C23 at the filename `"a/b/c"`: among `"b/"`, `"a/b/"`, `"a/"` the index returned is 1,
although `"b/"` occurs in the filename at position 2; among `"b/"`, `"c"` it is -1. -/
theorem C23_isDirectoryMatch_is_prefix_test_witness :
    isDirectoryMatch [97, 47, 98, 47, 99] [[98, 47], [97, 47, 98, 47], [97, 47]] 3 = 1 ∧
    strstr [97, 47, 98, 47, 99] [98, 47] = some 2 ∧
    isDirectoryMatch [97, 47, 98, 47, 99] [[98, 47], [99]] 2 = -1 :=
  ⟨(C23_isDirectoryMatch_is_prefix_test [97, 47, 98, 47, 99]
      [[98, 47], [97, 47, 98, 47], [97, 47]]).2.1 1 [97, 47, 98, 47] (by decide) (by decide)
      (fun j t hj ht => by
        have hj0 : j = 0 := by omega
        subst hj0
        have ht' : t = [98, 47] := by simpa using ht.symm
        subst ht'
        decide),
   by decide,
   (C23_isDirectoryMatch_is_prefix_test [97, 47, 98, 47, 99] [[98, 47], [99]]).2.2.1
      (by decide)⟩

/-! ## C27: running farDelete twice -/

theorem farDelete_without_temp (disk : Disk) (fileArgs : List CStr) :
    (farDelete false disk fileArgs).disk = disk := by
  obtain ⟨archive, temp⟩ := disk
  unfold farDelete
  by_cases hargs : fileArgs.length = 0
  · simp [hargs]
  · simp only [hargs, if_false]
    cases archive with
    | none => rfl
    | some bytes =>
      simp only
      cases hread : freadUint bytes with
      | none => rfl
      | some r => rfl

theorem filter_unmatched_idem (fileArgs : List CStr) (es : List Entry) :
    (es.filter (fun e => (matchIndex fileArgs e.name).isNone)).filter
        (fun e => (matchIndex fileArgs e.name).isNone)
      = es.filter (fun e => (matchIndex fileArgs e.name).isNone) := by
  rw [List.filter_filter]
  apply List.filter_congr
  intro e _
  simp

/-- C27: for every well-formed archive and every non-empty selector list, farDelete (the
temporary file being creatable) returns SUCCESS, and a second run of farDelete with the same
selectors on the files the first run left leaves the archive byte for byte as the first run
committed it, whether or not the second run can create the temporary file; when it can, the
second run returns SUCCESS as well. -/
theorem C27_farDelete_idempotent (bytes : List Byte) (es : List Entry)
    (temp : Option (List Byte)) (fileArgs : List CStr) (tempOk2 : Bool)
    (hwf : WellFormed bytes es) (hargs : fileArgs ≠ []) :
    (farDelete true { archive := some bytes, temp := temp } fileArgs).code
      = FAR_RTRN.SUCCESS ∧
    (farDelete tempOk2 (farDelete true { archive := some bytes, temp := temp } fileArgs).disk
        fileArgs).disk.archive
      = (farDelete true { archive := some bytes, temp := temp } fileArgs).disk.archive ∧
    (tempOk2 = true →
      (farDelete tempOk2 (farDelete true { archive := some bytes, temp := temp } fileArgs).disk
        fileArgs).code = FAR_RTRN.SUCCESS) := by
  have hkept : WellFormed
      (encodeArchive (es.filter (fun e => (matchIndex fileArgs e.name).isNone)))
      (es.filter (fun e => (matchIndex fileArgs e.name).isNone)) :=
    ⟨filter_length_lt _ es _ hwf.1, fun e he => hwf.2.1 e (List.mem_of_mem_filter he), rfl⟩
  rw [farDelete_wellFormed bytes es temp fileArgs hwf hargs]
  simp only
  refine ⟨trivial, ?_, ?_⟩
  · cases tempOk2 with
    | false => rw [farDelete_without_temp]
    | true =>
      rw [farDelete_wellFormed _ _ none fileArgs hkept hargs]
      simp only
      rw [filter_unmatched_idem]
  · intro h
    rw [h, farDelete_wellFormed _ _ none fileArgs hkept hargs]

/-- C27 at the archive holding `x.txt` and `y.txt` and the selector `"x.txt"`: the second run
leaves the archive holding `y.txt` as the first run committed it. -/
theorem C27_farDelete_idempotent_witness :
    (farDelete true
        (farDelete true { archive := some (encodeArchive exampleEntries), temp := none }
          [[120, 46, 116, 120, 116]]).disk
        [[120, 46, 116, 120, 116]]).disk.archive
      = some (encodeArchive [{ name := [121, 46, 116, 120, 116], size := 3,
                               body := [98, 121, 101] }]) :=
  (C27_farDelete_idempotent (encodeArchive exampleEntries) exampleEntries none
    [[120, 46, 116, 120, 116]] true (by decide) (by decide)).2.1.trans (by decide)

/-! ## C28: bytes after the last entry -/

theorem farDelete_trailing (bytes : List Byte) (es : List Entry) (extra : List Byte)
    (temp : Option (List Byte)) (fileArgs : List CStr) (hwf : WellFormed bytes es)
    (hargs : fileArgs ≠ []) :
    farDelete true { archive := some (bytes ++ extra), temp := temp } fileArgs
      = farDelete true { archive := some bytes, temp := temp } fileArgs := by
  rw [farDelete_wellFormed bytes es temp fileArgs hwf hargs]
  obtain ⟨hlen, hvalid, hbytes⟩ := hwf
  have hargs' : fileArgs.length ≠ 0 := fun h => hargs (List.length_eq_zero.mp h)
  unfold farDelete
  simp only [hargs', if_false]
  rw [hbytes]
  unfold encodeArchive
  rw [List.append_assoc, freadUint_fwriteUint _ _ hlen]
  simp only [Bool.true_eq_false, if_false]
  have hloop := farDeleteLoop_encode fileArgs es hvalid extra (fwriteUint 0) 0 [] (by norm_num)
  rw [hloop]
  have hk := filter_length_lt (fun e => (matchIndex fileArgs e.name).isNone) es _ hlen
  simp only [finalizeArchive, Nat.zero_add, Nat.mod_eq_of_lt hk, List.nil_append]
  rw [List.drop_left' (fwriteUint_length 0)]

theorem farPrint_trailing (bytes : List Byte) (es : List Entry) (extra : List Byte)
    (hwf : WellFormed bytes es) :
    farPrint (some (bytes ++ extra)) = farPrint (some bytes) := by
  rw [farPrint_wellFormed bytes es hwf]
  obtain ⟨hlen, hvalid, hbytes⟩ := hwf
  unfold farPrint
  simp only
  rw [hbytes]
  unfold encodeArchive
  rw [List.append_assoc, freadUint_fwriteUint _ _ hlen]
  simp only
  rw [farPrintLoop_encode es hvalid extra []]
  simp

theorem freadUint_trailing (bytes : List Byte) (es : List Entry) (extra : List Byte)
    (hwf : WellFormed bytes es) :
    freadUint (bytes ++ extra) = some (es.length, encodeEntries es ++ extra) := by
  obtain ⟨hlen, _, hbytes⟩ := hwf
  rw [hbytes, encodeArchive, List.append_assoc]
  exact freadUint_fwriteUint _ _ hlen

/-- C28 (as amended): for every archive whose content is a well-formed encoding followed by any
extra bytes, farPrint returns SUCCESS and leaves the same output as on the well-formed part
alone; farDelete returns the same code and prints the same diagnostics as on the well-formed
part alone, whether or not the temporary file can be created. When the temporary file can be
created farDelete returns SUCCESS, and with a non-empty selector list its whole outcome is the
same as on the well-formed part: the archive it commits is the well-formed archive of the
entries no selector matches and holds none of the extra bytes. When the temporary file cannot be
created and the selector list is not empty, farDelete returns TEMP_FILE_ERROR and the archive
keeps its content, extra bytes included. With the empty selector list farDelete returns SUCCESS
and commits nothing. -/
theorem C28_trailing_bytes_ignored (bytes : List Byte) (es : List Entry) (extra : List Byte)
    (temp : Option (List Byte)) (fileArgs : List CStr) (tempOk : Bool)
    (hwf : WellFormed bytes es) :
    farPrint (some (bytes ++ extra)) = farPrint (some bytes) ∧
    (farPrint (some (bytes ++ extra))).code = FAR_RTRN.SUCCESS ∧
    (farDelete tempOk { archive := some (bytes ++ extra), temp := temp } fileArgs).code
      = (farDelete tempOk { archive := some bytes, temp := temp } fileArgs).code ∧
    (farDelete tempOk { archive := some (bytes ++ extra), temp := temp } fileArgs).stderr
      = (farDelete tempOk { archive := some bytes, temp := temp } fileArgs).stderr ∧
    (farDelete true { archive := some (bytes ++ extra), temp := temp } fileArgs).code
      = FAR_RTRN.SUCCESS ∧
    (fileArgs ≠ [] →
      farDelete true { archive := some (bytes ++ extra), temp := temp } fileArgs
        = farDelete true { archive := some bytes, temp := temp } fileArgs ∧
      ∃ committed,
        (farDelete true { archive := some (bytes ++ extra), temp := temp } fileArgs).disk.archive
          = some committed ∧
        WellFormed committed (es.filter (fun e => (matchIndex fileArgs e.name).isNone))) ∧
    (fileArgs ≠ [] →
      farDelete false { archive := some (bytes ++ extra), temp := temp } fileArgs
        = { code := FAR_RTRN.TEMP_FILE_ERROR,
            disk := { archive := some (bytes ++ extra), temp := temp },
            stderr := [Diag.openTempArchiveError] }) ∧
    farDelete tempOk { archive := some (bytes ++ extra), temp := temp } []
      = { code := FAR_RTRN.SUCCESS, disk := { archive := some (bytes ++ extra), temp := temp },
          stderr := [] } := by
  have hprint := farPrint_trailing bytes es extra hwf
  have hsame : ∀ t : Bool, fileArgs ≠ [] →
      (farDelete t { archive := some (bytes ++ extra), temp := temp } fileArgs).code
        = (farDelete t { archive := some bytes, temp := temp } fileArgs).code ∧
      (farDelete t { archive := some (bytes ++ extra), temp := temp } fileArgs).stderr
        = (farDelete t { archive := some bytes, temp := temp } fileArgs).stderr := by
    intro t hargs
    cases t with
    | true =>
      rw [farDelete_trailing bytes es extra temp fileArgs hwf hargs]
      exact ⟨rfl, rfl⟩
    | false =>
      rw [farDelete_temp_fails (bytes ++ extra) _ _ temp fileArgs hargs
          (freadUint_trailing bytes es extra hwf),
        farDelete_temp_fails bytes _ _ temp fileArgs hargs (freadUint_wellFormed bytes es hwf)]
      exact ⟨rfl, rfl⟩
  refine ⟨hprint, ?_, ?_, ?_, ?_, ?_, ?_, rfl⟩
  · rw [hprint, farPrint_wellFormed bytes es hwf]
  · by_cases hargs : fileArgs = []
    · subst hargs
      rfl
    · exact (hsame tempOk hargs).1
  · by_cases hargs : fileArgs = []
    · subst hargs
      rfl
    · exact (hsame tempOk hargs).2
  · by_cases hargs : fileArgs = []
    · subst hargs
      rfl
    · rw [farDelete_trailing bytes es extra temp fileArgs hwf hargs,
        farDelete_wellFormed bytes es temp fileArgs hwf hargs]
  · intro hargs
    refine ⟨farDelete_trailing bytes es extra temp fileArgs hwf hargs, ?_⟩
    rw [farDelete_trailing bytes es extra temp fileArgs hwf hargs,
      farDelete_wellFormed bytes es temp fileArgs hwf hargs]
    exact ⟨_, rfl, filter_length_lt _ es _ hwf.1,
      fun e he => hwf.2.1 e (List.mem_of_mem_filter he), rfl⟩
  · intro hargs
    exact farDelete_temp_fails (bytes ++ extra) _ _ temp fileArgs hargs
      (freadUint_trailing bytes es extra hwf)

/-- C28 at the archive holding `x.txt` and `y.txt` followed by the bytes 1, 2, 3: farPrint
lists the two entries, and farDelete with the selector `"x.txt"` commits the archive holding
`y.txt` alone. -/
theorem C28_trailing_bytes_ignored_witness :
    farPrint (some (encodeArchive exampleEntries ++ [1, 2, 3]))
      = farPrint (some (encodeArchive exampleEntries)) ∧
    (farDelete true { archive := some (encodeArchive exampleEntries ++ [1, 2, 3]),
                      temp := none } [[120, 46, 116, 120, 116]]).disk.archive
      = some (encodeArchive [{ name := [121, 46, 116, 120, 116], size := 3,
                               body := [98, 121, 101] }]) :=
  ⟨(C28_trailing_bytes_ignored (encodeArchive exampleEntries) exampleEntries [1, 2, 3] none []
      true (by decide)).1,
   (congrArg (fun out => out.disk.archive)
      ((C28_trailing_bytes_ignored (encodeArchive exampleEntries) exampleEntries [1, 2, 3] none
        [[120, 46, 116, 120, 116]] true (by decide)).2.2.2.2.2.1 (by decide)).1).trans
      (by decide)⟩

/-- C28 (counterexample): the archive is the well-formed encoding of `x.txt` and `y.txt`
followed by the bytes 1, 2, 3, the selector list is `"x.txt"` and the temporary file cannot be
created. farDelete returns TEMP_FILE_ERROR, not SUCCESS, and the archive still holds the extra
bytes. -/
theorem C28_trailing_bytes_kept_without_temporary_file :
    WellFormed (encodeArchive exampleEntries) exampleEntries ∧
    (farDelete false { archive := some (encodeArchive exampleEntries ++ [1, 2, 3]),
                       temp := none } [[120, 46, 116, 120, 116]]).code
      = FAR_RTRN.TEMP_FILE_ERROR ∧
    (farDelete false { archive := some (encodeArchive exampleEntries ++ [1, 2, 3]),
                       temp := none } [[120, 46, 116, 120, 116]]).disk.archive
      = some (encodeArchive exampleEntries ++ [1, 2, 3]) := by
  decide

/-! ## C21: a candidate farAdd cannot open -/

/-- C21 (the code departs from the claim): in the append loop of farAdd, a candidate that `stat`
finds, that is no directory and that `fopen` cannot open for reading is not skipped: the null
stream is handed to `writeFileToArchive` and to `fclose`, and the behaviour of farAdd is
undefined from there on. No diagnostic is printed and the loop does not go on to the next
candidate. -/
theorem C21_unopened_candidate_not_skipped (fs : FileSys) (names : List CStr) (st : AddState)
    (i st_size : Nat)
    (hfirst : isDuplicateFile (names.getD i []) names i < 0)
    (hstat : fs.stat (names.getD i []) = some st_size)
    (hdir : fs.opendir (names.getD i []) = false)
    (hopen : fs.fopen (names.getD i []) = none) :
    farAddAppendStep fs names st i = none := by
  unfold farAddAppendStep
  have hnot : ¬ isDuplicateFile (names.getD i []) names i ≥ 0 := by omega
  simp only [hnot, if_false, hstat, hdir, Bool.false_eq_true, hopen]

/-- C21 at the candidate `"f"`, which `stat` finds with one byte and `fopen` cannot open: the
append step and the append loop have no defined result. When `stat` does not find `"f"` either,
the step prints the diagnostic, writes nothing and leaves the count as it was. -/
theorem C21_unopened_candidate_not_skipped_witness :
    farAddAppendStep unreadableFileSys [[102]]
      { oldArchive := [], tempArchive := fwriteUint 0, newNumFiles := 0, stderr := [] } 0
      = none ∧
    farAddAppendLoop unreadableFileSys [[102]] 1 0
      { oldArchive := [], tempArchive := fwriteUint 0, newNumFiles := 0, stderr := [] }
      = none ∧
    farAddAppendStep unreadableFileSys [[103]]
      { oldArchive := [], tempArchive := fwriteUint 0, newNumFiles := 0, stderr := [] } 0
      = some { oldArchive := [], tempArchive := fwriteUint 0, newNumFiles := 0,
               stderr := [Diag.fileOpenError [103]] } :=
  ⟨C21_unopened_candidate_not_skipped unreadableFileSys [[102]]
      { oldArchive := [], tempArchive := fwriteUint 0, newNumFiles := 0, stderr := [] } 0 1
      (by decide) (by decide) (by decide) (by decide),
   by decide, by decide⟩

/-! ## C22: the position after extractFile -/

theorem readBodyLoop_short (k : Nat) (bytes : List Byte) (h : bytes.length < k) :
    readBodyLoop k bytes = none := by
  induction k generalizing bytes with
  | zero => omega
  | succ k ih =>
    cases bytes with
    | nil => rfl
    | cons c bytes =>
      simp only [readBodyLoop]
      rw [ih bytes (by simpa using h)]

theorem extractFileLoop_short {σ : Type} (fsx : ExtractFS σ) (filename : CStr) (fileSize : Nat)
    (hopen : ∀ w n, (fsx.fopen w n).1 = true)
    (hlast : filename.getD (filename.length - 1) 0 ≠ slash)
    (fuel currentLen : Nat) (st : ExtractState σ)
    (hcur : currentLen < filename.length) (hfuel : filename.length - currentLen ≤ fuel)
    (hshort : st.archive.length < fileSize) :
    (extractFileLoop fsx filename fileSize fuel currentLen st).1 = -1 := by
  induction fuel generalizing currentLen st with
  | zero => omega
  | succ fuel ih =>
    unfold extractFileLoop
    simp only [hcur, if_true]
    obtain ⟨hle, hslash⟩ := strcspnSlash_spec filename currentLen
    have hmax : max currentLen filename.length = filename.length := by omega
    rw [hmax] at hle
    have hsub : currentLen + strcspnSlash (filename.drop currentLen) + 1 - 1
        = currentLen + strcspnSlash (filename.drop currentLen) := by omega
    rw [hsub]
    by_cases hk : currentLen + strcspnSlash (filename.drop currentLen) < filename.length
    · have hs := hslash hk
      simp only [hs, if_true]
      have hne : currentLen + strcspnSlash (filename.drop currentLen) ≠ filename.length - 1 := by
        intro heq
        rw [heq] at hs
        exact hlast hs
      apply ih
      · omega
      · omega
      · rw [(ensureDirExists_frame fsx _ st).1]
        exact hshort
    · have heq : currentLen + strcspnSlash (filename.drop currentLen) = filename.length := by
        omega
      have hout : filename.getD (currentLen + strcspnSlash (filename.drop currentLen)) 0 = 0 := by
        rw [heq, List.getD_eq_getElem?_getD, List.getElem?_eq_none (Nat.le_refl _)]
        rfl
      have hns : ¬ (filename.getD (currentLen + strcspnSlash (filename.drop currentLen)) 0
          = slash) := by
        rw [hout]
        decide
      simp only [hns, if_false, hopen, if_true, readBodyLoop_short fileSize st.archive hshort]

/-- C22 (as amended): every destination file can be opened for writing. For every size and
every stored name that is not empty and does not end in `'/'`, and for every stored name when
the size is 0: whenever extractFile returns 0, the archive held at least `fileSize` bytes from
the start of the body and its position has advanced by exactly `fileSize` bytes; and extractFile
does return 0 whenever the archive holds that many bytes. -/
theorem C22_extractFile_position {σ : Type} (fsx : ExtractFS σ)
    (hopen : ∀ w n, (fsx.fopen w n).1 = true) (filename : CStr) (fileSize : Nat)
    (st : ExtractState σ) (hname : fileSize = 0 ∨ NamesFile filename) :
    ((extractFile fsx filename fileSize st).1 = 0 →
      fileSize ≤ st.archive.length ∧
      (extractFile fsx filename fileSize st).2.archive = st.archive.drop fileSize) ∧
    (fileSize ≤ st.archive.length → (extractFile fsx filename fileSize st).1 = 0) := by
  by_cases hle : fileSize ≤ st.archive.length
  · have hcons := extractFile_consumes fsx
      { name := filename, size := fileSize, body := st.archive.take fileSize }
      (st.archive.drop fileSize) hopen hname
      (by simp only [List.length_take]; omega) st (List.take_append_drop _ _).symm
    exact ⟨fun _ => ⟨hle, hcons.2.1⟩, fun _ => hcons.1⟩
  · have hfile : NamesFile filename := by
      rcases hname with h | h
      · omega
      · exact h
    have hret : (extractFile fsx filename fileSize st).1 = -1 := by
      unfold extractFile
      exact extractFileLoop_short fsx filename fileSize hopen
        (getD_last_of_namesFile _ hfile) _ 0 st (List.length_pos.mpr hfile.1) (by omega)
        (by omega)
    refine ⟨fun h0 => ?_, fun h => absurd h hle⟩
    rw [hret] at h0
    exact absurd h0 (by decide)

/-- C22 at the name `"a/f"` of size 2 with the archive positioned at `1, 2, 3`: extractFile
returns 0 and the position is at `3`. -/
theorem C22_extractFile_position_witness :
    (extractFile permissiveFS [97, 47, 102] 2
        { archive := [1, 2, 3], world := [], stderr := [], usedArgs := [] }).1 = 0 ∧
    (extractFile permissiveFS [97, 47, 102] 2
        { archive := [1, 2, 3], world := [], stderr := [], usedArgs := [] }).2.archive = [3] :=
  ⟨(C22_extractFile_position permissiveFS (fun _ _ => rfl) [97, 47, 102] 2
      { archive := [1, 2, 3], world := [], stderr := [], usedArgs := [] }
      (Or.inr (by decide))).2 (by decide),
   ((C22_extractFile_position permissiveFS (fun _ _ => rfl) [97, 47, 102] 2
      { archive := [1, 2, 3], world := [], stderr := [], usedArgs := [] }
      (Or.inr (by decide))).1 (by decide)).2.trans (by decide)⟩

/-- C22 (counterexample): every directory exists and every file can be created. For the stored
name `"d/"` and for the empty stored name, with size 1 and the archive positioned at the bytes
`A`, `B`, extractFile returns 0 and the archive position has not moved. -/
theorem C22_directory_name_keeps_position :
    (extractFile permissiveFS [100, 47] 1
        { archive := [65, 66], world := [], stderr := [], usedArgs := [] }).1 = 0 ∧
    (extractFile permissiveFS [100, 47] 1
        { archive := [65, 66], world := [], stderr := [], usedArgs := [] }).2.archive
      = [65, 66] ∧
    (extractFile permissiveFS [] 1
        { archive := [65, 66], world := [], stderr := [], usedArgs := [] }).1 = 0 ∧
    (extractFile permissiveFS [] 1
        { archive := [65, 66], world := [], stderr := [], usedArgs := [] }).2.archive
      = [65, 66] := by
  decide

/-! ## C26: the names of the old archive after farAdd -/

theorem candidateEntry_of_stat (fs : FileSys) (name : CStr)
    (h : (fs.stat name).isSome = true) :
    ∃ e, candidateEntry fs name = some e ∧ e.name = name := by
  obtain ⟨st_size, hstat⟩ := Option.isSome_iff_exists.mp h
  unfold candidateEntry
  rw [hstat]
  by_cases hdir : fs.opendir name = true
  · simp only [hdir, if_true]
    exact ⟨_, rfl, rfl⟩
  · simp only [hdir, Bool.false_eq_true, if_false]
    exact ⟨_, rfl, rfl⟩

theorem old_name_kept_or_appended (fs : FileSys) (candidates : List CStr) (es : List Entry)
    (hstat : ∀ c ∈ candidates, (fs.stat c).isSome = true) (e : Entry) (he : e ∈ es) :
    e ∈ keptEntries candidates es ∨
      (e.name ∈ candidates ∧ ∃ a ∈ appendedFrom fs [] candidates, a.name = e.name) := by
  by_cases hc : e.name ∈ candidates
  · right
    obtain ⟨a, ha, hname⟩ := candidateEntry_of_stat fs e.name (hstat e.name hc)
    exact ⟨hc, a, mem_appendedFrom_of_mem fs [] candidates e.name a hc (by simp) ha, hname⟩
  · left
    exact (mem_keptEntries candidates es e).mpr ⟨he, hc⟩

/-- C26 (as amended): for every well-formed old archive that farAdd opens and every argument
list, when the temporary file is creatable, every candidate can be stat'ed and delivers at least
`st_size` bytes in the append loop, and the old entries and the candidates number fewer than
2^32 in total, farAdd returns SUCCESS and leaves a well-formed archive in which every entry of
the old archive either is an entry still or has the name of a candidate, under which an entry
was appended: every name of the old archive is a name of the new one. An archive that cannot
be opened, whether or not a file of that name exists, counts as empty: with a non-empty
argument list the archive committed in its place holds the entries appended for the candidates
and nothing else. -/
theorem C26_farAdd_keeps_names (fs : FileSys) (bytes : List Byte) (es : List Entry)
    (temp : Option (List Byte)) (fileArgs : List CStr)
    (hwf : WellFormed bytes es)
    (hnul : ∀ c ∈ (fileListNew fs fileArgs).names, (0 : Byte) ∉ c)
    (hstat : ∀ c ∈ (fileListNew fs fileArgs).names, (fs.stat c).isSome = true)
    (hyield : YieldsStatSize fs (fileListNew fs fileArgs).names)
    (hcount : es.length + (fileListNew fs fileArgs).names.length < 4294967296) :
    (∃ out committed es',
      farAdd fs true { archive := some bytes, temp := temp } fileArgs = some out ∧
      out.code = FAR_RTRN.SUCCESS ∧
      out.disk.archive = some committed ∧ WellFormed committed es' ∧
      (∀ e ∈ es, e ∈ es' ∨
        (e.name ∈ (fileListNew fs fileArgs).names ∧ ∃ a ∈ es', a.name = e.name)) ∧
      (∀ e ∈ es, e.name ∈ es'.map (fun a => a.name))) ∧
    (fileArgs ≠ [] →
      ∃ out committed,
        farAdd fs true { archive := none, temp := temp } fileArgs = some out ∧
        out.code = FAR_RTRN.SUCCESS ∧
        out.disk.archive = some committed ∧
        WellFormed committed (appendedFrom fs [] (fileListNew fs fileArgs).names) ∧
        ∀ a ∈ appendedFrom fs [] (fileListNew fs fileArgs).names,
          a.name ∈ (fileListNew fs fileArgs).names) := by
  constructor
  · by_cases hargs : fileArgs = []
    · subst hargs
      refine ⟨{ code := FAR_RTRN.SUCCESS, disk := { archive := some bytes, temp := temp },
                stderr := [] }, bytes, es, rfl, rfl, rfl, hwf, fun e he => Or.inl he, ?_⟩
      intro e he
      exact List.mem_map_of_mem _ he
    · have harch : Holds (some bytes) es := hwf
      obtain ⟨err, hadd⟩ := farAdd_commits fs (some bytes) es temp fileArgs harch hargs hyield
      have hwf2 : WellFormed
          (encodeArchive (keptEntries (fileListNew fs fileArgs).names es
            ++ appendedFrom fs [] (fileListNew fs fileArgs).names))
          (keptEntries (fileListNew fs fileArgs).names es
            ++ appendedFrom fs [] (fileListNew fs fileArgs).names) :=
        ⟨farAdd_total_lt fs _ es hcount,
          farAdd_entries_valid fs (some bytes) es _ harch hnul hyield, rfl⟩
      have hall := old_name_kept_or_appended fs (fileListNew fs fileArgs).names es hstat
      refine ⟨_, _, _, hadd, rfl, rfl, hwf2, ?_, ?_⟩
      · intro e he
        rcases hall e he with h | ⟨hc, a, ha, hname⟩
        · exact Or.inl (List.mem_append_left _ h)
        · exact Or.inr ⟨hc, a, List.mem_append_right _ ha, hname⟩
      · intro e he
        rcases hall e he with h | ⟨_, a, ha, hname⟩
        · exact List.mem_map_of_mem _ (List.mem_append_left _ h)
        · rw [← hname]
          exact List.mem_map_of_mem _ (List.mem_append_right _ ha)
  · intro hargs
    have harch : Holds none ([] : List Entry) := rfl
    obtain ⟨err, hadd⟩ := farAdd_commits fs none [] temp fileArgs harch hargs hyield
    have hvalid := farAdd_entries_valid fs none [] _ harch hnul hyield
    have hlt := farAdd_total_lt fs (fileListNew fs fileArgs).names []
      (by simp only [List.length_nil]; omega)
    simp only [keptEntries, List.filter_nil, List.nil_append] at hadd hvalid hlt
    exact ⟨_, _, hadd, rfl, rfl, ⟨hlt, hvalid, rfl⟩,
      fun a ha => (mem_appendedFrom fs [] _ a ha).1⟩

/-- C26 at the example archive, to which the three-byte file `"f"` is added: the names
`x.txt` and `y.txt` are names of the archive afterwards. When the archive cannot be opened, the
archive committed in its place holds `"f"` alone. -/
theorem C26_farAdd_keeps_names_witness :
    (∃ out committed es',
      farAdd (oneFileSys [1, 2, 3] 3) true
        { archive := some (encodeArchive exampleEntries), temp := none } [[102]] = some out ∧
      out.code = FAR_RTRN.SUCCESS ∧
      out.disk.archive = some committed ∧ WellFormed committed es' ∧
      (∀ e ∈ exampleEntries, e ∈ es' ∨
        (e.name ∈ (fileListNew (oneFileSys [1, 2, 3] 3) [[102]]).names ∧
          ∃ a ∈ es', a.name = e.name)) ∧
      (∀ e ∈ exampleEntries, e.name ∈ es'.map (fun a => a.name))) ∧
    (∃ out committed,
      farAdd (oneFileSys [1, 2, 3] 3) true { archive := none, temp := none } [[102]]
        = some out ∧
      out.code = FAR_RTRN.SUCCESS ∧
      out.disk.archive = some committed ∧
      WellFormed committed
        (appendedFrom (oneFileSys [1, 2, 3] 3) []
          (fileListNew (oneFileSys [1, 2, 3] 3) [[102]]).names) ∧
      ∀ a ∈ appendedFrom (oneFileSys [1, 2, 3] 3) []
          (fileListNew (oneFileSys [1, 2, 3] 3) [[102]]).names,
        a.name ∈ (fileListNew (oneFileSys [1, 2, 3] 3) [[102]]).names) :=
  have h := C26_farAdd_keeps_names (oneFileSys [1, 2, 3] 3) (encodeArchive exampleEntries)
    exampleEntries none [[102]] (by decide) (by decide) (by decide) (by decide) (by decide)
  ⟨h.1, h.2 (by decide)⟩

theorem farAdd_at_count_limit (n : Nat) (hn : n + 1 = 4294967296) :
    ∃ err,
      farAdd (oneFileSys [] 0) true
          { archive := some (encodeArchive (List.replicate n emptyEntry)), temp := none }
          [[102]]
        = some
          { code := FAR_RTRN.SUCCESS,
            disk :=
              { archive := some (encodeArchive (List.replicate n emptyEntry
                  ++ [({ name := [102], size := 0, body := [] } : Entry)])),
                temp := none },
            stderr := err } ∧
      readArchive (encodeArchive (List.replicate n emptyEntry
          ++ [({ name := [102], size := 0, body := [] } : Entry)]))
        = some ([], encodeEntries (List.replicate n emptyEntry
          ++ [({ name := [102], size := 0, body := [] } : Entry)])) := by
  have hholds : Holds (some (encodeArchive (List.replicate n emptyEntry)))
      (List.replicate n emptyEntry) :=
    ⟨by rw [List.length_replicate]; omega, replicate_empty_valid n, rfl⟩
  have hyield : YieldsStatSize (oneFileSys [] 0)
      (fileListNew (oneFileSys [] 0) [[102]]).names := by decide
  obtain ⟨err, hadd⟩ := farAdd_commits (oneFileSys [] 0) _ _ none [[102]] hholds
    (by decide) hyield
  have hcands : (fileListNew (oneFileSys [] 0) [[102]]).names = [[102]] := by decide
  have happ : appendedFrom (oneFileSys [] 0) [] [[102]]
      = [({ name := [102], size := 0, body := [] } : Entry)] := by decide
  rw [hcands, keptEntries_replicate_empty n _ (by decide), happ] at hadd
  have hlen : (List.replicate n emptyEntry
      ++ [({ name := [102], size := 0, body := [] } : Entry)]).length % 4294967296 = 0 := by
    rw [List.length_append, List.length_replicate, List.length_singleton, hn]
  have hvalid : ∀ e ∈ List.replicate n emptyEntry
      ++ [({ name := [102], size := 0, body := [] } : Entry)], e.Valid := by
    intro e he
    rcases List.mem_append.mp he with h | h
    · exact replicate_empty_valid n e h
    · have : e = ({ name := [102], size := 0, body := [] } : Entry) := by simpa using h
      rw [this]
      decide
  have hread := readArchive_encodeArchive _ hvalid
  rw [hlen] at hread
  exact ⟨err, hadd, by simpa using hread⟩

/-- C26 (counterexample): the old archive is well-formed and holds 2^32 - 1 entries, all named
`""`; the only candidate is the empty regular file `"f"`, which can be stat'ed and read. farAdd
returns SUCCESS and commits an archive whose count has wrapped to 0: reading it back gives no
entry, so the name `""` of the old archive is no name of the committed archive. -/
theorem C26_names_lost_when_count_wraps :
    Holds (some (encodeArchive (List.replicate 4294967295 emptyEntry)))
      (List.replicate 4294967295 emptyEntry) ∧
    emptyEntry ∈ List.replicate 4294967295 emptyEntry ∧
    (∀ c ∈ (fileListNew (oneFileSys [] 0) [[102]]).names,
      ((oneFileSys [] 0).stat c).isSome = true) ∧
    YieldsStatSize (oneFileSys [] 0) (fileListNew (oneFileSys [] 0) [[102]]).names ∧
    ∃ out committed rest,
      farAdd (oneFileSys [] 0) true
        { archive := some (encodeArchive (List.replicate 4294967295 emptyEntry)), temp := none }
        [[102]] = some out ∧
      out.code = FAR_RTRN.SUCCESS ∧ out.disk.archive = some committed ∧
      readArchive committed = some ([], rest) := by
  obtain ⟨err, hadd, hread⟩ := farAdd_at_count_limit 4294967295 (by norm_num)
  refine ⟨⟨by rw [List.length_replicate]; norm_num, replicate_empty_valid _, rfl⟩, ?_,
    by decide, by decide, _, _, _, hadd, rfl, rfl, hread⟩
  exact List.mem_replicate.mpr ⟨by norm_num, rfl⟩

/-! ## C25: the order of the candidate names -/

theorem expansion_zero (fs : FileSys) (name : CStr) :
    expansion fs 0 name = if checkFileType fs name = 1 then [name] else [] := by
  rw [expansion]

theorem expansion_succ (fs : FileSys) (fuel : Nat) (name : CStr) :
    expansion fs (fuel + 1) name
      = if checkFileType fs name = 1 then [name]
        else if checkFileType fs name = 2 then
          ensureSingleSlash name ::
            ((fs.readdir name).filter (fun c => decide (c ≠ dotName ∧ c ≠ dotDotName))).flatMap
              (fun c => expansion fs fuel (ensureSingleSlash name ++ c))
        else [] := by
  rw [expansion]

theorem foldl_children_names (fs : FileSys) (fuel : Nat) (slashed : CStr)
    (ih : ∀ files name, (fileListCheckAndAddName fs fuel files name).names
      = files.names ++ expansion fs fuel name)
    (children : List CStr) (init : fileList) :
    (children.foldl
        (fun files d_name =>
          if d_name ≠ dotName ∧ d_name ≠ dotDotName then
            fileListCheckAndAddName fs fuel files (appendDir slashed d_name)
          else files)
        init).names
      = init.names
        ++ (children.filter (fun c => decide (c ≠ dotName ∧ c ≠ dotDotName))).flatMap
            (fun c => expansion fs fuel (slashed ++ c)) := by
  induction children generalizing init with
  | nil => simp
  | cons c children ihc =>
    rw [List.foldl_cons, ihc]
    by_cases hc : c ≠ dotName ∧ c ≠ dotDotName
    · rw [if_pos hc, ih, List.filter_cons_of_pos (by simpa using hc), List.flatMap_cons,
        List.append_assoc]
      rfl
    · rw [if_neg hc, List.filter_cons_of_neg (by simpa using hc)]

theorem fileListCheckAndAddName_expansion (fs : FileSys) (fuel : Nat) (files : fileList)
    (name : CStr) :
    (fileListCheckAndAddName fs fuel files name).names
      = files.names ++ expansion fs fuel name := by
  induction fuel generalizing files name with
  | zero =>
    rw [expansion_zero]
    unfold fileListCheckAndAddName
    split
    · rename_i h
      simp [h]
    · rename_i h
      simp [h, fileListAddName]
    · rename_i h0 h1
      have hne : ¬ checkFileType fs name = 1 := h1
      simp [hne]
  | succ fuel ih =>
    rw [expansion_succ]
    unfold fileListCheckAndAddName
    split
    · rename_i h
      simp [h]
    · rename_i h
      simp [h, fileListAddName]
    · rename_i h
      have hne : ¬ checkFileType fs name = 1 := by rw [h]; decide
      rw [if_neg hne, if_pos h]
      unfold fileListAddDir
      simp only
      rw [foldl_children_names fs fuel (ensureSingleSlash name) ih]
      simp [fileListAddName]
    · rename_i h0 h1 h2
      have hne1 : ¬ checkFileType fs name = 1 := h1
      have hne2 : ¬ checkFileType fs name = 2 := h2
      simp [hne1, hne2]

theorem foldl_arguments_names (fs : FileSys) (initNames : List CStr) (init : fileList) :
    (initNames.foldl (fun files name => fileListCheckAndAddName fs (fs.depth name) files name)
        init).names
      = init.names ++ initNames.flatMap (fun a => expansion fs (fs.depth a) a) := by
  induction initNames generalizing init with
  | nil => simp
  | cons a rest ih =>
    rw [List.foldl_cons, ih, fileListCheckAndAddName_expansion, List.flatMap_cons,
      List.append_assoc]

theorem flatMap_congr_mem {α β : Type} (l : List α) (f g : α → List β)
    (h : ∀ a ∈ l, f a = g a) : l.flatMap f = l.flatMap g := by
  induction l with
  | nil => rfl
  | cons a l ih =>
    rw [List.flatMap_cons, List.flatMap_cons, h a (by simp),
      ih (fun b hb => h b (by simp [hb]))]

theorem expansion_stable (fs : FileSys) (fuel : Nat) (name : CStr)
    (hbound : DepthBounded fs fuel name) (more : Nat) (hmore : fuel ≤ more) :
    expansion fs more name = expansion fs fuel name := by
  induction fuel generalizing name more with
  | zero =>
    have hne : ¬ checkFileType fs name = 2 := hbound
    cases more with
    | zero => rfl
    | succ more =>
      rw [expansion_succ, expansion_zero]
      simp only [hne, if_false]
  | succ fuel ih =>
    cases more with
    | zero => omega
    | succ more =>
      rw [expansion_succ, expansion_succ]
      by_cases h1 : checkFileType fs name = 1
      · simp only [h1, if_true]
      · by_cases h2 : checkFileType fs name = 2
        · simp only [h1, if_false, h2, if_true]
          refine congrArg (List.cons (ensureSingleSlash name)) ?_
          apply flatMap_congr_mem
          intro c hc
          have hmem := List.mem_filter.mp hc
          have hcond : c ≠ dotName ∧ c ≠ dotDotName := by simpa using hmem.2
          exact ih _ (hbound h2 c hmem.1 hcond) more (by omega)
        · simp only [h1, h2, if_false]

theorem withoutTrailingSlashes_unique (a : CStr) (k : Nat) (ha : a.getLast? ≠ some slash) :
    withoutTrailingSlashes (a ++ List.replicate k slash) = a := by
  induction k with
  | zero =>
    rw [List.replicate_zero, List.append_nil]
    unfold withoutTrailingSlashes
    rw [List.rdropWhile_eq_self_iff]
    intro hl hp
    apply ha
    rw [List.getLast?_eq_getLast _ hl]
    simpa using hp
  | succ k ih =>
    rw [List.replicate_succ', ← List.append_assoc]
    unfold withoutTrailingSlashes at ih ⊢
    rw [List.rdropWhile_concat_pos _ _ _ (by simp)]
    exact ih

theorem ensureSingleSlash_prefix_child (p c : CStr) :
    ensureSingleSlash p <+: ensureSingleSlash (ensureSingleSlash p ++ c) := by
  obtain ⟨k, hk⟩ := withoutTrailingSlashes_rest c
  have hw := withoutTrailingSlashes_getLast p
  have hc := withoutTrailingSlashes_getLast c
  rw [ensureSingleSlash_eq (ensureSingleSlash p ++ c), ensureSingleSlash_eq p]
  by_cases hnil : withoutTrailingSlashes c = []
  · have hsplit : withoutTrailingSlashes p ++ [slash] ++ c
        = withoutTrailingSlashes p ++ List.replicate (k + 1) slash := by
      rw [hk, hnil, List.nil_append, List.replicate_succ, List.append_assoc]
      rfl
    rw [hsplit, withoutTrailingSlashes_unique _ _ hw]
  · have hsplit : withoutTrailingSlashes p ++ [slash] ++ c
        = (withoutTrailingSlashes p ++ [slash] ++ withoutTrailingSlashes c)
          ++ List.replicate k slash := by
      rw [List.append_assoc _ (withoutTrailingSlashes c), ← hk]
    have hlast : (withoutTrailingSlashes p ++ [slash] ++ withoutTrailingSlashes c).getLast?
        ≠ some slash := by
      rw [List.getLast?_append]
      cases hl : (withoutTrailingSlashes c).getLast? with
      | none =>
        rw [List.getLast?_eq_none_iff] at hl
        exact absurd hl hnil
      | some x =>
        rw [hl] at hc
        simpa using hc
    rw [hsplit, withoutTrailingSlashes_unique _ _ hlast, List.append_assoc]
    exact List.prefix_append _ _

theorem expansion_prefix (fs : FileSys) (fuel : Nat) (p n : CStr)
    (hn : n ∈ expansion fs fuel p) :
    (n = p ∧ checkFileType fs p = 1) ∨
      (checkFileType fs p = 2 ∧ ensureSingleSlash p <+: n) := by
  induction fuel generalizing p n with
  | zero =>
    rw [expansion_zero] at hn
    by_cases h1 : checkFileType fs p = 1
    · simp only [h1, if_true, List.mem_singleton] at hn
      exact Or.inl ⟨hn, h1⟩
    · simp [h1] at hn
  | succ fuel ih =>
    rw [expansion_succ] at hn
    by_cases h1 : checkFileType fs p = 1
    · simp only [h1, if_true, List.mem_singleton] at hn
      exact Or.inl ⟨hn, h1⟩
    · by_cases h2 : checkFileType fs p = 2
      · right
        refine ⟨h2, ?_⟩
        rw [if_neg h1, if_pos h2, List.mem_cons, List.mem_flatMap] at hn
        rcases hn with hn | ⟨c, _, hc⟩
        · rw [hn]
        · rcases ih _ n hc with ⟨hnc, _⟩ | ⟨_, hpre⟩
          · rw [hnc]
            exact List.prefix_append _ _
          · exact (ensureSingleSlash_prefix_child p c).trans hpre
      · simp [h1, h2] at hn

/-- C25: for every argument list, the names fileListNew produces are the concatenation, in
argument order, of the expansion of each argument. The expansion of a readable regular file is
its name, that of a directory `d` that can be opened is `ensureSingleSlash d` followed by the
expansions of its children `ensureSingleSlash d ++ child` in the order of `readdir`, `"."` and
`".."` left out, and that of any other name is empty; so the entry of a directory comes before
the names of its subtree, each of which has `ensureSingleSlash d` as a prefix. When the
directory levels below an argument number at most `depth`, its expansion is the same for every
larger bound: no directory is left unentered. -/
theorem C25_candidate_expansion_order (fs : FileSys) (initNames : List CStr) :
    (fileListNew fs initNames).names
      = initNames.flatMap (fun a => expansion fs (fs.depth a) a) ∧
    (∀ a ∈ initNames, DepthBounded fs (fs.depth a) a →
      ∀ more, fs.depth a ≤ more → expansion fs more a = expansion fs (fs.depth a) a) ∧
    (∀ fuel f, checkFileType fs f = 1 → expansion fs fuel f = [f]) ∧
    (∀ fuel d, checkFileType fs d = 2 →
      expansion fs (fuel + 1) d
        = ensureSingleSlash d ::
            ((fs.readdir d).filter (fun c => decide (c ≠ dotName ∧ c ≠ dotDotName))).flatMap
              (fun c => expansion fs fuel (ensureSingleSlash d ++ c))) ∧
    (∀ fuel x, checkFileType fs x ≠ 1 → checkFileType fs x ≠ 2 → expansion fs fuel x = []) ∧
    (∀ fuel d n, checkFileType fs d = 2 → n ∈ expansion fs fuel d →
      ensureSingleSlash d <+: n) := by
  refine ⟨?_, ?_, ?_, ?_, ?_, ?_⟩
  · unfold fileListNew
    rw [foldl_arguments_names]
    rfl
  · intro a _ hbound more hmore
    exact expansion_stable fs (fs.depth a) a hbound more hmore
  · intro fuel f h1
    cases fuel with
    | zero => rw [expansion_zero, if_pos h1]
    | succ fuel => rw [expansion_succ, if_pos h1]
  · intro fuel d h2
    have h1 : ¬ checkFileType fs d = 1 := by rw [h2]; decide
    rw [expansion_succ, if_neg h1, if_pos h2]
  · intro fuel x h1 h2
    cases fuel with
    | zero => rw [expansion_zero, if_neg h1]
    | succ fuel => rw [expansion_succ, if_neg h1, if_neg h2]
  · intro fuel d n h2 hn
    rcases expansion_prefix fs fuel d n hn with ⟨_, h1⟩ | ⟨_, hpre⟩
    · rw [h2] at h1
      exact absurd h1 (by decide)
    · exact hpre

/-- C25 at the directory `"d"` holding the regular file `"a"`, with the arguments `"d"`, `"q"`
(which does not exist) and `"d/a"`. -/
theorem C25_candidate_expansion_order_witness :
    (fileListNew sampleFileSys [[100], [113], [100, 47, 97]]).names
      = [[100, 47], [100, 47, 97], [100, 47, 97]] ∧
    DepthBounded sampleFileSys (sampleFileSys.depth [100]) [100] ∧
    expansion sampleFileSys 5 [100] = [[100, 47], [100, 47, 97]] :=
  ⟨(C25_candidate_expansion_order sampleFileSys [[100], [113], [100, 47, 97]]).1.trans
      (by decide),
   by decide,
   ((C25_candidate_expansion_order sampleFileSys [[100], [113], [100, 47, 97]]).2.1 [100]
      (by decide) (by decide) 5 (by decide)).trans (by decide)⟩

/-! ## C31: the number of names main hands on -/

theorem filenamesOf_eq (argv : List CStr) :
    filenamesOf argv
      = ((argv.drop 3).take ((argv.length - 3) % 256)).map stripTrailingSlashesName := by
  unfold filenamesOf
  by_cases h3 : argv.length > 3
  · rw [if_pos h3]
    rfl
  · rw [if_neg h3]
    have hlen : argv.length - 3 = 0 := by omega
    rw [hlen]
    rfl

theorem filenamesOf_length (argv : List CStr) :
    (filenamesOf argv).length = (argv.length - 3) % 256 := by
  rw [filenamesOf_eq, List.length_map, List.length_take, List.length_drop]
  have := Nat.mod_le (argv.length - 3) 256
  omega

/-- C31: for every command line of at least 3 arguments, the operation main selects is handed
the array `filenamesOf argv`, which holds exactly `(argc - 3) mod 256` names: the first that
many arguments after the archive name, without their trailing slashes. The number is `argc - 3`
exactly when `argc - 3` is at most 255, and when `argc - 3` is a positive multiple of 256 the
array is empty and main returns what it returns for the first three arguments alone. -/
theorem C31_name_count_mod_256 {σ : Type} (fs : FileSys) (tempOk : Bool) (disk : Disk)
    (fsx : ExtractFS σ) (world : σ) (argv : List CStr) (hargc : 3 ≤ argv.length) :
    main fs tempOk disk fsx world argv
      = (if argv.getD 1 [] = keyR then
          (farAdd fs tempOk disk (filenamesOf argv)).map (fun out => out.code.toInt)
        else if argv.getD 1 [] = keyX then
          some (farExtract fsx disk.archive world (filenamesOf argv)).code.toInt
        else if argv.getD 1 [] = keyD then
          some (farDelete tempOk disk (filenamesOf argv)).code.toInt
        else if argv.getD 1 [] = keyT then
          some (farPrint disk.archive).code.toInt
        else some 4) ∧
    filenamesOf argv
      = ((argv.drop 3).take ((argv.length - 3) % 256)).map stripTrailingSlashesName ∧
    (filenamesOf argv).length = (argv.length - 3) % 256 ∧
    ((filenamesOf argv).length = argv.length - 3 ↔ argv.length - 3 ≤ 255) ∧
    (0 < argv.length - 3 → (argv.length - 3) % 256 = 0 →
      filenamesOf argv = [] ∧
      main fs tempOk disk fsx world argv = main fs tempOk disk fsx world (argv.take 3)) := by
  have hmain := main_filenames fs tempOk disk fsx world argv (by omega)
  refine ⟨hmain, filenamesOf_eq argv, filenamesOf_length argv, ?_, ?_⟩
  · rw [filenamesOf_length]
    constructor
    · intro h
      have := Nat.mod_lt (argv.length - 3) (by norm_num : 0 < 256)
      omega
    · intro h
      exact Nat.mod_eq_of_lt (by omega)
  · intro _ hzero
    have hnil : filenamesOf argv = [] :=
      List.length_eq_zero.mp ((filenamesOf_length argv).trans hzero)
    have hlen3 : (argv.take 3).length = 3 := by
      rw [List.length_take]
      omega
    have hnil3 : filenamesOf (argv.take 3) = [] := by
      apply List.length_eq_zero.mp
      rw [filenamesOf_length, hlen3]
    have hkey : (argv.take 3).getD 1 [] = argv.getD 1 [] := by
      rw [List.getD_eq_getElem?_getD, List.getD_eq_getElem?_getD, List.getElem?_take]
      simp
    refine ⟨hnil, ?_⟩
    rw [hmain, main_filenames fs tempOk disk fsx world (argv.take 3) (by omega), hkey, hnil,
      hnil3]

/-- C31 at `far d a x y` on the example archive, where the two names reach farDelete, and at
`far d a` followed by 256 times `x.txt`, where none does: main returns 0 and farDelete is
handed no name, as for `far d a`. -/
theorem C31_name_count_mod_256_witness :
    filenamesOf [[102], keyD, [97], [120], [121]] = [[120], [121]] ∧
    filenamesOf ([[102], keyD, [97]] ++ List.replicate 256 [120, 46, 116, 120, 116]) = [] ∧
    main (oneFileSys [] 0) true { archive := some (encodeArchive exampleEntries), temp := none }
        permissiveFS [] ([[102], keyD, [97]] ++ List.replicate 256 [120, 46, 116, 120, 116])
      = main (oneFileSys [] 0) true
          { archive := some (encodeArchive exampleEntries), temp := none } permissiveFS []
          [[102], keyD, [97]] :=
  ⟨(C31_name_count_mod_256 (oneFileSys [] 0) true
      { archive := some (encodeArchive exampleEntries), temp := none } permissiveFS []
      [[102], keyD, [97], [120], [121]] (by decide)).2.1.trans (by decide),
   ((C31_name_count_mod_256 (oneFileSys [] 0) true
      { archive := some (encodeArchive exampleEntries), temp := none } permissiveFS []
      ([[102], keyD, [97]] ++ List.replicate 256 [120, 46, 116, 120, 116])
      (by rw [List.length_append, List.length_replicate]; decide)).2.2.2.2
      (by rw [List.length_append, List.length_replicate]; decide)
      (by rw [List.length_append, List.length_replicate]; decide)).1,
   ((C31_name_count_mod_256 (oneFileSys [] 0) true
      { archive := some (encodeArchive exampleEntries), temp := none } permissiveFS []
      ([[102], keyD, [97]] ++ List.replicate 256 [120, 46, 116, 120, 116])
      (by rw [List.length_append, List.length_replicate]; decide)).2.2.2.2
      (by rw [List.length_append, List.length_replicate]; decide)
      (by rw [List.length_append, List.length_replicate]; decide)).2.trans
      (by
        rw [show List.take 3 ([[102], keyD, [97]] ++ List.replicate 256 [120, 46, 116, 120, 116])
          = [[102], keyD, [97]] from List.take_left' rfl])⟩

/-! ## The return code of each command, condition by condition -/

theorem readArchive_isSome_of_framed (bytes : List Byte) (h : Framed bytes) :
    (readArchive bytes).isSome = true := by
  obtain ⟨es, rest, hlen, hvalid, hbytes⟩ := h
  have h1 := readArchive_mono (encodeArchive es) rest es [] (readArchive_encode es hvalid hlen)
  rw [hbytes, h1]
  rfl

theorem readArchive_none_of_not_framed (bytes : List Byte) (hb : ∀ b ∈ bytes, b < 256)
    (h : ¬ Framed bytes) : readArchive bytes = none := by
  cases hread : readArchive bytes with
  | none => rfl
  | some r =>
    exact absurd ((framed_iff_readArchive bytes hb).mpr (by rw [hread]; rfl)) h

theorem farPrint_code_cases (archive : Option (List Byte)) :
    (archive = none → (farPrint archive).code = FAR_RTRN.OPEN_ERROR) ∧
    (∀ bytes, archive = some bytes →
      (Framed bytes → (farPrint archive).code = FAR_RTRN.SUCCESS) ∧
      ((∀ b ∈ bytes, b < 256) → ¬ Framed bytes →
        (farPrint archive).code = FAR_RTRN.CORRUPTED_ARCH)) := by
  refine ⟨?_, ?_⟩
  · intro h
    rw [h]
    rfl
  · intro bytes h
    rw [h, farPrint_code]
    refine ⟨?_, ?_⟩
    · intro hf
      rw [if_pos (readArchive_isSome_of_framed bytes hf)]
    · intro hb hf
      rw [readArchive_none_of_not_framed bytes hb hf]
      rfl

theorem farDelete_framed (bytes : List Byte) (temp : Option (List Byte))
    (fileArgs : List CStr) (h : (readArchive bytes).isSome = true) :
    (farDelete true { archive := some bytes, temp := temp } fileArgs).code
      = FAR_RTRN.SUCCESS := by
  by_cases hlen : fileArgs.length = 0
  · unfold farDelete
    simp only [hlen, if_true]
  · unfold farDelete
    simp only [hlen, if_false]
    unfold readArchive at h
    cases hcount : freadUint bytes with
    | none => simp [hcount] at h
    | some r =>
      obtain ⟨n, after⟩ := r
      simp only [hcount] at h
      have hsome := farDeleteLoop_isSome fileArgs (fileArgs.map ensureSingleSlash)
        fileArgs.length n
        { oldArchive := after, tempArchive := fwriteUint 0, newNumFiles := 0, usedArgs := [] }
      simp only [h] at hsome
      cases hloop : farDeleteLoop fileArgs (fileArgs.map ensureSingleSlash) fileArgs.length n
          { oldArchive := after, tempArchive := fwriteUint 0, newNumFiles := 0,
            usedArgs := [] } with
      | none =>
        rw [hloop] at hsome
        simp at hsome
      | some st => simp [hloop]

theorem farDelete_code_cases (tempOk : Bool) (archive temp : Option (List Byte))
    (fileArgs : List CStr) (hargs : fileArgs ≠ []) :
    (archive = none →
      (farDelete tempOk { archive := archive, temp := temp } fileArgs).code
        = FAR_RTRN.OPEN_ERROR) ∧
    (∀ bytes, archive = some bytes →
      (freadUint bytes = none →
        (farDelete tempOk { archive := archive, temp := temp } fileArgs).code
          = FAR_RTRN.CORRUPTED_ARCH) ∧
      (freadUint bytes ≠ none → tempOk = false →
        (farDelete tempOk { archive := archive, temp := temp } fileArgs).code
          = FAR_RTRN.TEMP_FILE_ERROR) ∧
      (tempOk = true → Framed bytes →
        (farDelete tempOk { archive := archive, temp := temp } fileArgs).code
          = FAR_RTRN.SUCCESS) ∧
      (tempOk = true → (∀ b ∈ bytes, b < 256) → ¬ Framed bytes →
        (farDelete tempOk { archive := archive, temp := temp } fileArgs).code
          = FAR_RTRN.CORRUPTED_ARCH)) := by
  have hlen : fileArgs.length ≠ 0 := fun h0 => hargs (List.length_eq_zero.mp h0)
  refine ⟨?_, ?_⟩
  · intro h
    rw [h]
    unfold farDelete
    simp only [hlen, if_false]
  · intro bytes h
    rw [h]
    refine ⟨?_, ?_, ?_, ?_⟩
    · intro hcount
      unfold farDelete
      simp only [hlen, if_false, hcount]
    · intro hcount htemp
      cases hc : freadUint bytes with
      | none => exact absurd hc hcount
      | some r =>
        obtain ⟨n, rest⟩ := r
        rw [htemp, farDelete_temp_fails bytes n rest temp fileArgs hargs hc]
    · intro htemp hf
      rw [htemp]
      exact farDelete_framed bytes temp fileArgs (readArchive_isSome_of_framed bytes hf)
    · intro htemp hb hf
      rw [htemp]
      exact farDelete_unframed bytes temp fileArgs hargs
        (readArchive_none_of_not_framed bytes hb hf)

theorem farAddAppendLoop_isSome (fs : FileSys) (pre post : List CStr) (st : AddState)
    (hopen : Openable fs post) :
    (farAddAppendLoop fs (pre ++ post) post.length pre.length st).isSome = true := by
  induction post generalizing pre st with
  | nil => rfl
  | cons name post ih =>
    obtain ⟨err1, hstep⟩ := farAddAppendStep_spec fs pre post name st (hopen name (by simp))
    simp only [List.length_cons, farAddAppendLoop, hstep]
    have hassoc : pre ++ name :: post = (pre ++ [name]) ++ post := by simp
    have hlen : pre.length + 1 = (pre ++ [name]).length := by simp
    rw [hassoc, hlen]
    exact ih (pre ++ [name]) _ (fun c hc => hopen c (by simp [hc]))

theorem farAdd_success_of_copy (fs : FileSys) (archive temp : Option (List Byte))
    (fileArgs : List CStr) (n : Nat) (after : List Byte) (hargs : fileArgs ≠ [])
    (hopened : (match archive with
      | some bytes => freadUint bytes
      | none => some (0, [])) = some (n, after))
    (hread : (readEntries n after).isSome = true)
    (hopen : Openable fs (fileListNew fs fileArgs).names) :
    (farAdd fs true { archive := archive, temp := temp } fileArgs).map (fun out => out.code)
      = some FAR_RTRN.SUCCESS := by
  have hlen : fileArgs.length ≠ 0 := fun h0 => hargs (List.length_eq_zero.mp h0)
  unfold farAdd
  simp only [hlen, if_false, hopened, Bool.true_eq_false]
  have hsome := farAddCopyLoop_isSome (fileListNew fs fileArgs).names n
    { oldArchive := after, tempArchive := fwriteUint 0, newNumFiles := 0,
      stderr := (fileListNew fs fileArgs).stderr }
  simp only [hread] at hsome
  cases hloop : farAddCopyLoop (fileListNew fs fileArgs).names n
      { oldArchive := after, tempArchive := fwriteUint 0, newNumFiles := 0,
        stderr := (fileListNew fs fileArgs).stderr } with
  | none =>
    rw [hloop] at hsome
    simp at hsome
  | some st =>
    simp only
    have happ := farAddAppendLoop_isSome fs [] (fileListNew fs fileArgs).names st hopen
    simp only [List.nil_append, List.length_nil] at happ
    cases hloop2 : farAddAppendLoop fs (fileListNew fs fileArgs).names
        (fileListNew fs fileArgs).names.length 0 st with
    | none =>
      rw [hloop2] at happ
      simp at happ
    | some st2 => rfl

theorem farAdd_code_ne_open_error (fs : FileSys) (tempOk : Bool) (disk : Disk)
    (fileArgs : List CStr) (out : Outcome) (h : farAdd fs tempOk disk fileArgs = some out) :
    out.code ≠ FAR_RTRN.OPEN_ERROR := by
  obtain ⟨archive, temp⟩ := disk
  unfold farAdd at h
  by_cases hlen : fileArgs.length = 0
  · simp only [hlen, if_true, Option.some.injEq] at h
    rw [← h]
    exact fun hc => FAR_RTRN.noConfusion hc
  · simp only [hlen, if_false] at h
    split at h
    · simp only [Option.some.injEq] at h
      rw [← h]
      exact fun hc => FAR_RTRN.noConfusion hc
    · split at h
      · split at h
        · exact absurd h (by simp)
        · simp only [Option.some.injEq] at h
          rw [← h]
          exact fun hc => FAR_RTRN.noConfusion hc
      · split at h
        · simp only [Option.some.injEq] at h
          rw [← h]
          exact fun hc => FAR_RTRN.noConfusion hc
        · split at h
          · exact absurd h (by simp)
          · simp only [Option.some.injEq] at h
            rw [← h]
            exact fun hc => FAR_RTRN.noConfusion hc

theorem farAdd_code_cases (fs : FileSys) (tempOk : Bool) (archive temp : Option (List Byte))
    (fileArgs : List CStr) (hargs : fileArgs ≠ []) :
    (archive = none → tempOk = false →
      farAdd fs tempOk { archive := archive, temp := temp } fileArgs = none) ∧
    (archive = none → tempOk = true → Openable fs (fileListNew fs fileArgs).names →
      (farAdd fs tempOk { archive := archive, temp := temp } fileArgs).map
        (fun out => out.code) = some FAR_RTRN.SUCCESS) ∧
    (∀ bytes, archive = some bytes →
      (freadUint bytes = none →
        (farAdd fs tempOk { archive := archive, temp := temp } fileArgs).map
          (fun out => out.code) = some FAR_RTRN.CORRUPTED_ARCH) ∧
      (freadUint bytes ≠ none → tempOk = false →
        (farAdd fs tempOk { archive := archive, temp := temp } fileArgs).map
          (fun out => out.code) = some FAR_RTRN.TEMP_FILE_ERROR) ∧
      (tempOk = true → Framed bytes → Openable fs (fileListNew fs fileArgs).names →
        (farAdd fs tempOk { archive := archive, temp := temp } fileArgs).map
          (fun out => out.code) = some FAR_RTRN.SUCCESS) ∧
      (tempOk = true → (∀ b ∈ bytes, b < 256) → ¬ Framed bytes →
        (farAdd fs tempOk { archive := archive, temp := temp } fileArgs).map
          (fun out => out.code) = some FAR_RTRN.CORRUPTED_ARCH)) := by
  have hlen : fileArgs.length ≠ 0 := fun h0 => hargs (List.length_eq_zero.mp h0)
  refine ⟨?_, ?_, ?_⟩
  · intro h htemp
    rw [h, htemp]
    unfold farAdd
    simp only [hlen, if_false, if_true]
  · intro h htemp hopen
    rw [h, htemp]
    exact farAdd_success_of_copy fs none temp fileArgs 0 [] hargs rfl rfl hopen
  · intro bytes h
    rw [h]
    refine ⟨?_, ?_, ?_, ?_⟩
    · intro hcount
      unfold farAdd
      simp only [hlen, if_false, hcount, Option.map_some']
    · intro hcount htemp
      cases hc : freadUint bytes with
      | none => exact absurd hc hcount
      | some r =>
        rw [htemp]
        unfold farAdd
        simp only [hlen, if_false, hc, if_true, Option.map_some']
    · intro htemp hf hopen
      rw [htemp]
      have hread := readArchive_isSome_of_framed bytes hf
      unfold readArchive at hread
      cases hc : freadUint bytes with
      | none => simp [hc] at hread
      | some r =>
        obtain ⟨n, after⟩ := r
        simp only [hc] at hread
        exact farAdd_success_of_copy fs (some bytes) temp fileArgs n after hargs hc hread hopen
    · intro htemp hb hf
      rw [htemp]
      exact farAdd_unframed fs bytes temp fileArgs hargs
        (readArchive_none_of_not_framed bytes hb hf)

theorem farExtractLoop_add {σ : Type} (fsx : ExtractFS σ) (fileArgs slashedFileArgs : List CStr)
    (numFileArgs m n : Nat) (st : ExtractState σ) :
    farExtractLoop fsx fileArgs slashedFileArgs numFileArgs (m + n) st
      = if (farExtractLoop fsx fileArgs slashedFileArgs numFileArgs m st).1 = true then
          farExtractLoop fsx fileArgs slashedFileArgs numFileArgs n
            (farExtractLoop fsx fileArgs slashedFileArgs numFileArgs m st).2
        else farExtractLoop fsx fileArgs slashedFileArgs numFileArgs m st := by
  induction m generalizing st with
  | zero => simp [farExtractLoop]
  | succ m ih =>
    have hsucc : m + 1 + n = (m + n) + 1 := by omega
    rw [hsucc]
    simp only [farExtractLoop]
    cases hname : getFileName st.archive with
    | none => simp
    | some r1 =>
      obtain ⟨filename, afterName⟩ := r1
      simp only
      cases hsize : freadUint afterName with
      | none => simp
      | some r2 =>
        obtain ⟨fileSize, afterSize⟩ := r2
        simp only
        by_cases hnum : numFileArgs = 0
        · rw [if_pos hnum, if_pos hnum]
          by_cases hneg : (extractFile fsx filename fileSize
              { st with archive := afterSize }).1 < 0
          · simp only [hneg, if_true]
            simp
          · simp only [hneg, if_false]
            rw [ih]
        · simp only [hnum, if_false]
          by_cases hmatch : isDuplicateFile filename fileArgs numFileArgs ≥ 0 ∨
              isDirectoryMatch filename slashedFileArgs numFileArgs ≥ 0
          · simp only [hmatch, if_true]
            split
            · simp
            · rw [ih]
          · simp only [hmatch, if_false]
            cases hbody : readBodyLoop fileSize afterSize with
            | none => simp
            | some r3 =>
              simp only
              rw [ih]

theorem farExtractLoop_truncated {σ : Type} (fsx : ExtractFS σ) (fileArgs : List CStr)
    (e : Entry) (k n : Nat) (hvalid : e.Valid) (hk : k < e.size)
    (hopen : ∀ w n, (fsx.fopen w n).1 = true)
    (hext : Extracted fileArgs e.name → NamesFile e.name)
    (st : ExtractState σ)
    (harchive : st.archive = e.name ++ 0 :: (fwriteUint e.size ++ e.body.take k)) :
    (farExtractLoop fsx fileArgs (fileArgs.map ensureSingleSlash) fileArgs.length
      (n + 1) st).1 = false := by
  obtain ⟨hname, hsize, hbody⟩ := hvalid
  have hshort : (e.body.take k).length < e.size := by
    rw [List.length_take]
    omega
  have hfile : ∀ st1 : ExtractState σ, st1.archive = e.body.take k → NamesFile e.name →
      (extractFile fsx e.name e.size st1).1 < 0 := by
    intro st1 h1 hnf
    unfold extractFile
    rw [extractFileLoop_short fsx e.name e.size hopen (getD_last_of_namesFile _ hnf)
      (e.name.length + 2) 0 st1 (List.length_pos.mpr hnf.1) (by omega) (by rw [h1]; exact hshort)]
    decide
  simp only [farExtractLoop, harchive]
  rw [getFileName_append _ _ hname]
  simp only
  rw [freadUint_fwriteUint _ _ hsize]
  simp only
  by_cases hnil : fileArgs = []
  · subst hnil
    simp only [List.length_nil, if_true]
    rw [if_pos (hfile _ rfl (hext (Or.inl rfl)))]
  · have hargs : fileArgs.length ≠ 0 := fun h => hnil (List.length_eq_zero.mp h)
    simp only [hargs, if_false]
    cases hm : matchIndex fileArgs e.name with
    | none =>
      have hm' := hm
      unfold matchIndex at hm'
      have hneg := (usedArgIndex_eq_none_iff _ _).mp hm'
      have hnot : ¬ (isDuplicateFile e.name fileArgs fileArgs.length ≥ 0 ∨
          isDirectoryMatch e.name (fileArgs.map ensureSingleSlash) fileArgs.length ≥ 0) := by
        omega
      simp only [hnot, if_false, readBodyLoop_short e.size (e.body.take k) hshort]
    | some i =>
      have hm' := hm
      unfold matchIndex at hm'
      have hpos : (isDuplicateFile e.name fileArgs fileArgs.length ≥ 0 ∨
          isDirectoryMatch e.name (fileArgs.map ensureSingleSlash) fileArgs.length ≥ 0) := by
        apply (usedArgIndex_ne_none_iff _ _).mp
        rw [hm']
        simp
      have hextracted : Extracted fileArgs e.name := Or.inr (by rw [hm]; simp)
      simp only [hpos, if_true]
      rw [if_pos (hfile _ rfl (hext hextracted))]

theorem farExtract_truncated {σ : Type} (fsx : ExtractFS σ) (world : σ) (fileArgs : List CStr)
    (pre : List Entry) (e : Entry) (post : List Entry) (k : Nat)
    (hlen : (pre ++ e :: post).length < 4294967296)
    (hvalid : ∀ x ∈ pre ++ e :: post, x.Valid) (hk : k < e.size)
    (hopen : ∀ w n, (fsx.fopen w n).1 = true)
    (hext : ∀ x ∈ pre ++ [e], Extracted fileArgs x.name → x.size = 0 ∨ NamesFile x.name) :
    (farExtract fsx (some (truncatedInBody pre e post k)) world fileArgs).code
      = FAR_RTRN.CORRUPTED_ARCH := by
  have hpre : ∀ x ∈ pre, x.Valid := fun x hx => hvalid x (by simp [hx])
  have hextpre : ∀ x ∈ pre, Extracted fileArgs x.name → x.size = 0 ∨ NamesFile x.name :=
    fun x hx => hext x (by simp [hx])
  have hexte : Extracted fileArgs e.name → NamesFile e.name := by
    intro hx
    rcases hext e (by simp) hx with h0 | hnf
    · omega
    · exact hnf
  have hcount : freadUint (truncatedInBody pre e post k)
      = some (pre.length + (post.length + 1),
          encodeEntries pre ++ (e.name ++ 0 :: (fwriteUint e.size ++ e.body.take k))) := by
    unfold truncatedInBody
    have hl : (pre ++ e :: post).length = pre.length + (post.length + 1) := by simp
    rw [hl] at hlen ⊢
    rw [List.append_assoc, freadUint_fwriteUint _ _ hlen]
    simp
  have hloop := farExtractLoop_encode fsx fileArgs pre hpre hopen hextpre
    (e.name ++ 0 :: (fwriteUint e.size ++ e.body.take k))
    { archive := encodeEntries pre ++ (e.name ++ 0 :: (fwriteUint e.size ++ e.body.take k)),
      world := world, stderr := [], usedArgs := [] } rfl
  have hfalse := farExtractLoop_truncated fsx fileArgs e k post.length (hvalid e (by simp)) hk
    hopen hexte _ hloop.2.1
  have hadd := farExtractLoop_add fsx fileArgs (fileArgs.map ensureSingleSlash) fileArgs.length
    pre.length (post.length + 1)
    { archive := encodeEntries pre ++ (e.name ++ 0 :: (fwriteUint e.size ++ e.body.take k)),
      world := world, stderr := [], usedArgs := [] }
  rw [if_pos hloop.1] at hadd
  unfold farExtract
  simp only [hcount]
  rw [hadd]
  split
  · rfl
  · rename_i st heq
    rw [heq] at hfalse
    simp at hfalse

theorem farExtract_wellFormed_code {σ : Type} (fsx : ExtractFS σ) (world : σ)
    (fileArgs : List CStr) (bytes : List Byte) (es : List Entry) (hwf : WellFormed bytes es)
    (hopen : ∀ w n, (fsx.fopen w n).1 = true)
    (hext : ∀ e ∈ es, Extracted fileArgs e.name → e.size = 0 ∨ NamesFile e.name) :
    (farExtract fsx (some bytes) world fileArgs).code = FAR_RTRN.SUCCESS := by
  have h := farExtractLoop_encode fsx fileArgs es hwf.2.1 hopen hext []
    { archive := encodeEntries es, world := world, stderr := [], usedArgs := [] }
    (by simp)
  unfold farExtract
  simp only [freadUint_wellFormed bytes es hwf]
  split
  · rename_i st heq
    rw [heq] at h
    exact absurd h.1 (by simp)
  · rfl

/-! ## C19: the exit code of the program -/

theorem freadUint_eq_none_iff (bytes : List Byte) : freadUint bytes = none ↔ bytes.length < 4 := by
  match bytes with
  | [] => simp [freadUint]
  | [_] => simp [freadUint]
  | [_, _] => simp [freadUint]
  | [_, _, _] => simp [freadUint]
  | _ :: _ :: _ :: _ :: rest => simp [freadUint]

theorem toInt_map_eq (r : Option Outcome) (c : FAR_RTRN)
    (h : r.map (fun out => out.code) = some c) :
    r.map (fun out => out.code.toInt) = some c.toInt := by
  cases r with
  | none => simp at h
  | some out =>
    simp only [Option.map_some', Option.some.injEq] at h ⊢
    rw [h]

/-- C19 (as amended): main returns 1 when it is given fewer than 3 arguments and 4 when the key
is none of `r`, `x`, `d`, `t`; otherwise it returns the value far.h gives the return code of the
command: 0 for SUCCESS, 1 for OPEN_ERROR, 2 for CORRUPTED_ARCH, 3 for TEMP_FILE_ERROR. The names
are those main hands to the command, `filenamesOf argv`.
* `t` returns 1 when the archive cannot be opened, 0 when its content begins with a count and
  that many complete entries, and 2 on any other content.
* `d` returns 0 when it is handed no name; handed a name it returns 1 when the archive cannot
  be opened, 2 when the archive is shorter than its 4-byte count, 3 when the count can be read
  and the temporary file cannot be created, and, the temporary file being creatable, 0 when the
  content begins with a count and that many complete entries and 2 on any other content.
* `r` never returns 1 and returns 0 when it is handed no name; handed a name and an archive
  that cannot be opened it returns 0 when the temporary file can be created and every candidate
  can be opened, and has no defined result when the temporary file cannot be created; on an
  archive that is opened it returns 2, 3, 0 and 2 under the conditions of `d`, the code 0
  requiring in addition that every candidate can be opened.
* `x` returns 1 when the archive cannot be opened and 2 when the archive is shorter than its
  4-byte count; when every destination file can be opened it returns 0 on a well-formed archive
  and 2 on a well-formed archive cut inside the body of an entry, the entries extracted (up to
  the cut) having size 0 or a non-empty name that does not end in `'/'`. -/
theorem C19_exit_codes {σ : Type} (fs : FileSys) (tempOk : Bool) (disk : Disk)
    (fsx : ExtractFS σ) (world : σ) (argv : List CStr) :
    (argv.length < 3 → main fs tempOk disk fsx world argv = some 1) ∧
    (3 ≤ argv.length → argv.getD 1 [] ∉ [keyR, keyX, keyD, keyT] →
      main fs tempOk disk fsx world argv = some 4) ∧
    (3 ≤ argv.length → argv.getD 1 [] = keyT →
      (disk.archive = none → main fs tempOk disk fsx world argv = some 1) ∧
      (∀ bytes, disk.archive = some bytes →
        (Framed bytes → main fs tempOk disk fsx world argv = some 0) ∧
        ((∀ b ∈ bytes, b < 256) → ¬ Framed bytes →
          main fs tempOk disk fsx world argv = some 2))) ∧
    (3 ≤ argv.length → argv.getD 1 [] = keyD →
      (filenamesOf argv = [] → main fs tempOk disk fsx world argv = some 0) ∧
      (filenamesOf argv ≠ [] →
        (disk.archive = none → main fs tempOk disk fsx world argv = some 1) ∧
        (∀ bytes, disk.archive = some bytes →
          (bytes.length < 4 → main fs tempOk disk fsx world argv = some 2) ∧
          (4 ≤ bytes.length → tempOk = false →
            main fs tempOk disk fsx world argv = some 3) ∧
          (tempOk = true → Framed bytes → main fs tempOk disk fsx world argv = some 0) ∧
          (tempOk = true → (∀ b ∈ bytes, b < 256) → ¬ Framed bytes →
            main fs tempOk disk fsx world argv = some 2)))) ∧
    (3 ≤ argv.length → argv.getD 1 [] = keyR →
      main fs tempOk disk fsx world argv ≠ some 1 ∧
      (filenamesOf argv = [] → main fs tempOk disk fsx world argv = some 0) ∧
      (filenamesOf argv ≠ [] →
        (disk.archive = none → tempOk = false →
          main fs tempOk disk fsx world argv = none) ∧
        (disk.archive = none → tempOk = true →
          Openable fs (fileListNew fs (filenamesOf argv)).names →
          main fs tempOk disk fsx world argv = some 0) ∧
        (∀ bytes, disk.archive = some bytes →
          (bytes.length < 4 → main fs tempOk disk fsx world argv = some 2) ∧
          (4 ≤ bytes.length → tempOk = false →
            main fs tempOk disk fsx world argv = some 3) ∧
          (tempOk = true → Framed bytes →
            Openable fs (fileListNew fs (filenamesOf argv)).names →
            main fs tempOk disk fsx world argv = some 0) ∧
          (tempOk = true → (∀ b ∈ bytes, b < 256) → ¬ Framed bytes →
            main fs tempOk disk fsx world argv = some 2)))) ∧
    (3 ≤ argv.length → argv.getD 1 [] = keyX →
      (disk.archive = none → main fs tempOk disk fsx world argv = some 1) ∧
      (∀ bytes, disk.archive = some bytes →
        (bytes.length < 4 → main fs tempOk disk fsx world argv = some 2) ∧
        ((∀ w n, (fsx.fopen w n).1 = true) →
          (∀ es, WellFormed bytes es →
            (∀ e ∈ es, Extracted (filenamesOf argv) e.name → e.size = 0 ∨ NamesFile e.name) →
            main fs tempOk disk fsx world argv = some 0) ∧
          (∀ pre e post k, bytes = truncatedInBody pre e post k →
            (pre ++ e :: post).length < 4294967296 → (∀ x ∈ pre ++ e :: post, x.Valid) →
            k < e.size →
            (∀ x ∈ pre ++ [e],
              Extracted (filenamesOf argv) x.name → x.size = 0 ∨ NamesFile x.name) →
            main fs tempOk disk fsx world argv = some 2)))) ∧
    (FAR_RTRN.SUCCESS.toInt = 0 ∧ FAR_RTRN.OPEN_ERROR.toInt = 1 ∧
      FAR_RTRN.CORRUPTED_ARCH.toInt = 2 ∧ FAR_RTRN.TEMP_FILE_ERROR.toInt = 3) := by
  obtain ⟨archive, temp⟩ := disk
  refine ⟨?_, ?_, ?_, ?_, ?_, ?_, ⟨rfl, rfl, rfl, rfl⟩⟩
  · intro h
    simp [main, h]
  · intro h hkey
    exact (main_dispatch fs tempOk _ fsx world argv h).2.2.2.2 hkey
  · intro h hkey
    rw [(main_dispatch fs tempOk _ fsx world argv h).2.2.2.1 hkey]
    obtain ⟨h1, h2⟩ := farPrint_code_cases archive
    refine ⟨fun hn => by rw [h1 hn]; rfl, fun bytes hb => ⟨?_, ?_⟩⟩
    · intro hf
      rw [(h2 bytes hb).1 hf]
      rfl
    · intro hr hf
      rw [(h2 bytes hb).2 hr hf]
      rfl
  · intro h hkey
    rw [(main_dispatch fs tempOk _ fsx world argv h).2.2.1 hkey]
    refine ⟨?_, ?_⟩
    · intro hnil
      rw [hnil]
      rfl
    · intro hargs
      obtain ⟨h1, h2⟩ := farDelete_code_cases tempOk archive temp (filenamesOf argv) hargs
      refine ⟨fun hn => by rw [h1 hn]; rfl, fun bytes hb => ⟨?_, ?_, ?_, ?_⟩⟩
      · intro hshort
        rw [(h2 bytes hb).1 ((freadUint_eq_none_iff bytes).mpr hshort)]
        rfl
      · intro hlong htemp
        rw [(h2 bytes hb).2.1 (fun hc => by
          have := (freadUint_eq_none_iff bytes).mp hc
          omega) htemp]
        rfl
      · intro htemp hf
        rw [(h2 bytes hb).2.2.1 htemp hf]
        rfl
      · intro htemp hr hf
        rw [(h2 bytes hb).2.2.2 htemp hr hf]
        rfl
  · intro h hkey
    rw [(main_dispatch fs tempOk _ fsx world argv h).1 hkey]
    refine ⟨?_, ?_, ?_⟩
    · intro hone
      cases hadd : farAdd fs tempOk { archive := archive, temp := temp } (filenamesOf argv) with
      | none =>
        rw [hadd] at hone
        simp at hone
      | some out =>
        rw [hadd] at hone
        simp only [Option.map_some', Option.some.injEq] at hone
        have hne := farAdd_code_ne_open_error fs tempOk _ _ out hadd
        cases hcode : out.code with
        | SUCCESS =>
          rw [hcode] at hone
          exact absurd hone (by decide)
        | OPEN_ERROR => exact hne hcode
        | CORRUPTED_ARCH =>
          rw [hcode] at hone
          exact absurd hone (by decide)
        | TEMP_FILE_ERROR =>
          rw [hcode] at hone
          exact absurd hone (by decide)
    · intro hnil
      rw [hnil]
      rfl
    · intro hargs
      obtain ⟨h1, h2, h3⟩ := farAdd_code_cases fs tempOk archive temp (filenamesOf argv) hargs
      refine ⟨?_, ?_, fun bytes hb => ⟨?_, ?_, ?_, ?_⟩⟩
      · intro hn htemp
        rw [h1 hn htemp]
        rfl
      · intro hn htemp hopen
        exact toInt_map_eq _ _ (h2 hn htemp hopen)
      · intro hshort
        exact toInt_map_eq _ _ ((h3 bytes hb).1 ((freadUint_eq_none_iff bytes).mpr hshort))
      · intro hlong htemp
        exact toInt_map_eq _ _ ((h3 bytes hb).2.1 (fun hc => by
          have := (freadUint_eq_none_iff bytes).mp hc
          omega) htemp)
      · intro htemp hf hopen
        exact toInt_map_eq _ _ ((h3 bytes hb).2.2.1 htemp hf hopen)
      · intro htemp hr hf
        exact toInt_map_eq _ _ ((h3 bytes hb).2.2.2 htemp hr hf)
  · intro h hkey
    rw [(main_dispatch fs tempOk _ fsx world argv h).2.1 hkey]
    refine ⟨?_, fun bytes hb => ⟨?_, fun hopen => ⟨?_, ?_⟩⟩⟩
    · intro hn
      have hn' : archive = none := hn
      rw [show ({ archive := archive, temp := temp } : Disk).archive = none from hn']
      rfl
    · intro hshort
      have hb' : archive = some bytes := hb
      rw [show ({ archive := archive, temp := temp } : Disk).archive = some bytes from hb']
      unfold farExtract
      simp only [(freadUint_eq_none_iff bytes).mpr hshort]
      rfl
    · intro es hwf hext
      have hb' : archive = some bytes := hb
      rw [show ({ archive := archive, temp := temp } : Disk).archive = some bytes from hb',
        farExtract_wellFormed_code fsx world (filenamesOf argv) bytes es hwf hopen hext]
      rfl
    · intro pre e post k hbytes hlen hvalid hk hext
      have hb' : archive = some bytes := hb
      rw [show ({ archive := archive, temp := temp } : Disk).archive = some bytes from hb',
        hbytes,
        farExtract_truncated fsx world (filenamesOf argv) pre e post k hlen hvalid hk hopen hext]
      rfl

/-- C19 at the command lines `far`, `far q a`, `far t a` (on an archive that cannot be opened,
on the archive holding `x.txt` and `y.txt`, and on its first 12 bytes), `far d a x.txt` (on an
archive that cannot be opened, and on the example archive when the temporary file cannot be
created), `far d a` on the first 12 bytes, `far r a f` on an archive that cannot be opened, and
`far x a` on the example archive cut after two body bytes of `x.txt`. -/
theorem C19_exit_codes_witness :
    main (oneFileSys [] 0) true { archive := none, temp := none } permissiveFS [] [[102]]
      = some 1 ∧
    main (oneFileSys [] 0) true { archive := none, temp := none } permissiveFS []
        [[102], [113], [97]] = some 4 ∧
    main (oneFileSys [] 0) true { archive := none, temp := none } permissiveFS []
        [[102], keyT, [97]] = some 1 ∧
    main (oneFileSys [] 0) true { archive := some (encodeArchive exampleEntries), temp := none }
        permissiveFS [] [[102], keyT, [97]] = some 0 ∧
    main (oneFileSys [] 0) true
        { archive := some ((encodeArchive exampleEntries).take 12), temp := none }
        permissiveFS [] [[102], keyT, [97]] = some 2 ∧
    main (oneFileSys [] 0) true { archive := none, temp := none } permissiveFS []
        [[102], keyD, [97], [120, 46, 116, 120, 116]] = some 1 ∧
    main (oneFileSys [] 0) false { archive := some (encodeArchive exampleEntries), temp := none }
        permissiveFS [] [[102], keyD, [97], [120, 46, 116, 120, 116]] = some 3 ∧
    main (oneFileSys [] 0) true
        { archive := some ((encodeArchive exampleEntries).take 12), temp := none }
        permissiveFS [] [[102], keyD, [97]] = some 0 ∧
    main (oneFileSys [] 0) true { archive := none, temp := none } permissiveFS []
        [[102], keyR, [97], [102]] = some 0 ∧
    main (oneFileSys [] 0) true
        { archive := some (truncatedInBody []
            { name := [120, 46, 116, 120, 116], size := 5, body := [104, 101, 108, 108, 111] }
            [{ name := [121, 46, 116, 120, 116], size := 3, body := [98, 121, 101] }] 2),
          temp := none }
        permissiveFS [] [[102], keyX, [97]] = some 2 :=
  ⟨(C19_exit_codes (oneFileSys [] 0) true { archive := none, temp := none } permissiveFS []
      [[102]]).1 (by decide),
   (C19_exit_codes (oneFileSys [] 0) true { archive := none, temp := none } permissiveFS []
      [[102], [113], [97]]).2.1 (by decide) (by decide),
   ((C19_exit_codes (oneFileSys [] 0) true { archive := none, temp := none } permissiveFS []
      [[102], keyT, [97]]).2.2.1 (by decide) (by decide)).1 rfl,
   (((C19_exit_codes (oneFileSys [] 0) true
      { archive := some (encodeArchive exampleEntries), temp := none } permissiveFS []
      [[102], keyT, [97]]).2.2.1 (by decide) (by decide)).2 _ rfl).1
      ⟨exampleEntries, [], by decide, by decide, by decide⟩,
   (((C19_exit_codes (oneFileSys [] 0) true
      { archive := some ((encodeArchive exampleEntries).take 12), temp := none } permissiveFS []
      [[102], keyT, [97]]).2.2.1 (by decide) (by decide)).2 _ rfl).2 (by decide)
      (fun h => absurd (readArchive_isSome_of_framed _ h) (by decide)),
   (((C19_exit_codes (oneFileSys [] 0) true { archive := none, temp := none } permissiveFS []
      [[102], keyD, [97], [120, 46, 116, 120, 116]]).2.2.2.1 (by decide) (by decide)).2
      (by decide)).1 rfl,
   ((((C19_exit_codes (oneFileSys [] 0) false
      { archive := some (encodeArchive exampleEntries), temp := none } permissiveFS []
      [[102], keyD, [97], [120, 46, 116, 120, 116]]).2.2.2.1 (by decide) (by decide)).2
      (by decide)).2 _ rfl).2.1 (by decide) rfl,
   ((C19_exit_codes (oneFileSys [] 0) true
      { archive := some ((encodeArchive exampleEntries).take 12), temp := none } permissiveFS []
      [[102], keyD, [97]]).2.2.2.1 (by decide) (by decide)).1 (by decide),
   (((C19_exit_codes (oneFileSys [] 0) true { archive := none, temp := none } permissiveFS []
      [[102], keyR, [97], [102]]).2.2.2.2.1 (by decide) (by decide)).2.2 (by decide)).2.1
      rfl rfl (by decide),
   ((((C19_exit_codes (oneFileSys [] 0) true
      { archive := some (truncatedInBody []
          { name := [120, 46, 116, 120, 116], size := 5, body := [104, 101, 108, 108, 111] }
          [{ name := [121, 46, 116, 120, 116], size := 3, body := [98, 121, 101] }] 2),
        temp := none }
      permissiveFS [] [[102], keyX, [97]]).2.2.2.2.2.1 (by decide) (by decide)).2 _ rfl).2
      (fun _ _ => rfl)).2 []
      { name := [120, 46, 116, 120, 116], size := 5, body := [104, 101, 108, 108, 111] }
      [{ name := [121, 46, 116, 120, 116], size := 3, body := [98, 121, 101] }] 2
      rfl (by decide) (by decide) (by decide) (by decide)⟩

/-- C19 (counterexample): `far t a` returns 1, not 2, when the archive `a` cannot be opened;
it returns 2, not 3, when `a` is an empty file, which is a corrupted archive; and `far d a x`
returns 3 when `a` is an archive without entries and the temporary file cannot be created. -/
theorem C19_open_error_exits_with_1 :
    main (oneFileSys [] 0) true { archive := none, temp := none } permissiveFS []
        [[102], keyT, [97]] = some 1 ∧
    main (oneFileSys [] 0) true { archive := some [], temp := none } permissiveFS []
        [[102], keyT, [97]] = some 2 ∧
    main (oneFileSys [] 0) false { archive := some (encodeArchive []), temp := none }
        permissiveFS [] [[102], keyD, [97], [120]] = some 3 := by
  decide

end Far
